import Mathlib

/-!
# Flower garden: motion engine (`flower.c`)

A shallow embedding of the petal motion code and of the command parser.

Modelling conventions.
* `float` angles are exact rationals (`ℚ`); infinities and NaN are not
  modelled.  The arithmetic of `Flower_update` is exact: its rounding error is
  not modelled.  The `float` operations of `Flower_buildStatus` and of the tick
  loop of the client, `target_angle - current_angle` and
  `current_angle + 0.5f`, are rounded to binary32 (`f32`).
* `int` values are mathematical integers.  The one addition that can leave the
  32-bit range, `elapsed_ms += dt_ms`, is wrapped explicitly (`wrapInt32`).
* A C string is the list of its characters before the terminating NUL.
* `Petal petals[FLOWER_MAX_PETALS]` is a function on `Fin FLOWER_MAX_PETALS`;
  a write through an index outside the array is dropped and a read outside
  the array yields `Petal.zero` (both are undefined behaviour in C).
* Null-pointer guards are omitted: every pointer argument is a valid object.
-/

set_option autoImplicit false

namespace FlowerGarden

/-! ## Data model (`flower.h`) -/

/-- The constant `FLOWER_MAX_PETALS` of `flower.h`. -/
abbrev FLOWER_MAX_PETALS : Nat := 8

/-- The struct `Petal`. -/
structure Petal where
  current_angle : ℚ
  target_angle : ℚ
  delay_ms : Int

/-- Value read by the model outside the petal array. -/
def Petal.zero : Petal := ⟨0, 0, 0⟩

/-- The array `Petal petals[FLOWER_MAX_PETALS]`. -/
abbrev Petals : Type := Fin FLOWER_MAX_PETALS → Petal

/-- The struct `Flower`. -/
structure Flower where
  name : List Char
  num_petals : Int
  petals : Petals
  bloom_angle : ℚ
  close_angle : ℚ
  speed_deg_per_sec : ℚ
  seq_active : Int
  elapsed_ms : Int

/-- In-place update `petals[i].… = …` of the element at index `i`. -/
def modifyPetal (ps : Petals) (i : Int) (g : Petal → Petal) : Petals :=
  fun j => if (j.val : Int) = i then g (ps j) else ps j

/-- Read `petals[i]`. -/
def petalAt (ps : Petals) (i : Nat) : Petal :=
  if h : i < FLOWER_MAX_PETALS then ps ⟨i, h⟩ else Petal.zero

/-- The loop `for (int i = 0; i < n; i++) { petals[i] = body i petals[i]; }`. -/
def forPetals (n : Int) (body : Nat → Petal → Petal) (ps : Petals) : Petals :=
  (List.range n.toNat).foldl (fun acc (i : Nat) => modifyPetal acc (i : Int) (body i)) ps

/-- Two's complement wrap-around of a 32-bit `int`. -/
def wrapInt32 (x : Int) : Int := (x + 2 ^ 31) % 2 ^ 32 - 2 ^ 31

/-! ## Strings -/

/-- The helper `trim_newline`: strips `'\n'` and `'\r'` off the end. -/
def trim_newline (s : List Char) : List Char :=
  s.rdropWhile (fun c => c == '\n' || c == '\r')

/-- The effect of `strncpy(dst, src, n); dst[n] = '\0'` on the string in `dst`. -/
def strncpy (src : List Char) (n : Nat) : List Char := src.take n

/-- The literal `"OPEN"`. -/
def str_OPEN : List Char := ['O', 'P', 'E', 'N']
/-- The literal `"CLOSE"`. -/
def str_CLOSE : List Char := ['C', 'L', 'O', 'S', 'E']
/-- The literal `"SEQ1"`. -/
def str_SEQ1 : List Char := ['S', 'E', 'Q', '1']
/-- The literal `"SEQ2"`. -/
def str_SEQ2 : List Char := ['S', 'E', 'Q', '2']

/-! ## `Flower_init` -/

/-- The function `Flower_init`; `f` is the object the pointer refers to before
the call and `name = none` is the null pointer. -/
def Flower_init (f : Flower) (name : Option (List Char)) (num_petals : Int) : Flower :=
  let num_petals := if num_petals < 1 then 1 else num_petals
  let num_petals := if num_petals > FLOWER_MAX_PETALS then (FLOWER_MAX_PETALS : Int) else num_petals
  let nm : List Char :=
    match name with
    | some s => strncpy s 31
    | none => []
  let bloom_angle : ℚ := 80
  let close_angle : ℚ := 5
  let speed_deg_per_sec : ℚ := 15
  { name := nm
    num_petals := num_petals
    petals := forPetals FLOWER_MAX_PETALS
      (fun _ _ => { current_angle := close_angle, target_angle := close_angle, delay_ms := 0 })
      f.petals
    bloom_angle := bloom_angle
    close_angle := close_angle
    speed_deg_per_sec := speed_deg_per_sec
    seq_active := 0
    elapsed_ms := 0 }

/-! ## Commands -/

/-- The function `Flower_startSeq1`. -/
def Flower_startSeq1 (f : Flower) : Flower :=
  let gap : Int := 200
  { f with
    seq_active := 1
    elapsed_ms := 0
    petals := forPetals f.num_petals
      (fun i p => { p with delay_ms := (i : Int) * gap, target_angle := f.bloom_angle })
      f.petals }

/-- The `while (left <= right)` loop of `Flower_startSeq2`. -/
def seq2Loop (bloom : ℚ) (gap : Int) (left right step_index : Int) (ps : Petals) : Petals :=
  if left ≤ right then
    let delay_for_step := step_index * gap
    let ps1 := modifyPetal ps left
      (fun p => { p with delay_ms := delay_for_step, target_angle := bloom })
    let ps2 :=
      if right ≠ left then
        modifyPetal ps1 right
          (fun p => { p with delay_ms := delay_for_step, target_angle := bloom })
      else ps1
    seq2Loop bloom gap (left + 1) (right - 1) (step_index + 1) ps2
  else ps
termination_by (right + 1 - left).toNat
decreasing_by omega

/-- The function `Flower_startSeq2`. -/
def Flower_startSeq2 (f : Flower) : Flower :=
  let gap : Int := 200
  let left : Int := 0
  let right : Int := f.num_petals - 1
  let step_index : Int := 0
  { f with
    seq_active := 2
    elapsed_ms := 0
    petals := seq2Loop f.bloom_angle gap left right step_index f.petals }

/-- The string at `p` in `Flower_applyCommand`: the line is copied into the
128 byte `buffer`, trimmed by `trim_newline`, and leading blanks and tabs
are skipped. -/
def commandText (line : List Char) : List Char :=
  let buffer := trim_newline (strncpy line 127)
  buffer.dropWhile (fun c => c == ' ' || c == '\t')

/-- The function `Flower_applyCommand`. -/
def Flower_applyCommand (f : Flower) (line : List Char) : Flower :=
  let p := commandText line
  if p = [] then f
  else if p = str_OPEN then
    { f with
      seq_active := 0
      elapsed_ms := 0
      petals := forPetals f.num_petals
        (fun _ q => { q with delay_ms := 0, target_angle := f.bloom_angle }) f.petals }
  else if p = str_CLOSE then
    { f with
      seq_active := 0
      elapsed_ms := 0
      petals := forPetals f.num_petals
        (fun _ q => { q with delay_ms := 0, target_angle := f.close_angle }) f.petals }
  else if p = str_SEQ1 then Flower_startSeq1 f
  else if p = str_SEQ2 then Flower_startSeq2 f
  else f

/-! ## `Flower_update` -/

/-- The body of the petal loop of `Flower_update` after the delay check: move
`current_angle` toward `target_angle` by `step`. -/
def movePetal (step : ℚ) (p : Petal) : Petal :=
  let cur := p.current_angle
  let tgt := p.target_angle
  let diff := tgt - cur
  let cur :=
    if diff > 0 then
      (if diff ≤ step then tgt else cur + step)
    else if diff < 0 then
      (if -diff ≤ step then tgt else cur - step)
    else cur
  { p with current_angle := cur }

/-- The function `Flower_update`. -/
def Flower_update (f : Flower) (dt_ms : Int) : Flower :=
  if dt_ms ≤ 0 then f
  else
    let f1 : Flower :=
      if f.seq_active ≠ 0 then { f with elapsed_ms := wrapInt32 (f.elapsed_ms + dt_ms) } else f
    let dt_sec : ℚ := (dt_ms : ℚ) / 1000
    let step : ℚ := f1.speed_deg_per_sec * dt_sec
    if step ≤ 0 then f1
    else
      { f1 with
        petals := forPetals f1.num_petals
          (fun _ p =>
            if f1.seq_active ≠ 0 ∧ f1.elapsed_ms < p.delay_ms then p
            else movePetal step p)
          f1.petals }

/-- The value of `elapsed_ms` after the accumulation at the top of `Flower_update`. -/
def elapsedAfter (f : Flower) (dt_ms : Int) : Int :=
  if f.seq_active ≠ 0 then wrapInt32 (f.elapsed_ms + dt_ms) else f.elapsed_ms

/-- The `step` computed by `Flower_update`. -/
def stepOf (f : Flower) (dt_ms : Int) : ℚ := f.speed_deg_per_sec * ((dt_ms : ℚ) / 1000)

/-- A run of `Flower_update` calls, one per element of `dts`, in order. -/
def runTicks (f : Flower) (dts : List Int) : Flower := dts.foldl Flower_update f

/-- The flower states reachable from `Flower_init` by commands and ticks. -/
inductive Reachable : Flower → Prop
  | init (f0 : Flower) (name : Option (List Char)) (num_petals : Int) :
      Reachable (Flower_init f0 name num_petals)
  | command (f : Flower) (line : List Char) :
      Reachable f → Reachable (Flower_applyCommand f line)
  | tick (f : Flower) (dt_ms : Int) :
      Reachable f → Reachable (Flower_update f dt_ms)

/-! ## `Flower_buildStatus` -/

/-- The helper `myabsf`. -/
def myabsf (x : ℚ) : ℚ := if x < 0 then -x else x

/-- The literal `"IDLE"`. -/
def str_IDLE : List Char := ['I', 'D', 'L', 'E']
/-- The literal `"MOVING"`. -/
def str_MOVING : List Char := ['M', 'O', 'V', 'I', 'N', 'G']
/-- The literal `"noname"`. -/
def str_noname : List Char := ['n', 'o', 'n', 'a', 'm', 'e']
/-- The literal `"STATUS name="`. -/
def str_STATUS_name : List Char := ['S', 'T', 'A', 'T', 'U', 'S', ' ', 'n', 'a', 'm', 'e', '=']
/-- The literal `" state="`. -/
def str_state : List Char := [' ', 's', 't', 'a', 't', 'e', '=']
/-- The literal `" petal_angles="`. -/
def str_petal_angles : List Char :=
  [' ', 'p', 'e', 't', 'a', 'l', '_', 'a', 'n', 'g', 'l', 'e', 's', '=']

/-- The NUL character. -/
def NUL : Char := Char.ofNat 0

/-- Rounding to the nearest integer, ties to the even one. -/
def roundHalfEven (x : ℚ) : Int :=
  if x - ⌊x⌋ < 1 / 2 then ⌊x⌋
  else if 1 / 2 < x - ⌊x⌋ then ⌊x⌋ + 1
  else if ⌊x⌋ % 2 = 0 then ⌊x⌋ else ⌊x⌋ + 1

/-- The spacing of the binary32 values around `x`: `2 ^ (e - 23)` where `e` is
the binary exponent of `x`, not below the exponent of the subnormals. -/
def f32ulp (x : ℚ) : ℚ := (2 : ℚ) ^ (max (Int.log 2 |x|) (-126) - 23)

/-- The binary32 value nearest to the real `x`, ties to even: the result of a
`float` operation whose exact result is `x`.  Overflow to infinity is not
modelled. -/
def f32 (x : ℚ) : ℚ := (roundHalfEven (x / f32ulp x) : ℚ) * f32ulp x

/-- The test of the first loop of `Flower_buildStatus` on petal `i`:
`float diff = target_angle - current_angle; myabsf(diff) > 0.5f`. -/
def petalMoving (f : Flower) (i : Nat) : Bool :=
  decide (myabsf (f32 ((petalAt f.petals i).target_angle - (petalAt f.petals i).current_angle))
    > 1 / 2)

/-- The local variable `state` of `Flower_buildStatus` after the first loop
(a search with `break`). -/
def statusState (f : Flower) : List Char :=
  if (List.range f.num_petals.toNat).any (petalMoving f) then str_MOVING else str_IDLE

/-- Conversion `(int)x` of a `float`: truncation toward zero. -/
def truncToInt (x : ℚ) : Int := if 0 ≤ x then ⌊x⌋ else ⌈x⌉

/-- The text printed by `%d`. -/
def fmtInt (n : Int) : List Char :=
  if n < 0 then '-' :: Nat.toDigits 10 n.natAbs else Nat.toDigits 10 n.natAbs

/-- Stores of the characters of a list at consecutive positions from `pos`. -/
def pokeList (out : List Char) (pos : Nat) : List Char → List Char
  | [] => out
  | c :: cs => pokeList (out.set pos c) (pos + 1) cs

/-- The call `snprintf(out + pos, size, …)` whose formatted text is `s`: when
`size > 0` it stores the first `size - 1` characters of `s` and a NUL after
them; it returns the length of `s`.  The formats used (`%s`, `%d`) cannot make
it fail, so the negative return value is not modelled. -/
def snprintf (out : List Char) (pos size : Nat) (s : List Char) : List Char × Nat :=
  if size = 0 then (out, s.length)
  else ((pokeList out pos (s.take (size - 1))).set (pos + min s.length (size - 1)) NUL, s.length)

/-- The first `snprintf` argument list of `Flower_buildStatus`, formatted. -/
def statusHeader (f : Flower) : List Char :=
  str_STATUS_name ++ (if f.name ≠ [] then f.name else str_noname) ++ str_state
    ++ statusState f ++ str_petal_angles

/-- The integer printed for petal `i`: `(int)(current_angle + 0.5f)`. -/
def petalAng (f : Flower) (i : Nat) : Int :=
  truncToInt (f32 ((petalAt f.petals i).current_angle + 1 / 2))

/-- The text of one iteration of the angle loop: `"%d"` for the last petal and
`"%d,"` for the others. -/
def angleItem (f : Flower) (i : Nat) : List Char :=
  if (i : Int) = f.num_petals - 1 then fmtInt (petalAng f i) else fmtInt (petalAng f i) ++ [',']

/-- The second loop of `Flower_buildStatus`, with `k` iterations left from
index `i`.  The result is the buffer and `some used`, or `none` after the early
`return`. -/
def angleLoop (f : Flower) (out_size : Nat) :
    Nat → Nat → List Char → Nat → List Char × Option Nat
  | 0, _, out, used => (out, some used)
  | k + 1, i, out, used =>
    let r := snprintf out used (out_size - used) (angleItem f i)
    let used := used + r.2
    if used ≥ out_size then (r.1.set (out_size - 1) NUL, none)
    else angleLoop f out_size k (i + 1) r.1 used

/-- The function `Flower_buildStatus`: `out` is the memory at the destination
pointer before the call, the result is that memory after the call. -/
def Flower_buildStatus (f : Flower) (out : List Char) (out_size : Nat) : List Char :=
  if out_size = 0 then out
  else
    let out := out.set 0 NUL
    let r := snprintf out 0 out_size (statusHeader f)
    let written := r.2
    if written ≥ out_size then r.1.set (out_size - 1) NUL
    else
      let used := written
      match angleLoop f out_size f.num_petals.toNat 0 r.1 used with
      | (out, none) => out
      | (out, some used) =>
        if used + 1 < out_size then
          let out := out.set used '\n'
          if used + 2 < out_size then out.set (used + 1) NUL
          else out.set (out_size - 1) NUL
        else out.set (out_size - 1) NUL

/-! ## Reference definitions used to state the properties -/

/-- The four command verbs. -/
def verbs : List (List Char) := [str_OPEN, str_CLOSE, str_SEQ1, str_SEQ2]

/-- Whitespace in the sense of the command grammar: blank, tab, CR, LF. -/
def isBlankOrNewline (c : Char) : Bool := c == ' ' || c == '\t' || c == '\r' || c == '\n'

/-- Trimming of whitespace and newlines on both sides, as the command grammar
describes it. -/
def trimBothSides (s : List Char) : List Char :=
  (s.dropWhile isBlankOrNewline).rdropWhile isBlankOrNewline

/-- Integers joined by commas, no trailing comma. -/
def joinComma : List (List Char) → List Char
  | [] => []
  | [x] => x
  | x :: y :: rest => x ++ ',' :: joinComma (y :: rest)

/-- The full, untruncated status line of a flower. -/
def statusLine (f : Flower) : List Char :=
  str_STATUS_name ++ (if f.name = [] then str_noname else f.name) ++ str_state
    ++ statusState f ++ str_petal_angles
    ++ joinComma ((List.range f.num_petals.toNat).map (fun i => fmtInt (petalAng f i)))
    ++ ['\n']

/-- Some memory contents for a `Flower` object before it is initialised. -/
def rawFlower : Flower :=
  { name := [], num_petals := 0, petals := fun _ => Petal.zero, bloom_angle := 0,
    close_angle := 0, speed_deg_per_sec := 0, seq_active := 0, elapsed_ms := 0 }

/-- A three-petal flower named `rose`, freshly initialised. -/
def rose : Flower := Flower_init rawFlower (some ['r', 'o', 's', 'e']) 3

/-- A one-petal flower whose petal is at `0.5 - 2^-25` degrees, a binary32
value, and heads for 1 degree. -/
def nearHalf : Flower :=
  { name := [], num_petals := 1, petals := fun _ => ⟨1 / 2 - 1 / 2 ^ 25, 1, 0⟩,
    bloom_angle := 80, close_angle := 5, speed_deg_per_sec := 15, seq_active := 0,
    elapsed_ms := 0 }

/-- The status line of the flower `nearHalf`:
`STATUS name=noname state=IDLE petal_angles=1` and a newline. -/
def nearHalfLine : List Char :=
  ['S', 'T', 'A', 'T', 'U', 'S', ' ', 'n', 'a', 'm', 'e', '=', 'n', 'o', 'n', 'a', 'm', 'e',
   ' ', 's', 't', 'a', 't', 'e', '=', 'I', 'D', 'L', 'E',
   ' ', 'p', 'e', 't', 'a', 'l', '_', 'a', 'n', 'g', 'l', 'e', 's', '=',
   '1', '\n']

/-- A line of 128 characters: 123 blanks followed by `OPENX`. -/
def longOpenX : List Char := List.replicate 123 ' ' ++ ['O', 'P', 'E', 'N', 'X']

/-- A line of 128 characters: 124 blanks followed by `OPEN`. -/
def paddedOpen : List Char := List.replicate 124 ' ' ++ str_OPEN

/-- The text produced by `k` iterations of the angle loop from index `i`. -/
def angleText (f : Flower) : Nat → Nat → List Char
  | _, 0 => []
  | i, k + 1 => angleItem f i ++ angleText f (i + 1) k

/-- The status line of the flower `rose`: `STATUS name=rose state=IDLE petal_angles=5,5,5`
and a newline. -/
def roseLine : List Char :=
  ['S', 'T', 'A', 'T', 'U', 'S', ' ', 'n', 'a', 'm', 'e', '=', 'r', 'o', 's', 'e',
   ' ', 's', 't', 'a', 't', 'e', '=', 'I', 'D', 'L', 'E',
   ' ', 'p', 'e', 't', 'a', 'l', '_', 'a', 'n', 'g', 'l', 'e', 's', '=',
   '5', ',', '5', ',', '5', '\n']

/-- A flower created by `Flower_init` that received `OPEN` and then `k` ticks of
100 ms. -/
def openedFlower (f0 : Flower) (name : Option (List Char)) (num_petals : Int) (k : Nat) :
    Flower :=
  runTicks (Flower_applyCommand (Flower_init f0 name num_petals) str_OPEN) (List.replicate k 100)

/-- Rounding to the nearest integer, halves upward. -/
def roundNearest (x : ℚ) : Int := ⌊x + 1 / 2⌋

/-- The text ` state=MOVING petal_angles=13,13,13` and a newline. -/
def tailMoving13 : List Char :=
  [' ', 's', 't', 'a', 't', 'e', '=', 'M', 'O', 'V', 'I', 'N', 'G',
   ' ', 'p', 'e', 't', 'a', 'l', '_', 'a', 'n', 'g', 'l', 'e', 's', '=',
   '1', '3', ',', '1', '3', ',', '1', '3', '\n']

/-! # Garden server: the registry (`garden_server.c`)

The array `garden[MAX_FLOWERS]` is the list of its slots in index order,
strings are the C strings held by the `char` arrays, and the functions take
and return the registry that the C code keeps in a global and guards with
`garden_mutex` (each function body runs under the lock as one step).  Console
output is left out, except that `register_flower` reports which of its three
messages it printed. -/

/-- The constant `MAX_FLOWERS`. -/
abbrev MAX_FLOWERS : Nat := 64

/-- The struct `FlowerEntry`. -/
structure FlowerEntry where
  in_use : Int
  connfd : Int
  name : List Char
  last_status : List Char
deriving DecidableEq

/-- The array `garden[MAX_FLOWERS]`. -/
abbrev Garden : Type := List FlowerEntry

/-- Which message `register_flower` printed: `Updated flower`, `Registered
flower` or `No space left in garden`. -/
inductive RegisterOutcome where
  | updated
  | registered
  | full
deriving DecidableEq

/-- The first loop of `register_flower`: the first slot in use whose name
compares equal gets the new descriptor and an empty status; `none` when the
loop ends without a match. -/
def refreshByName (connfd : Int) (name : List Char) : Garden → Option Garden
  | [] => none
  | e :: rest =>
    if e.in_use ≠ 0 ∧ e.name = name then
      some ({ e with connfd := connfd, last_status := [] } :: rest)
    else
      (refreshByName connfd name rest).map (fun g => e :: g)

/-- The second loop of `register_flower`: the first slot not in use is claimed;
`none` when every slot is in use. -/
def claimFreeSlot (connfd : Int) (name : List Char) : Garden → Option Garden
  | [] => none
  | e :: rest =>
    if e.in_use = 0 then
      some ({ in_use := 1, connfd := connfd, name := strncpy name 31, last_status := [] } :: rest)
    else
      (claimFreeSlot connfd name rest).map (fun g => e :: g)

/-- The function `register_flower`. -/
def register_flower (g : Garden) (connfd : Int) (name : List Char) :
    Garden × RegisterOutcome :=
  match refreshByName connfd name g with
  | some g1 => (g1, RegisterOutcome.updated)
  | none =>
    match claimFreeSlot connfd name g with
    | some g2 => (g2, RegisterOutcome.registered)
    | none => (g, RegisterOutcome.full)

/-- The function `unregister_flower`: the first slot in use with the
descriptor is released, then the loop breaks. -/
def unregister_flower : Garden → Int → Garden
  | [], _ => []
  | e :: rest, connfd =>
    if e.in_use ≠ 0 ∧ e.connfd = connfd then { e with in_use := 0 } :: rest
    else e :: unregister_flower rest connfd

/-- A slot that is not in use, as in zero-initialised static storage. -/
def freeSlot : FlowerEntry := { in_use := 0, connfd := 0, name := [], last_status := [] }

/-- The registry before any flower connects. -/
def emptyGarden : Garden := List.replicate MAX_FLOWERS freeSlot

/-- A registry with two flowers: `rose` on descriptor 4, which has reported a
status, and `iris` on descriptor 5. -/
def twoFlowers : Garden :=
  { in_use := 1, connfd := 4, name := ['r', 'o', 's', 'e'], last_status := ['S', 'T', 'A', 'T', 'U', 'S'] }
    :: { in_use := 1, connfd := 5, name := ['i', 'r', 'i', 's'], last_status := [] }
    :: List.replicate 62 freeSlot

/-- A registry whose 64 slots are all in use, by flowers named `a`. -/
def fullGarden : Garden :=
  List.replicate MAX_FLOWERS { in_use := 1, connfd := 3, name := ['a'], last_status := [] }

/-- The literal `"HELLO"`. -/
def str_HELLO : List Char := ['H', 'E', 'L', 'L', 'O']
/-- The literal `"name="`. -/
def str_name_eq : List Char := ['n', 'a', 'm', 'e', '=']
/-- The literal `"STATUS"`. -/
def str_STATUS : List Char := ['S', 'T', 'A', 'T', 'U', 'S']

/-- The library function `strstr`: the rest of the string from the first
occurrence of `needle` on, `none` for the null pointer. -/
def strstr : List Char → List Char → Option (List Char)
  | [], needle => if needle = [] then some [] else none
  | c :: rest, needle =>
    if (c :: rest).take needle.length = needle then some (c :: rest)
    else strstr rest needle

/-- The copy loop of the `HELLO` handler in `client_thread`: characters up to
a blank or the end of the string, at most `sizeof(flower_name) - 1 = 31`. -/
def extract_name (name_ptr : List Char) : List Char :=
  (name_ptr.takeWhile (fun c => c != ' ')).take 31

/-- The handshake of `client_thread`: the first buffer read from a connection;
`strncmp(buf, "HELLO", 5) == 0` is the comparison of the first five
characters. -/
def handle_hello (g : Garden) (connfd : Int) (buf : List Char) : Garden :=
  let buf := trim_newline buf
  if buf.take 5 = str_HELLO then
    match strstr buf str_name_eq with
    | some name_ptr => (register_flower g connfd (extract_name (name_ptr.drop 5))).1
    | none => g
  else g

/-- The loop of the `STATUS` branch of `client_thread`: the first slot in use
with the descriptor gets the line, cut to 255 characters. -/
def store_status : Garden → Int → List Char → Garden
  | [], _, _ => []
  | e :: rest, connfd, buf =>
    if e.in_use ≠ 0 ∧ e.connfd = connfd then { e with last_status := strncpy buf 255 } :: rest
    else e :: store_status rest connfd buf

/-- One pass of the read loop of `client_thread` on a buffer that was read. -/
def handle_status (g : Garden) (connfd : Int) (buf : List Char) : Garden :=
  let buf := trim_newline buf
  if buf.take 6 = str_STATUS then store_status g connfd buf else g

/-- The registry states reachable from the empty registry by handshakes,
status updates and `unregister_flower` calls, with any descriptors and any
buffers. -/
inductive GardenReachable : Garden → Prop
  | empty : GardenReachable emptyGarden
  | hello (g : Garden) (connfd : Int) (buf : List Char) :
      GardenReachable g → GardenReachable (handle_hello g connfd buf)
  | status (g : Garden) (connfd : Int) (buf : List Char) :
      GardenReachable g → GardenReachable (handle_status g connfd buf)
  | unregister (g : Garden) (connfd : Int) :
      GardenReachable g → GardenReachable (unregister_flower g connfd)

/-- No two entries in use have the same name. -/
def NameIsKey (g : Garden) : Prop :=
  g.Pairwise (fun a b => a.in_use ≠ 0 → b.in_use ≠ 0 → a.name ≠ b.name)

/-- The handshake line of a flower named `rose` with three petals. -/
def helloRose : List Char :=
  ['H', 'E', 'L', 'L', 'O', ' ', 'n', 'a', 'm', 'e', '=', 'r', 'o', 's', 'e', ' ',
   'n', 'u', 'm', '_', 'p', 'e', 't', 'a', 'l', 's', '=', '3', '\n']

/-- The server as far as the registry is concerned: the array `garden` and
the descriptors of the running `client_thread`s, by the place the thread has
reached: `awaiting` its first `read`, `reading` in the status loop (after the
handshake), or `closing` (after `unregister_flower`, before `Close`). -/
structure Server where
  garden : Garden
  awaiting : List Int
  reading : List Int
  closing : List Int

/-- The server states that `garden_server.c` reaches.  The array `garden` is
`static`; it is written by `register_flower` (called once per connection, in
the handshake of `client_thread`), by the `STATUS` branch of the read loop and
by `unregister_flower` (called once per connection, when the read loop ends
and before `Close`).  `accept` returns a descriptor that is not open, and a
descriptor stays open until its thread calls `Close`.  `firstReadFails` is the
early return of `client_thread` (and the failure of `pthread_create` in
`main`): the descriptor is closed and nothing was registered.  The command
thread only reads the registry. -/
inductive ServerReachable : Server → Prop
  | start : ServerReachable ⟨emptyGarden, [], [], []⟩
  | accept (s : Server) (connfd : Int) :
      ServerReachable s → connfd ∉ s.awaiting → connfd ∉ s.reading → connfd ∉ s.closing →
      ServerReachable ⟨s.garden, connfd :: s.awaiting, s.reading, s.closing⟩
  | firstReadFails (s : Server) (connfd : Int) :
      ServerReachable s → connfd ∈ s.awaiting →
      ServerReachable ⟨s.garden, s.awaiting.erase connfd, s.reading, s.closing⟩
  | hello (s : Server) (connfd : Int) (buf : List Char) :
      ServerReachable s → connfd ∈ s.awaiting →
      ServerReachable ⟨handle_hello s.garden connfd buf, s.awaiting.erase connfd,
        connfd :: s.reading, s.closing⟩
  | status (s : Server) (connfd : Int) (buf : List Char) :
      ServerReachable s → connfd ∈ s.reading →
      ServerReachable ⟨handle_status s.garden connfd buf, s.awaiting, s.reading, s.closing⟩
  | unregister (s : Server) (connfd : Int) :
      ServerReachable s → connfd ∈ s.reading →
      ServerReachable ⟨unregister_flower s.garden connfd, s.awaiting,
        s.reading.erase connfd, connfd :: s.closing⟩
  | close (s : Server) (connfd : Int) :
      ServerReachable s → connfd ∈ s.closing →
      ServerReachable ⟨s.garden, s.awaiting, s.reading, s.closing.erase connfd⟩

/-- No two entries in use have the same descriptor. -/
def HandleIsKey (g : Garden) : Prop :=
  g.Pairwise (fun a b => a.in_use ≠ 0 → b.in_use ≠ 0 → a.connfd ≠ b.connfd)

/-- The handshake line of a flower named `iris` with five petals. -/
def helloIris : List Char :=
  ['H', 'E', 'L', 'L', 'O', ' ', 'n', 'a', 'm', 'e', '=', 'i', 'r', 'i', 's', ' ',
   'n', 'u', 'm', '_', 'p', 'e', 't', 'a', 'l', 's', '=', '5', '\n']

/-- The server after `rose` connected on descriptor 4 and `iris` on
descriptor 5. -/
def roseIrisServer : Server :=
  ⟨handle_hello (handle_hello emptyGarden 4 helloRose) 5 helloIris, [], [5, 4], []⟩

/-! # Garden server: `BLOOM`

What `run_garden_bloom_sequence` does to the outside world is the list of its
`sendLine` and `usleep` calls, in order.  The values returned by the
successive calls of `rand()` are given by a function of the call number; they
are natural numbers (`rand` returns a value between 0 and `RAND_MAX`). -/

/-- A call made by the dispatcher: `sendLine(fd, line)` or `usleep(usec)`. -/
inductive Event where
  | sendLine (fd : Int) (line : List Char)
  | usleep (usec : Int)
deriving DecidableEq

/-- The literal `"SEQ1\n"`. -/
def str_SEQ1_nl : List Char := ['S', 'E', 'Q', '1', '\n']
/-- The literal `"SEQ2\n"`. -/
def str_SEQ2_nl : List Char := ['S', 'E', 'Q', '2', '\n']

/-- The first loop of `run_garden_bloom_sequence`: the descriptors of the slots
in use, in slot order (`fds[0 .. count-1]`). -/
def bloomSnapshot : Garden → List Int
  | [] => []
  | e :: rest => if e.in_use ≠ 0 then e.connfd :: bloomSnapshot rest else bloomSnapshot rest

/-- The second loop of `run_garden_bloom_sequence`; `calls` is the number of
`rand()` calls made so far. -/
def bloomLoop (rand : Nat → Nat) : Nat → List Int → List Event
  | _, [] => []
  | calls, fd :: fds =>
    let cmd := if rand calls % 2 = 0 then str_SEQ1_nl else str_SEQ2_nl
    let delay_ms : Int := 400 + ((rand (calls + 1) % 500 : Nat) : Int)
    Event.sendLine fd cmd :: Event.usleep (delay_ms * 1000) :: bloomLoop rand (calls + 2) fds

/-- The function `run_garden_bloom_sequence`. -/
def run_garden_bloom_sequence (g : Garden) (rand : Nat → Nat) : List Event :=
  let fds := bloomSnapshot g
  let count := fds.length
  if count = 0 then []
  else bloomLoop rand 0 fds

/-- A sequence of `rand()` values: 7, 123, 10, then 499 for every later call. -/
def sampleRand (n : Nat) : Nat := if n = 0 then 7 else if n = 1 then 123 else if n = 2 then 10 else 499

/-! # Flower client: the agent (`flower_client.c`)

The globals `g_flower`, `running` and `terminating` form the agent state; the
two flags only ever hold 0 or 1 and are booleans here.  Every access to
`g_flower` happens under `flower_mutex`, so one handled line and one iteration
of the tick loop are single steps.  Console output and the status line sent
to the server are left out. -/

/-- The globals of the client. -/
structure Agent where
  flower : Flower
  running : Bool
  terminating : Bool

/-- The literal `"TERMINATE"`. -/
def str_TERMINATE : List Char := ['T', 'E', 'R', 'M', 'I', 'N', 'A', 'T', 'E']

/-- The function `handle_command_line`. -/
def handle_command_line (a : Agent) (line : List Char) : Agent :=
  let line := line.dropWhile (fun c => c == ' ' || c == '\t')
  if line = [] then a
  else if line = str_TERMINATE then
    { a with flower := Flower_applyCommand a.flower str_CLOSE, terminating := true }
  else
    { a with flower := Flower_applyCommand a.flower line }

/-- The test of `strpbrk(cursor, "\r\n")` on one character. -/
def isEol (c : Char) : Bool := c == '\r' || c == '\n'

/-- The inner loop of `receiver_thread` over the buffer of one `read`:
`cursor` is the C string not yet split into lines (the characters before the
NUL, see `cstr`). -/
def receiveLoop (a : Agent) (cursor : List Char) : Agent :=
  if a.running = true ∧ cursor ≠ [] then
    let line := cursor.takeWhile (fun c => !isEol c)
    let eol := cursor.dropWhile (fun c => !isEol c)
    let line_copy := trim_newline (strncpy line 127)
    let a1 := if line_copy ≠ [] then handle_command_line a line_copy else a
    if line_copy ≠ [] ∧ a1.terminating = true then a1
    else
      match _hE : eol with
      | [] => a1
      | _ :: rest => receiveLoop a1 (rest.dropWhile isEol)
  else a
termination_by cursor.length
decreasing_by
  have h1 : (List.dropWhile isEol rest).length ≤ rest.length :=
    (List.dropWhile_sublist isEol).length_le
  have h2 : (List.dropWhile (fun c => !isEol c) cursor).length ≤ cursor.length :=
    (List.dropWhile_sublist _).length_le
  have h3 : (List.dropWhile (fun c => !isEol c) cursor).length = rest.length + 1 := by
    rw [show List.dropWhile (fun c => !isEol c) cursor = eol from rfl, _hE]; rfl
  omega

/-- The C string at the start of a buffer: the bytes before the first NUL. -/
def cstr (buf : List Char) : List Char := buf.takeWhile (fun c => c != NUL)

/-- The function `receiver_thread` on the successive results of `read`:
`none` is a result `n <= 0`, `some buf` the bytes received.  The thread stores
a NUL after the bytes and reads the buffer as a C string, so a NUL among the
bytes received ends the text.  With no result left the thread is blocked in
`read`. -/
def receiver_thread (a : Agent) : List (Option (List Char)) → Agent
  | [] => a
  | none :: _ => if a.terminating = false then { a with running := false } else a
  | some buf :: later =>
    let a1 := receiveLoop a (cstr buf)
    if a1.terminating = true then a1 else receiver_thread a1 later

/-- The local variable `moving` of `motion_thread` after its search loop; the
`float` difference is rounded to binary32. -/
def clientMoving (f : Flower) : Bool :=
  let num : Int := if f.num_petals > FLOWER_MAX_PETALS then FLOWER_MAX_PETALS else f.num_petals
  (List.range num.toNat).any (fun i =>
    let diff := f32 ((petalAt f.petals i).target_angle - (petalAt f.petals i).current_angle)
    decide (diff > 1 / 2 ∨ diff < -(1 / 2)))

/-- One iteration of the loop of `motion_thread`, entered with `running` set. -/
def motion_iteration (a : Agent) : Agent :=
  let dt_ms : Int := 100
  let f := Flower_update a.flower dt_ms
  let moving := clientMoving f
  let local_terminating := a.terminating
  if local_terminating = true ∧ moving = false then { a with flower := f, running := false }
  else { a with flower := f }

/-- The loop `while (running)` of `motion_thread`, observed for at most `n`
iterations. -/
def motion_thread : Nat → Agent → Agent
  | 0, a => a
  | n + 1, a => if a.running = true then motion_thread n (motion_iteration a) else a

/-- The agent is in its `Running` state, with a flower reachable from
`Flower_init` by commands and ticks. -/
def AgentRunning (a : Agent) : Prop :=
  Reachable a.flower ∧ a.running = true ∧ a.terminating = false

/-- A flower on its way to the close angle: no sequence, default speed, and
every petal in use heads for 5 degrees from at most `3 n / 2` degrees above,
at an angle that is a whole number of 200ths of a degree. -/
def Closing (n : Nat) (f : Flower) : Prop :=
  f.seq_active = 0 ∧ f.speed_deg_per_sec = 15 ∧ f.close_angle = 5 ∧ f.num_petals ≤ 8 ∧
  ∀ i : Fin FLOWER_MAX_PETALS, (i.val : Int) < f.num_petals →
    (f.petals i).target_angle = 5 ∧ 5 ≤ (f.petals i).current_angle ∧
    (f.petals i).current_angle ≤ 5 + 3 / 2 * (n : ℚ) ∧
    ∃ z : Int, (f.petals i).current_angle = (z : ℚ) / 200

/-- An agent whose flower `rose` is fully open. -/
def openRoseAgent : Agent :=
  { flower := runTicks (Flower_applyCommand rose str_OPEN) (List.replicate 50 100),
    running := true, terminating := false }

/-- The tick loop of agent `a` leaves its loop in iteration `k`: `running` is
still set before each of the first `k` iterations, the `k`-th one clears it
(the agent is `Stopped`) and later observations see the same state; the flower
then is the one after `k` ticks of 100 ms, no petal is moving and every petal
in use is within half a degree of the close angle. -/
def StopsAfter (a : Agent) (k : Nat) : Prop :=
  (∀ j : Nat, j < k → (motion_thread j a).running = true) ∧
  (motion_thread k a).running = false ∧
  (motion_thread k a).terminating = true ∧
  (∀ m : Nat, k ≤ m → motion_thread m a = motion_thread k a) ∧
  (motion_thread k a).flower = runTicks a.flower (List.replicate k 100) ∧
  clientMoving (motion_thread k a).flower = false ∧
  ∀ i : Fin FLOWER_MAX_PETALS, (i.val : Int) < (motion_thread k a).flower.num_petals →
    |((motion_thread k a).flower.petals i).current_angle
      - (motion_thread k a).flower.close_angle| ≤ 1 / 2

/-- Reference for the receiver: the lines of a text are its maximal non-empty
runs of characters other than CR and LF. -/
def refSplitLines (s : List Char) : List (List Char) :=
  (s.splitOnP isEol).filter (fun l => !l.isEmpty)

/-- Reference for the receiver: the lines of the texts of successive reads, in
order of arrival. -/
def refReadLines : List (List Char) → List (List Char)
  | [] => []
  | buf :: bufs => refSplitLines (cstr buf) ++ refReadLines bufs

/-- Reference for the receiver: the line is taken for `TERMINATE`, that is,
its first 127 characters are `TERMINATE` after blanks. -/
def refIsTerminate (l : List Char) : Bool :=
  decide ((strncpy l 127).dropWhile (fun c => c == ' ' || c == '\t') = str_TERMINATE)

/-- Reference for the receiver: the lines up to and including the first one
that is taken for `TERMINATE`. -/
def refUpToTerminate : List (List Char) → List (List Char)
  | [] => []
  | l :: ls => if refIsTerminate l = true then [l] else l :: refUpToTerminate ls

/-- Reference for the receiver: the given lines are handled one after the
other, each cut to the 127 characters that fit `line_copy`. -/
def refHandleLines (a : Agent) (ls : List (List Char)) : Agent :=
  ls.foldl (fun a l => handle_command_line a (strncpy l 127)) a

/-- The text of a read that carries three lines: `OPEN`, `TERMINATE`, `SEQ1`. -/
def openTerminateSeq1 : List Char :=
  ['O', 'P', 'E', 'N', '\n', 'T', 'E', 'R', 'M', 'I', 'N', 'A', 'T', 'E', '\n',
   'S', 'E', 'Q', '1', '\n']

/-! ## Basic facts about the loops -/

theorem forPetals_range (m : Nat) (body : Nat → Petal → Petal) (ps : Petals)
    (j : Fin FLOWER_MAX_PETALS) :
    (List.range m).foldl (fun acc (i : Nat) => modifyPetal acc (i : Int) (body i)) ps j
      = if j.val < m then body j.val (ps j) else ps j := by
  induction m with
  | zero => simp
  | succ k ih =>
    rw [List.range_succ, List.foldl_append]
    simp only [List.foldl_cons, List.foldl_nil, modifyPetal]
    rw [ih]
    by_cases h1 : j.val = k
    · have h2 : ¬ j.val < k := by omega
      have h3 : j.val < k + 1 := by omega
      simp [h1]
    · have h4 : ¬ ((j.val : Int) = (k : Int)) := by exact_mod_cast h1
      by_cases h2 : j.val < k
      · have h3 : j.val < k + 1 := by omega
        simp [h4, h2, h3]
      · have h3 : ¬ j.val < k + 1 := by omega
        simp [h4, h2, h3]

/-- The `for` loop over the petals acts pointwise: petal `j` is rewritten by
the body exactly when `j < n`. -/
theorem forPetals_apply (n : Int) (body : Nat → Petal → Petal) (ps : Petals)
    (j : Fin FLOWER_MAX_PETALS) :
    forPetals n body ps j = if (j.val : Int) < n then body j.val (ps j) else ps j := by
  unfold forPetals
  rw [forPetals_range]
  have h : j.val < n.toNat ↔ (j.val : Int) < n := Int.lt_toNat
  by_cases h1 : (j.val : Int) < n
  · simp [h1, h.mpr h1]
  · have h2 : ¬ j.val < n.toNat := fun h3 => h1 (h.mp h3)
    simp [h1, h2]


/-! ## Facts about `Flower_update` -/

theorem Flower_update_petals (f : Flower) (dt_ms : Int) (hdt : 0 < dt_ms)
    (i : Fin FLOWER_MAX_PETALS) :
    (Flower_update f dt_ms).petals i =
      if stepOf f dt_ms ≤ 0 then f.petals i
      else if (i.val : Int) < f.num_petals then
        (if f.seq_active ≠ 0 ∧ elapsedAfter f dt_ms < (f.petals i).delay_ms then f.petals i
         else movePetal (stepOf f dt_ms) (f.petals i))
      else f.petals i := by
  have h0 : ¬ dt_ms ≤ 0 := by omega
  unfold Flower_update stepOf elapsedAfter
  by_cases hs : f.seq_active ≠ 0
  · by_cases hst : f.speed_deg_per_sec * ((dt_ms : ℚ) / 1000) ≤ 0
    · simp [h0, hs, hst]
    · simp only [h0, hs, hst, if_true, if_false, ne_eq, not_false_eq_true, true_and]
      rw [forPetals_apply]
  · by_cases hst : f.speed_deg_per_sec * ((dt_ms : ℚ) / 1000) ≤ 0
    · simp [h0, hs, hst]
    · simp only [h0, hs, hst, if_true, if_false, ne_eq, not_false_eq_true, false_and]
      rw [forPetals_apply]

theorem movePetal_target (step : ℚ) (p : Petal) :
    (movePetal step p).target_angle = p.target_angle := rfl

theorem movePetal_delay (step : ℚ) (p : Petal) :
    (movePetal step p).delay_ms = p.delay_ms := rfl

theorem movePetal_current (step : ℚ) (p : Petal) :
    (movePetal step p).current_angle =
      if p.target_angle - p.current_angle > 0 then
        (if p.target_angle - p.current_angle ≤ step then p.target_angle
         else p.current_angle + step)
      else if p.target_angle - p.current_angle < 0 then
        (if -(p.target_angle - p.current_angle) ≤ step then p.target_angle
         else p.current_angle - step)
      else p.current_angle := rfl

/-- One move of a petal with a positive step: no overshoot, the distance to
the target does not grow, the move is at most `step`, and a petal within
`step` of its target lands on it. -/
theorem movePetal_spec (step : ℚ) (hstep : 0 < step) (p : Petal) :
    ((p.current_angle ≤ (movePetal step p).current_angle ∧
        (movePetal step p).current_angle ≤ p.target_angle) ∨
      (p.target_angle ≤ (movePetal step p).current_angle ∧
        (movePetal step p).current_angle ≤ p.current_angle)) ∧
    |p.target_angle - (movePetal step p).current_angle| ≤ |p.target_angle - p.current_angle| ∧
    |(movePetal step p).current_angle - p.current_angle| ≤ step ∧
    (|p.target_angle - p.current_angle| ≤ step → (movePetal step p).current_angle = p.target_angle) := by
  rw [movePetal_current]
  rcases lt_trichotomy (p.target_angle - p.current_angle) 0 with h | h | h
  · have h1 : ¬ (p.target_angle - p.current_angle > 0) := by linarith
    have habs : |p.target_angle - p.current_angle| = -(p.target_angle - p.current_angle) :=
      abs_of_neg h
    by_cases h2 : -(p.target_angle - p.current_angle) ≤ step
    · simp only [h1, h, h2, if_true, if_false]
      refine ⟨Or.inr ⟨le_refl _, by linarith⟩, ?_, ?_, by simp⟩
      · simp
      · rw [habs]; exact h2
    · simp only [h1, h, h2, if_true, if_false]
      refine ⟨Or.inr ⟨by linarith, by linarith⟩, ?_, ?_, ?_⟩
      · rw [habs, abs_of_neg (by linarith)]; linarith
      · rw [abs_of_neg (by linarith)]; linarith
      · intro h3; rw [habs] at h3; exact absurd h3 h2
  · have h1 : ¬ (p.target_angle - p.current_angle > 0) := by linarith
    have h2 : ¬ (p.target_angle - p.current_angle < 0) := by linarith
    simp only [h1, h2, if_false]
    refine ⟨Or.inl ⟨le_refl _, by linarith⟩, le_refl _, ?_, fun _ => by linarith⟩
    simp; linarith
  · have h1 : p.target_angle - p.current_angle > 0 := h
    have habs : |p.target_angle - p.current_angle| = p.target_angle - p.current_angle :=
      abs_of_pos h
    by_cases h2 : p.target_angle - p.current_angle ≤ step
    · simp only [h1, h2, if_true]
      refine ⟨Or.inl ⟨by linarith, le_refl _⟩, ?_, ?_, by simp⟩
      · simp
      · rw [habs]; exact h2
    · simp only [h1, h2, if_true, if_false]
      refine ⟨Or.inl ⟨by linarith, by linarith⟩, ?_, ?_, ?_⟩
      · rw [habs, abs_of_pos (by linarith)]; linarith
      · rw [abs_of_pos (by linarith)]; linarith
      · intro h3; rw [habs] at h3; exact absurd h3 h2

/-! ## Commands seen through their text -/

theorem commandText_OPEN : commandText str_OPEN = str_OPEN := by decide
theorem commandText_CLOSE : commandText str_CLOSE = str_CLOSE := by decide
theorem commandText_SEQ1 : commandText str_SEQ1 = str_SEQ1 := by decide
theorem commandText_SEQ2 : commandText str_SEQ2 = str_SEQ2 := by decide

theorem applyCommand_OPEN (f : Flower) :
    Flower_applyCommand f str_OPEN =
      { f with
        seq_active := 0
        elapsed_ms := 0
        petals := forPetals f.num_petals
          (fun _ q => { q with delay_ms := 0, target_angle := f.bloom_angle }) f.petals } := by
  unfold Flower_applyCommand
  rw [commandText_OPEN]
  simp [str_OPEN]

theorem applyCommand_CLOSE (f : Flower) :
    Flower_applyCommand f str_CLOSE =
      { f with
        seq_active := 0
        elapsed_ms := 0
        petals := forPetals f.num_petals
          (fun _ q => { q with delay_ms := 0, target_angle := f.close_angle }) f.petals } := by
  unfold Flower_applyCommand
  rw [commandText_CLOSE]
  simp [str_CLOSE, str_OPEN]

theorem applyCommand_SEQ1 (f : Flower) :
    Flower_applyCommand f str_SEQ1 = Flower_startSeq1 f := by
  unfold Flower_applyCommand
  rw [commandText_SEQ1]
  simp [str_SEQ1, str_CLOSE, str_OPEN]

theorem applyCommand_SEQ2 (f : Flower) :
    Flower_applyCommand f str_SEQ2 = Flower_startSeq2 f := by
  unfold Flower_applyCommand
  rw [commandText_SEQ2]
  simp [str_SEQ2, str_SEQ1, str_CLOSE, str_OPEN]

/-! ## `Flower_init` -/

theorem Flower_init_petals (f0 : Flower) (name : Option (List Char)) (num_petals : Int)
    (i : Fin FLOWER_MAX_PETALS) :
    (Flower_init f0 name num_petals).petals i = ⟨5, 5, 0⟩ := by
  unfold Flower_init
  simp only [forPetals_apply]
  have h : (i.val : Int) < ((FLOWER_MAX_PETALS : Nat) : Int) := by exact_mod_cast i.isLt
  simp [h]

theorem Flower_init_num_petals (f0 : Flower) (name : Option (List Char)) (num_petals : Int) :
    (Flower_init f0 name num_petals).num_petals = max 1 (min num_petals FLOWER_MAX_PETALS) := by
  unfold Flower_init
  simp only
  by_cases h1 : num_petals < 1
  · have h2 : ¬ ((1 : Int) > ((FLOWER_MAX_PETALS : Nat) : Int)) := by decide
    simp only [h1, if_true, h2, if_false]
    rw [min_eq_left (by simp; omega), max_eq_left (by omega)]
  · simp only [h1, if_false]
    by_cases h3 : num_petals > ((FLOWER_MAX_PETALS : Nat) : Int)
    · simp only [h3, if_true]
      rw [min_eq_right (by omega), max_eq_right (by simp)]
    · simp only [h3, if_false]
      rw [min_eq_left (by omega), max_eq_right (by omega)]

/-- C9: for every name (also the null pointer) and every integer `num_petals`,
`Flower_init` yields a flower whose petal count is `num_petals` clamped into
`[1, FLOWER_MAX_PETALS]` with `FLOWER_MAX_PETALS = 8`, whose every petal has
`current_angle = target_angle = close_angle` and `delay_ms = 0`, with no active
sequence, `elapsed_ms = 0`, `bloom_angle = 80`, `close_angle = 5` and
`speed_deg_per_sec = 15`.  The function is total: no input is rejected. -/
theorem Flower_init_clamps_and_resets (f0 : Flower) (name : Option (List Char))
    (num_petals : Int) :
    FLOWER_MAX_PETALS = 8 ∧
    (Flower_init f0 name num_petals).num_petals = max 1 (min num_petals FLOWER_MAX_PETALS) ∧
    1 ≤ (Flower_init f0 name num_petals).num_petals ∧
    (Flower_init f0 name num_petals).num_petals ≤ 8 ∧
    (∀ i : Fin FLOWER_MAX_PETALS,
      ((Flower_init f0 name num_petals).petals i).current_angle
          = (Flower_init f0 name num_petals).close_angle ∧
      ((Flower_init f0 name num_petals).petals i).target_angle
          = (Flower_init f0 name num_petals).close_angle ∧
      ((Flower_init f0 name num_petals).petals i).delay_ms = 0) ∧
    (Flower_init f0 name num_petals).seq_active = 0 ∧
    (Flower_init f0 name num_petals).elapsed_ms = 0 ∧
    (Flower_init f0 name num_petals).bloom_angle = 80 ∧
    (Flower_init f0 name num_petals).close_angle = 5 ∧
    (Flower_init f0 name num_petals).speed_deg_per_sec = 15 := by
  have hn := Flower_init_num_petals f0 name num_petals
  refine ⟨rfl, hn, ?_, ?_, ?_, rfl, rfl, rfl, rfl, rfl⟩
  · rw [hn]; exact le_max_left _ _
  · rw [hn]; exact max_le (by decide) (min_le_right _ _)
  · intro i
    have hc : (Flower_init f0 name num_petals).close_angle = 5 := rfl
    rw [Flower_init_petals, hc]
    exact ⟨rfl, rfl, rfl⟩

/-! ## `OPEN` and `CLOSE` -/

theorem rose_num_petals : rose.num_petals = 3 := by
  unfold rose
  rw [Flower_init_num_petals]
  decide

/-- C6: `Flower_applyCommand` with `OPEN` (respectively `CLOSE`) cancels any
active sequence, sets `delay_ms = 0` and `target_angle = bloom_angle`
(respectively `close_angle`) for every petal `i < num_petals`, and leaves the
name, `num_petals`, `bloom_angle`, `close_angle`, the speed and every petal's
`current_angle` unchanged. -/
theorem applyCommand_OPEN_CLOSE_frame (f : Flower) :
    ((Flower_applyCommand f str_OPEN).seq_active = 0 ∧
      (∀ i : Fin FLOWER_MAX_PETALS, (i.val : Int) < f.num_petals →
        ((Flower_applyCommand f str_OPEN).petals i).delay_ms = 0 ∧
        ((Flower_applyCommand f str_OPEN).petals i).target_angle = f.bloom_angle) ∧
      (Flower_applyCommand f str_OPEN).name = f.name ∧
      (Flower_applyCommand f str_OPEN).num_petals = f.num_petals ∧
      (Flower_applyCommand f str_OPEN).bloom_angle = f.bloom_angle ∧
      (Flower_applyCommand f str_OPEN).close_angle = f.close_angle ∧
      (Flower_applyCommand f str_OPEN).speed_deg_per_sec = f.speed_deg_per_sec ∧
      (∀ i : Fin FLOWER_MAX_PETALS,
        ((Flower_applyCommand f str_OPEN).petals i).current_angle
          = (f.petals i).current_angle)) ∧
    ((Flower_applyCommand f str_CLOSE).seq_active = 0 ∧
      (∀ i : Fin FLOWER_MAX_PETALS, (i.val : Int) < f.num_petals →
        ((Flower_applyCommand f str_CLOSE).petals i).delay_ms = 0 ∧
        ((Flower_applyCommand f str_CLOSE).petals i).target_angle = f.close_angle) ∧
      (Flower_applyCommand f str_CLOSE).name = f.name ∧
      (Flower_applyCommand f str_CLOSE).num_petals = f.num_petals ∧
      (Flower_applyCommand f str_CLOSE).bloom_angle = f.bloom_angle ∧
      (Flower_applyCommand f str_CLOSE).close_angle = f.close_angle ∧
      (Flower_applyCommand f str_CLOSE).speed_deg_per_sec = f.speed_deg_per_sec ∧
      (∀ i : Fin FLOWER_MAX_PETALS,
        ((Flower_applyCommand f str_CLOSE).petals i).current_angle
          = (f.petals i).current_angle)) := by
  rw [applyCommand_OPEN, applyCommand_CLOSE]
  refine ⟨⟨rfl, ?_, rfl, rfl, rfl, rfl, rfl, ?_⟩, ⟨rfl, ?_, rfl, rfl, rfl, rfl, rfl, ?_⟩⟩
  · intro i hi
    simp only [forPetals_apply, hi, if_true, and_self]
  · intro i
    simp only [forPetals_apply]
    split <;> rfl
  · intro i hi
    simp only [forPetals_apply, hi, if_true, and_self]
  · intro i
    simp only [forPetals_apply]
    split <;> rfl

/-- C6 at the flower `rose` and its first petal, both for `OPEN` and `CLOSE`. -/
theorem applyCommand_OPEN_CLOSE_frame_witness :
    (((0 : Fin FLOWER_MAX_PETALS).val : Int) < rose.num_petals) ∧
    ((Flower_applyCommand rose str_OPEN).petals 0).delay_ms = 0 ∧
    ((Flower_applyCommand rose str_OPEN).petals 0).target_angle = rose.bloom_angle ∧
    ((Flower_applyCommand rose str_CLOSE).petals 0).delay_ms = 0 ∧
    ((Flower_applyCommand rose str_CLOSE).petals 0).target_angle = rose.close_angle :=
  have h : (((0 : Fin FLOWER_MAX_PETALS).val : Int) < rose.num_petals) := by
    rw [rose_num_petals]; decide
  ⟨h, ((applyCommand_OPEN_CLOSE_frame rose).1.2.1 0 h).1,
    ((applyCommand_OPEN_CLOSE_frame rose).1.2.1 0 h).2,
    ((applyCommand_OPEN_CLOSE_frame rose).2.2.1 0 h).1,
    ((applyCommand_OPEN_CLOSE_frame rose).2.2.1 0 h).2⟩

/-! ## `SEQ1` -/

/-- C3: `Flower_applyCommand` with `SEQ1` sets `seq_active` to 1 and
`elapsed_ms` to 0, gives every petal `i < num_petals` the delay `i * 200` and
the target `bloom_angle`, and leaves every `current_angle` unchanged; the
delays are non-decreasing in the index and consecutive petals are exactly
200 ms apart. -/
theorem applyCommand_SEQ1_stagger (f : Flower) :
    (Flower_applyCommand f str_SEQ1).seq_active = 1 ∧
    (Flower_applyCommand f str_SEQ1).elapsed_ms = 0 ∧
    (∀ i : Fin FLOWER_MAX_PETALS, (i.val : Int) < f.num_petals →
      ((Flower_applyCommand f str_SEQ1).petals i).delay_ms = (i.val : Int) * 200 ∧
      ((Flower_applyCommand f str_SEQ1).petals i).target_angle = f.bloom_angle) ∧
    (∀ i : Fin FLOWER_MAX_PETALS,
      ((Flower_applyCommand f str_SEQ1).petals i).current_angle = (f.petals i).current_angle) ∧
    (∀ i j : Fin FLOWER_MAX_PETALS, i ≤ j → (j.val : Int) < f.num_petals →
      ((Flower_applyCommand f str_SEQ1).petals i).delay_ms
        ≤ ((Flower_applyCommand f str_SEQ1).petals j).delay_ms) ∧
    (∀ i j : Fin FLOWER_MAX_PETALS, j.val = i.val + 1 → (j.val : Int) < f.num_petals →
      ((Flower_applyCommand f str_SEQ1).petals j).delay_ms
        = ((Flower_applyCommand f str_SEQ1).petals i).delay_ms + 200) := by
  rw [applyCommand_SEQ1]
  have key : ∀ i : Fin FLOWER_MAX_PETALS, (i.val : Int) < f.num_petals →
      ((Flower_startSeq1 f).petals i).delay_ms = (i.val : Int) * 200 ∧
      ((Flower_startSeq1 f).petals i).target_angle = f.bloom_angle := by
    intro i hi
    simp only [Flower_startSeq1, forPetals_apply, hi, if_true, and_self]
  refine ⟨rfl, rfl, key, ?_, ?_, ?_⟩
  · intro i
    simp only [Flower_startSeq1, forPetals_apply]
    split <;> rfl
  · intro i j hij hj
    have hij2 : i.val ≤ j.val := hij
    have hi : (i.val : Int) < f.num_petals := by omega
    rw [(key i hi).1, (key j hj).1]
    omega
  · intro i j hij hj
    have hi : (i.val : Int) < f.num_petals := by omega
    rw [(key i hi).1, (key j hj).1, hij]
    push_cast
    ring

/-- C3 at the flower `rose`: petals 1 and 2 get the delays 200 and 400. -/
theorem applyCommand_SEQ1_stagger_witness :
    (((2 : Fin FLOWER_MAX_PETALS).val : Int) < rose.num_petals) ∧
    ((Flower_applyCommand rose str_SEQ1).petals 2).delay_ms = 400 ∧
    ((Flower_applyCommand rose str_SEQ1).petals 2).delay_ms
      = ((Flower_applyCommand rose str_SEQ1).petals 1).delay_ms + 200 :=
  have h : (((2 : Fin FLOWER_MAX_PETALS).val : Int) < rose.num_petals) := by
    rw [rose_num_petals]; decide
  ⟨h, ((applyCommand_SEQ1_stagger rose).2.2.1 2 h).1,
    (applyCommand_SEQ1_stagger rose).2.2.2.2.2 1 2 rfl h⟩

/-! ## No overshoot in a tick -/

theorem Flower_update_target (f : Flower) (dt_ms : Int) (i : Fin FLOWER_MAX_PETALS) :
    ((Flower_update f dt_ms).petals i).target_angle = (f.petals i).target_angle := by
  by_cases hdt : 0 < dt_ms
  · rw [Flower_update_petals f dt_ms hdt]
    split
    · rfl
    · split
      · split <;> rfl
      · rfl
  · have h0 : dt_ms ≤ 0 := by omega
    simp [Flower_update, h0]

theorem Flower_update_delay (f : Flower) (dt_ms : Int) (i : Fin FLOWER_MAX_PETALS) :
    ((Flower_update f dt_ms).petals i).delay_ms = (f.petals i).delay_ms := by
  by_cases hdt : 0 < dt_ms
  · rw [Flower_update_petals f dt_ms hdt]
    split
    · rfl
    · split
      · split <;> rfl
      · rfl
  · have h0 : dt_ms ≤ 0 := by omega
    simp [Flower_update, h0]

/-- The assignment made to a petal by a step of the `SEQ2` loop. -/
theorem seq2Loop_apply (bloom : ℚ) (gap : Int) (left right step_index : Int) (ps : Petals)
    (j : Fin FLOWER_MAX_PETALS) :
    seq2Loop bloom gap left right step_index ps j =
      if left ≤ (j.val : Int) ∧ (j.val : Int) ≤ right then
        { current_angle := (ps j).current_angle
          target_angle := bloom
          delay_ms := (step_index + min ((j.val : Int) - left) (right - (j.val : Int))) * gap }
      else ps j := by
  induction left, right, step_index, ps using seq2Loop.induct bloom gap with
  | case1 left right step_index ps hlr delay_for_step ps1 ps2 ih =>
    rw [seq2Loop, if_pos hlr]
    have hps2 : (if right ≠ left then
          modifyPetal (modifyPetal ps left
              (fun p => { p with delay_ms := step_index * gap, target_angle := bloom })) right
            (fun p => { p with delay_ms := step_index * gap, target_angle := bloom })
        else modifyPetal ps left
              (fun p => { p with delay_ms := step_index * gap, target_angle := bloom })) = ps2 := by
      simp only [ps2, ps1, delay_for_step, dite_eq_ite]
    rw [hps2, ih]
    by_cases hjl : (j.val : Int) = left
    · have hin : ¬ (left + 1 ≤ (j.val : Int) ∧ (j.val : Int) ≤ right - 1) := by omega
      have hout : left ≤ (j.val : Int) ∧ (j.val : Int) ≤ right := by omega
      rw [if_neg hin, if_pos hout]
      have hmin : min ((j.val : Int) - left) (right - (j.val : Int)) = 0 := by
        rw [min_eq_left (by omega)]; omega
      rw [hmin]
      by_cases hrl : right ≠ left
      · have hjr : ¬ ((j.val : Int) = right) := by omega
        simp [ps2, ps1, delay_for_step, modifyPetal, hrl, hjl, hjr]
      · simp [ps2, ps1, delay_for_step, modifyPetal, hrl, hjl]
    · by_cases hjr : (j.val : Int) = right
      · have hrl : right ≠ left := by omega
        have hin : ¬ (left + 1 ≤ (j.val : Int) ∧ (j.val : Int) ≤ right - 1) := by omega
        have hout : left ≤ (j.val : Int) ∧ (j.val : Int) ≤ right := by omega
        rw [if_neg hin, if_pos hout]
        have hmin : min ((j.val : Int) - left) (right - (j.val : Int)) = 0 := by
          rw [min_eq_right (by omega)]; omega
        rw [hmin]
        simp [ps2, ps1, delay_for_step, modifyPetal, hrl, hjl, hjr]
      · have hps : ps2 j = ps j := by
          by_cases hrl : right ≠ left
          · simp [ps2, ps1, modifyPetal, hrl, hjl, hjr]
          · simp [ps2, ps1, modifyPetal, hrl, hjl]
        rw [hps]
        by_cases hout : left ≤ (j.val : Int) ∧ (j.val : Int) ≤ right
        · have hin : left + 1 ≤ (j.val : Int) ∧ (j.val : Int) ≤ right - 1 := by omega
          rw [if_pos hin, if_pos hout]
          have hmin : step_index + 1 + min ((j.val : Int) - (left + 1)) (right - 1 - (j.val : Int))
              = step_index + min ((j.val : Int) - left) (right - (j.val : Int)) := by
            rcases le_total ((j.val : Int) - left) (right - (j.val : Int)) with h | h
            · rw [min_eq_left h, min_eq_left (by omega)]; omega
            · rw [min_eq_right h, min_eq_right (by omega)]; omega
          rw [hmin]
        · have hin : ¬ (left + 1 ≤ (j.val : Int) ∧ (j.val : Int) ≤ right - 1) := by omega
          rw [if_neg hin, if_neg hout]
  | case2 left right step_index ps hlr =>
    rw [seq2Loop, if_neg hlr]
    have hout : ¬ (left ≤ (j.val : Int) ∧ (j.val : Int) ≤ right) := by omega
    rw [if_neg hout]

theorem Flower_startSeq2_petals (f : Flower) (j : Fin FLOWER_MAX_PETALS) :
    (Flower_startSeq2 f).petals j =
      if (j.val : Int) < f.num_petals then
        { current_angle := (f.petals j).current_angle
          target_angle := f.bloom_angle
          delay_ms := min (j.val : Int) (f.num_petals - 1 - (j.val : Int)) * 200 }
      else f.petals j := by
  unfold Flower_startSeq2
  simp only [seq2Loop_apply]
  by_cases h : (j.val : Int) < f.num_petals
  · have h2 : (0 : Int) ≤ (j.val : Int) ∧ (j.val : Int) ≤ f.num_petals - 1 := by omega
    rw [if_pos h2, if_pos h]
    simp
  · have h2 : ¬ ((0 : Int) ≤ (j.val : Int) ∧ (j.val : Int) ≤ f.num_petals - 1) := by omega
    rw [if_neg h2, if_neg h]

/-- C4: for a flower with `N = num_petals` petals, `1 ≤ N ≤ 8`,
`Flower_applyCommand` with `SEQ2` sets `seq_active` to 2 and `elapsed_ms` to 0,
gives petal `i` and petal `N-1-i` the same delay `k * 200` with
`k = min i (N-1-i)`, sets every petal's target to `bloom_angle` and leaves every
`current_angle` unchanged; for odd `N = 2m+1` the step of the loop that reaches
the middle petal (`left = right = m`) makes one assignment, to that petal, and
ends the loop. -/
theorem applyCommand_SEQ2_pairs (f : Flower) (_h1 : 1 ≤ f.num_petals)
    (_h8 : f.num_petals ≤ 8) :
    (Flower_applyCommand f str_SEQ2).seq_active = 2 ∧
    (Flower_applyCommand f str_SEQ2).elapsed_ms = 0 ∧
    (∀ i : Fin FLOWER_MAX_PETALS, (i.val : Int) < f.num_petals →
      ((Flower_applyCommand f str_SEQ2).petals i).delay_ms
        = min (i.val : Int) (f.num_petals - 1 - (i.val : Int)) * 200 ∧
      ((Flower_applyCommand f str_SEQ2).petals i).target_angle = f.bloom_angle) ∧
    (∀ i j : Fin FLOWER_MAX_PETALS, (i.val : Int) < f.num_petals →
      (j.val : Int) = f.num_petals - 1 - (i.val : Int) →
      ((Flower_applyCommand f str_SEQ2).petals j).delay_ms
        = ((Flower_applyCommand f str_SEQ2).petals i).delay_ms) ∧
    (∀ i : Fin FLOWER_MAX_PETALS,
      ((Flower_applyCommand f str_SEQ2).petals i).current_angle = (f.petals i).current_angle) ∧
    (∀ (m : Fin FLOWER_MAX_PETALS) (ps : Petals), f.num_petals = 2 * (m.val : Int) + 1 →
      seq2Loop f.bloom_angle 200 (m.val : Int) (f.num_petals - 1 - (m.val : Int)) (m.val : Int) ps
        = modifyPetal ps (m.val : Int)
            (fun p => { p with delay_ms := (m.val : Int) * 200, target_angle := f.bloom_angle })) := by
  rw [applyCommand_SEQ2]
  have key : ∀ i : Fin FLOWER_MAX_PETALS, (i.val : Int) < f.num_petals →
      ((Flower_startSeq2 f).petals i).delay_ms
        = min (i.val : Int) (f.num_petals - 1 - (i.val : Int)) * 200 ∧
      ((Flower_startSeq2 f).petals i).target_angle = f.bloom_angle := by
    intro i hi
    rw [Flower_startSeq2_petals, if_pos hi]
    exact ⟨rfl, rfl⟩
  refine ⟨rfl, rfl, key, ?_, ?_, ?_⟩
  · intro i j hi hj
    have hj2 : (j.val : Int) < f.num_petals := by omega
    rw [(key i hi).1, (key j hj2).1, hj]
    have e : f.num_petals - 1 - (f.num_petals - 1 - (i.val : Int)) = (i.val : Int) := by ring
    rw [e, min_comm]
  · intro i
    rw [Flower_startSeq2_petals]
    split <;> rfl
  · intro m ps hm
    funext j
    rw [seq2Loop_apply]
    unfold modifyPetal
    by_cases hj : (j.val : Int) = (m.val : Int)
    · have hin : (m.val : Int) ≤ (j.val : Int) ∧ (j.val : Int) ≤ f.num_petals - 1 - (m.val : Int) := by
        omega
      rw [if_pos hin, if_pos hj]
      have hmin : min ((j.val : Int) - (m.val : Int)) (f.num_petals - 1 - (m.val : Int) - (j.val : Int)) = 0 := by
        rw [min_eq_left (by omega)]; omega
      rw [hmin]
      simp
    · have hin : ¬ ((m.val : Int) ≤ (j.val : Int) ∧ (j.val : Int) ≤ f.num_petals - 1 - (m.val : Int)) := by
        omega
      rw [if_neg hin, if_neg hj]

/-- C4 at the three-petal flower `rose`: the outer petals start at once, the
middle petal 200 ms later. -/
theorem applyCommand_SEQ2_pairs_witness :
    (1 ≤ rose.num_petals ∧ rose.num_petals ≤ 8) ∧
    ((Flower_applyCommand rose str_SEQ2).petals 0).delay_ms = 0 ∧
    ((Flower_applyCommand rose str_SEQ2).petals 1).delay_ms = 200 ∧
    ((Flower_applyCommand rose str_SEQ2).petals 2).delay_ms
      = ((Flower_applyCommand rose str_SEQ2).petals 0).delay_ms := by
  have h1 : 1 ≤ rose.num_petals := by rw [rose_num_petals]; decide
  have h8 : rose.num_petals ≤ 8 := by rw [rose_num_petals]; decide
  have a0 : (((0 : Fin FLOWER_MAX_PETALS).val : Int) < rose.num_petals) := by
    rw [rose_num_petals]; decide
  have a1 : (((1 : Fin FLOWER_MAX_PETALS).val : Int) < rose.num_petals) := by
    rw [rose_num_petals]; decide
  have r0 := ((applyCommand_SEQ2_pairs rose h1 h8).2.2.1 0 a0).1
  have r1 := ((applyCommand_SEQ2_pairs rose h1 h8).2.2.1 1 a1).1
  have r2 := (applyCommand_SEQ2_pairs rose h1 h8).2.2.2.1 0 2 a0 (by rw [rose_num_petals]; decide)
  rw [rose_num_petals] at r0 r1
  exact ⟨⟨h1, h8⟩, by rw [r0]; decide, by rw [r1]; decide, r2⟩

/-! ## Fields that a tick leaves alone -/

theorem Flower_update_frame (f : Flower) (dt_ms : Int) :
    (Flower_update f dt_ms).seq_active = f.seq_active ∧
    (Flower_update f dt_ms).num_petals = f.num_petals ∧
    (Flower_update f dt_ms).name = f.name ∧
    (Flower_update f dt_ms).bloom_angle = f.bloom_angle ∧
    (Flower_update f dt_ms).close_angle = f.close_angle ∧
    (Flower_update f dt_ms).speed_deg_per_sec = f.speed_deg_per_sec := by
  unfold Flower_update
  by_cases h0 : dt_ms ≤ 0
  · simp [h0]
  · by_cases hs : f.seq_active ≠ 0
    · by_cases hst : f.speed_deg_per_sec * ((dt_ms : ℚ) / 1000) ≤ 0
      · simp [h0, hs, hst]
      · simp [h0, hs, hst]
    · by_cases hst : f.speed_deg_per_sec * ((dt_ms : ℚ) / 1000) ≤ 0
      · simp [h0, hs, hst]
      · simp [h0, hs, hst]

theorem Flower_update_elapsed (f : Flower) (dt_ms : Int) (hdt : 0 < dt_ms) :
    (Flower_update f dt_ms).elapsed_ms = elapsedAfter f dt_ms := by
  have h0 : ¬ dt_ms ≤ 0 := by omega
  unfold Flower_update elapsedAfter
  by_cases hs : f.seq_active ≠ 0
  · by_cases hst : f.speed_deg_per_sec * ((dt_ms : ℚ) / 1000) ≤ 0
    · simp [h0, hs, hst]
    · simp [h0, hs, hst]
  · by_cases hst : f.speed_deg_per_sec * ((dt_ms : ℚ) / 1000) ≤ 0
    · simp [h0, hs, hst]
    · simp [h0, hs, hst]

theorem wrapInt32_lower (x : Int) : -2 ^ 31 ≤ wrapInt32 x := by
  unfold wrapInt32
  omega

theorem wrapInt32_upper (x : Int) : wrapInt32 x < 2 ^ 31 := by
  unfold wrapInt32
  omega

theorem wrapInt32_le (x : Int) (h : -2 ^ 31 ≤ x) : wrapInt32 x ≤ x := by
  unfold wrapInt32
  omega

theorem wrapInt32_id (x : Int) (h : -2 ^ 31 ≤ x) (h2 : x < 2 ^ 31) : wrapInt32 x = x := by
  unfold wrapInt32
  omega

/-! ## Petals wait for their delay -/

theorem runTicks_nil (f : Flower) : runTicks f [] = f := rfl

theorem runTicks_cons (f : Flower) (d : Int) (dts : List Int) :
    runTicks f (d :: dts) = runTicks (Flower_update f d) dts := rfl

theorem runTicks_seq_active (f : Flower) (dts : List Int) :
    (runTicks f dts).seq_active = f.seq_active := by
  induction dts generalizing f with
  | nil => rfl
  | cons d dts ih => rw [runTicks_cons, ih, (Flower_update_frame f d).1]

theorem runTicks_delay (f : Flower) (dts : List Int) (i : Fin FLOWER_MAX_PETALS) :
    ((runTicks f dts).petals i).delay_ms = (f.petals i).delay_ms := by
  induction dts generalizing f with
  | nil => rfl
  | cons d dts ih => rw [runTicks_cons, ih, Flower_update_delay]

theorem list_sum_nonneg_of_pos (dts : List Int) (hpos : ∀ d ∈ dts, 0 < d) : 0 ≤ dts.sum := by
  induction dts with
  | nil => simp
  | cons d dts ih =>
    rw [List.sum_cons]
    have h1 : 0 < d := hpos d (List.mem_cons_self _ _)
    have h2 : 0 ≤ dts.sum := ih (fun e he => hpos e (List.mem_cons_of_mem _ he))
    omega

/-- A tick moves a petal only if, after the accumulation at its top, no
sequence is active or `elapsed_ms` has reached the petal's delay. -/
theorem Flower_update_moved (f : Flower) (dt_ms : Int) (i : Fin FLOWER_MAX_PETALS)
    (hmoved : ((Flower_update f dt_ms).petals i).current_angle ≠ (f.petals i).current_angle) :
    f.seq_active = 0 ∨ (f.petals i).delay_ms ≤ (Flower_update f dt_ms).elapsed_ms := by
  by_cases hdt : 0 < dt_ms
  · rw [Flower_update_elapsed f dt_ms hdt]
    rw [Flower_update_petals f dt_ms hdt] at hmoved
    by_cases hs : f.seq_active = 0
    · exact Or.inl hs
    · right
      by_contra hlt
      have hskip : f.seq_active ≠ 0 ∧ elapsedAfter f dt_ms < (f.petals i).delay_ms :=
        ⟨hs, lt_of_not_ge hlt⟩
      apply hmoved
      rw [if_pos hskip]
      simp only [ite_self]
  · exfalso
    apply hmoved
    have h0 : dt_ms ≤ 0 := by omega
    simp [Flower_update, h0]

/-- While a sequence is active, a petal whose delay exceeds the time
accumulated so far plus the total of the coming ticks is not moved by them. -/
theorem runTicks_waiting (dts : List Int) (hpos : ∀ d ∈ dts, 0 < d) (f : Flower)
    (hseq : f.seq_active ≠ 0) (hlo : -2 ^ 31 ≤ f.elapsed_ms) (i : Fin FLOWER_MAX_PETALS)
    (hwait : f.elapsed_ms + dts.sum < (f.petals i).delay_ms) :
    ((runTicks f dts).petals i).current_angle = (f.petals i).current_angle := by
  induction dts generalizing f with
  | nil => rfl
  | cons d dts ih =>
    have hd : 0 < d := hpos d (List.mem_cons_self _ _)
    have hrest : ∀ e ∈ dts, 0 < e := fun e he => hpos e (List.mem_cons_of_mem _ he)
    have hsum : 0 ≤ dts.sum := list_sum_nonneg_of_pos dts hrest
    rw [List.sum_cons] at hwait
    have hel : elapsedAfter f d = wrapInt32 (f.elapsed_ms + d) := by
      unfold elapsedAfter; rw [if_pos hseq]
    have hle : wrapInt32 (f.elapsed_ms + d) ≤ f.elapsed_ms + d :=
      wrapInt32_le _ (by omega)
    have hstay : ((Flower_update f d).petals i).current_angle = (f.petals i).current_angle := by
      by_contra hne
      rcases Flower_update_moved f d i hne with h | h
      · exact hseq h
      · rw [Flower_update_elapsed f d hd, hel] at h
        omega
    rw [runTicks_cons, ih hrest (Flower_update f d)]
    · exact hstay
    · rw [(Flower_update_frame f d).1]; exact hseq
    · rw [Flower_update_elapsed f d hd, hel]; exact wrapInt32_lower _
    · rw [Flower_update_elapsed f d hd, hel, Flower_update_delay]
      omega

/-- C5: after `SEQ1` or `SEQ2` is applied and then ticks with positive `dt_ms`
totalling `T` ms are run, every petal whose `delay_ms` is greater than `T`
still has the `current_angle` it had before the sequence command; and a
further tick moves a petal only if after it `elapsed_ms ≥ delay_ms`. -/
theorem sequence_petals_wait (f : Flower) (cmd : List Char)
    (hcmd : cmd = str_SEQ1 ∨ cmd = str_SEQ2) (dts : List Int) (hpos : ∀ d ∈ dts, 0 < d) :
    (∀ i : Fin FLOWER_MAX_PETALS,
      ((Flower_applyCommand f cmd).petals i).delay_ms > dts.sum →
      ((runTicks (Flower_applyCommand f cmd) dts).petals i).current_angle
        = (f.petals i).current_angle) ∧
    (∀ (d : Int) (i : Fin FLOWER_MAX_PETALS), 0 < d →
      ((Flower_update (runTicks (Flower_applyCommand f cmd) dts) d).petals i).current_angle
        ≠ ((runTicks (Flower_applyCommand f cmd) dts).petals i).current_angle →
      (Flower_update (runTicks (Flower_applyCommand f cmd) dts) d).elapsed_ms
        ≥ ((runTicks (Flower_applyCommand f cmd) dts).petals i).delay_ms) := by
  have hfacts : (Flower_applyCommand f cmd).seq_active ≠ 0 ∧
      (Flower_applyCommand f cmd).elapsed_ms = 0 ∧
      ∀ i : Fin FLOWER_MAX_PETALS,
        ((Flower_applyCommand f cmd).petals i).current_angle = (f.petals i).current_angle := by
    rcases hcmd with h | h
    · subst h
      rw [applyCommand_SEQ1]
      refine ⟨by simp [Flower_startSeq1], rfl, fun i => ?_⟩
      simp only [Flower_startSeq1, forPetals_apply]
      split <;> rfl
    · subst h
      rw [applyCommand_SEQ2]
      refine ⟨by simp [Flower_startSeq2], rfl, fun i => ?_⟩
      rw [Flower_startSeq2_petals]
      split <;> rfl
  obtain ⟨hseq, hel, hcur⟩ := hfacts
  constructor
  · intro i hi
    rw [runTicks_waiting dts hpos (Flower_applyCommand f cmd) hseq (by rw [hel]; decide) i
      (by rw [hel]; omega)]
    exact hcur i
  · intro d i _ hmoved
    rcases Flower_update_moved _ d i hmoved with h | h
    · rw [runTicks_seq_active] at h
      exact absurd h hseq
    · exact h

/-- C5 at the flower `rose`: after `SEQ1` and ticks of 100 ms and 250 ms the
third petal (delay 400 ms) has not moved. -/
theorem sequence_petals_wait_witness :
    (∀ d ∈ [(100 : Int), 250], 0 < d) ∧
    ((Flower_applyCommand rose str_SEQ1).petals 2).delay_ms > [(100 : Int), 250].sum ∧
    ((runTicks (Flower_applyCommand rose str_SEQ1) [100, 250]).petals 2).current_angle
      = (rose.petals 2).current_angle := by
  have hpos : ∀ d ∈ [(100 : Int), 250], 0 < d := by decide
  have hdelay : ((Flower_applyCommand rose str_SEQ1).petals 2).delay_ms
      > [(100 : Int), 250].sum := by
    rw [applyCommand_SEQ1]
    simp only [Flower_startSeq1, forPetals_apply, rose_num_petals]
    decide
  exact ⟨hpos, hdelay,
    (sequence_petals_wait rose str_SEQ1 (Or.inl rfl) [100, 250] hpos).1 2 hdelay⟩

/-! ## Trimming -/

theorem rdropWhile_append_of_all (p : Char → Bool) (l post : List Char)
    (h : ∀ c ∈ post, p c = true) : (l ++ post).rdropWhile p = l.rdropWhile p := by
  unfold List.rdropWhile
  rw [List.reverse_append, List.dropWhile_append_of_pos]
  intro c hc
  exact h c (List.mem_reverse.mp hc)

theorem rdropWhile_of_last (p : Char → Bool) (l : List Char) (a : Char) (h : p a = false) :
    (l ++ [a]).rdropWhile p = l ++ [a] := by
  unfold List.rdropWhile
  rw [List.reverse_append]
  simp [List.dropWhile, h]

theorem dropWhile_of_head (p : Char → Bool) (l : List Char) (a : Char) (h : p a = false) :
    (a :: l).dropWhile p = a :: l := by
  simp [List.dropWhile, h]

/-- A list is what `rdropWhile` keeps followed by characters that all satisfy
the predicate. -/
theorem rdropWhile_split (p : Char → Bool) (s : List Char) :
    ∃ post : List Char, s = s.rdropWhile p ++ post ∧ ∀ c ∈ post, p c = true := by
  refine ⟨(s.reverse.takeWhile p).reverse, ?_, ?_⟩
  · unfold List.rdropWhile
    rw [← List.reverse_append, List.takeWhile_append_dropWhile, List.reverse_reverse]
  · intro c hc
    exact List.mem_takeWhile_imp (List.mem_reverse.mp hc)

/-- A list is characters that all satisfy the predicate followed by what
`dropWhile` keeps. -/
theorem dropWhile_split (p : Char → Bool) (s : List Char) :
    ∃ pre : List Char, s = pre ++ s.dropWhile p ∧ ∀ c ∈ pre, p c = true :=
  ⟨s.takeWhile p, (List.takeWhile_append_dropWhile p s).symm,
    fun _ hc => List.mem_takeWhile_imp hc⟩

/-- Shape of the verbs: a first character, a middle, a last character, the
outer two being neither blank nor newline. -/
theorem verb_shape (v : List Char) (hv : v ∈ verbs) :
    ∃ (a b : Char) (m : List Char), v = a :: (m ++ [b]) ∧
      isBlankOrNewline a = false ∧ isBlankOrNewline b = false := by
  simp only [verbs, List.mem_cons, List.mem_singleton, List.not_mem_nil, or_false] at hv
  rcases hv with h | h | h | h
  · exact ⟨'O', 'N', ['P', 'E'], by rw [h]; rfl, by decide, by decide⟩
  · exact ⟨'C', 'E', ['L', 'O', 'S'], by rw [h]; rfl, by decide, by decide⟩
  · exact ⟨'S', '1', ['E', 'Q'], by rw [h]; rfl, by decide, by decide⟩
  · exact ⟨'S', '2', ['E', 'Q'], by rw [h]; rfl, by decide, by decide⟩

theorem blank_of_isBlankOrNewline_false (c : Char) (h : isBlankOrNewline c = false) :
    (c == ' ' || c == '\t') = false ∧ (c == '\n' || c == '\r') = false := by
  unfold isBlankOrNewline at h
  simp only [Bool.or_eq_false_iff] at h ⊢
  exact ⟨⟨h.1.1.1, h.1.1.2⟩, ⟨h.2, h.1.2⟩⟩

/-- The parser's own trimming: leading blanks and tabs (`pre`) and trailing
CR and LF (`post`) around a verb are removed. -/
theorem codeTrim_verb (pre v post : List Char) (hv : v ∈ verbs)
    (hpre : ∀ c ∈ pre, (c == ' ' || c == '\t') = true)
    (hpost : ∀ c ∈ post, (c == '\n' || c == '\r') = true) :
    (trim_newline (pre ++ v ++ post)).dropWhile (fun c => c == ' ' || c == '\t') = v := by
  obtain ⟨a, b, m, hshape, ha, hb⟩ := verb_shape v hv
  have ha2 := (blank_of_isBlankOrNewline_false a ha).1
  have hb2 := (blank_of_isBlankOrNewline_false b hb).2
  unfold trim_newline
  rw [rdropWhile_append_of_all _ _ _ hpost]
  have e : pre ++ v = (pre ++ a :: m) ++ [b] := by rw [hshape]; simp
  rw [e, rdropWhile_of_last _ _ _ hb2, ← e, List.dropWhile_append_of_pos hpre, hshape]
  exact dropWhile_of_head _ _ _ ha2

/-- Trimming blanks and newlines on both sides of a verb surrounded by blanks
and newlines gives the verb. -/
theorem trimBothSides_verb (pre v post : List Char) (hv : v ∈ verbs)
    (hpre : ∀ c ∈ pre, isBlankOrNewline c = true)
    (hpost : ∀ c ∈ post, isBlankOrNewline c = true) :
    trimBothSides (pre ++ v ++ post) = v := by
  obtain ⟨a, b, m, hshape, ha, hb⟩ := verb_shape v hv
  unfold trimBothSides
  rw [List.append_assoc, List.dropWhile_append_of_pos hpre, hshape, List.cons_append,
    dropWhile_of_head _ _ _ ha, ← List.cons_append, rdropWhile_append_of_all _ _ _ hpost]
  have e : a :: (m ++ [b]) = (a :: m) ++ [b] := by simp
  rw [e, rdropWhile_of_last _ _ _ hb]

theorem commandText_eq (line : List Char) :
    commandText line
      = (trim_newline (line.take 127)).dropWhile (fun c => c == ' ' || c == '\t') := rfl

/-- When the parser finds a verb, the copied text trimmed on both sides is
that verb. -/
theorem trimBothSides_of_commandText (line : List Char) (hv : commandText line ∈ verbs) :
    trimBothSides (line.take 127) = commandText line := by
  rw [commandText_eq] at hv ⊢
  obtain ⟨post, hpost, hpostall⟩ :=
    rdropWhile_split (fun c => c == '\n' || c == '\r') (line.take 127)
  obtain ⟨pre, hpre, hpreall⟩ :=
    dropWhile_split (fun c => c == ' ' || c == '\t') (trim_newline (line.take 127))
  have hs : line.take 127
      = pre ++ (trim_newline (line.take 127)).dropWhile (fun c => c == ' ' || c == '\t')
          ++ post := by
    rw [← hpre]; exact hpost
  have h1 : ∀ c ∈ pre, isBlankOrNewline c = true := by
    intro c hc
    have := hpreall c hc
    simp only [Bool.or_eq_true] at this
    unfold isBlankOrNewline
    rcases this with h | h <;> simp [h]
  have h2 : ∀ c ∈ post, isBlankOrNewline c = true := by
    intro c hc
    have := hpostall c hc
    simp only [Bool.or_eq_true] at this
    unfold isBlankOrNewline
    rcases this with h | h <;> simp [h]
  have := trimBothSides_verb pre _ post hv h1 h2
  rw [← hs] at this
  exact this

theorem applyCommand_of_not_verb (f : Flower) (line : List Char)
    (h : commandText line ∉ verbs) : Flower_applyCommand f line = f := by
  simp only [verbs, List.mem_cons, List.mem_singleton, List.not_mem_nil, or_false,
    not_or] at h
  unfold Flower_applyCommand
  simp [h.1, h.2.1, h.2.2.1, h.2.2.2]

theorem applyCommand_congr (f : Flower) (l1 l2 : List Char)
    (h : commandText l1 = commandText l2) :
    Flower_applyCommand f l1 = Flower_applyCommand f l2 := by
  unfold Flower_applyCommand
  rw [h]

/-! ## Lines that are not commands -/

/-- C7 (amended): for every flower state and every input line, if the first
127 characters of the line (what fits the command buffer), trimmed of
surrounding whitespace and newlines, are not exactly one of `OPEN`, `CLOSE`,
`SEQ1`, `SEQ2`, then `Flower_applyCommand` leaves the whole flower state
unchanged; in particular this holds for every line of at most 127 characters
whose trimmed text is not one of the four verbs. -/
theorem applyCommand_ignores_other_lines (f : Flower) (line : List Char) :
    (trimBothSides (line.take 127) ∉ verbs → Flower_applyCommand f line = f) ∧
    (line.length ≤ 127 → trimBothSides line ∉ verbs → Flower_applyCommand f line = f) := by
  have main : trimBothSides (line.take 127) ∉ verbs → Flower_applyCommand f line = f := by
    intro h
    apply applyCommand_of_not_verb
    intro hv
    apply h
    rw [trimBothSides_of_commandText line hv]
    exact hv
  refine ⟨main, fun hlen h => main ?_⟩
  rw [List.take_of_length_le hlen]
  exact h

/-- C7 (amended) at the flower `rose`: the empty line, `open` and `TERMINATE`
change nothing. -/
theorem applyCommand_ignores_other_lines_witness :
    (trimBothSides (([] : List Char).take 127) ∉ verbs ∧ Flower_applyCommand rose [] = rose) ∧
    ((['o', 'p', 'e', 'n'] : List Char).length ≤ 127 ∧
      trimBothSides ['o', 'p', 'e', 'n'] ∉ verbs ∧
      Flower_applyCommand rose ['o', 'p', 'e', 'n'] = rose) ∧
    ((['T', 'E', 'R', 'M', 'I', 'N', 'A', 'T', 'E'] : List Char).length ≤ 127 ∧
      trimBothSides ['T', 'E', 'R', 'M', 'I', 'N', 'A', 'T', 'E'] ∉ verbs ∧
      Flower_applyCommand rose ['T', 'E', 'R', 'M', 'I', 'N', 'A', 'T', 'E'] = rose) :=
  ⟨⟨by decide, (applyCommand_ignores_other_lines rose []).1 (by decide)⟩,
    ⟨by decide, by decide,
      (applyCommand_ignores_other_lines rose ['o', 'p', 'e', 'n']).2 (by decide) (by decide)⟩,
    ⟨by decide, by decide,
      (applyCommand_ignores_other_lines rose
        ['T', 'E', 'R', 'M', 'I', 'N', 'A', 'T', 'E']).2 (by decide) (by decide)⟩⟩

theorem rose_OPEN_ne : Flower_applyCommand rose str_OPEN ≠ rose := by
  intro h
  have h1 : ((Flower_applyCommand rose str_OPEN).petals 0).target_angle
      = (rose.petals 0).target_angle := by rw [h]
  have h0 : (((0 : Fin FLOWER_MAX_PETALS).val : Int) < rose.num_petals) := by
    rw [rose_num_petals]; decide
  rw [applyCommand_OPEN] at h1
  simp only [forPetals_apply, h0, if_true] at h1
  have h2 : rose.petals 0 = ⟨5, 5, 0⟩ := Flower_init_petals _ _ _ 0
  have h3 : rose.bloom_angle = 80 := rfl
  rw [h2, h3] at h1
  norm_num at h1

/-- C7 as stated fails on a long line: 123 blanks followed by `OPENX` trim to
`OPENX`, which is not a verb, yet only the first 127 characters reach the
comparison, they read `OPEN`, and the flower is opened. -/
theorem applyCommand_long_line_counterexample :
    trimBothSides longOpenX = ['O', 'P', 'E', 'N', 'X'] ∧
    trimBothSides longOpenX ∉ verbs ∧
    Flower_applyCommand rose longOpenX = Flower_applyCommand rose str_OPEN ∧
    Flower_applyCommand rose longOpenX ≠ rose := by
  have h1 : trimBothSides longOpenX = ['O', 'P', 'E', 'N', 'X'] := by decide
  have h2 : commandText longOpenX = commandText str_OPEN := by decide
  have h3 := applyCommand_congr rose _ _ h2
  refine ⟨h1, by rw [h1]; decide, h3, ?_⟩
  rw [h3]
  exact rose_OPEN_ne

/-! ## Whitespace around a verb -/

/-- C8 (amended): for every flower state, every verb `v` among `OPEN`, `CLOSE`,
`SEQ1`, `SEQ2` and every line made of `v` preceded by blanks and tabs and
followed by carriage returns and newlines, where the leading blanks and the
verb together are at most 127 characters, `Flower_applyCommand` on that line
produces the same state as on `v` alone. -/
theorem applyCommand_trims_around_verb (f : Flower) (v pre post : List Char)
    (hv : v ∈ verbs)
    (hpre : ∀ c ∈ pre, c = ' ' ∨ c = '\t')
    (hpost : ∀ c ∈ post, c = '\r' ∨ c = '\n')
    (hlen : pre.length + v.length ≤ 127) :
    Flower_applyCommand f (pre ++ v ++ post) = Flower_applyCommand f v := by
  apply applyCommand_congr
  have hpre2 : ∀ c ∈ pre, (c == ' ' || c == '\t') = true := by
    intro c hc
    rcases hpre c hc with h | h <;> simp [h]
  have hpost2 : ∀ c ∈ post.take (127 - (pre ++ v).length), (c == '\n' || c == '\r') = true := by
    intro c hc
    rcases hpost c (List.mem_of_mem_take hc) with h | h <;> simp [h]
  have hl : (pre ++ v).length ≤ 127 := by rw [List.length_append]; exact hlen
  have hlv : v.length ≤ 127 := by omega
  rw [commandText_eq, commandText_eq, List.take_append_eq_append_take,
    List.take_of_length_le hl, List.take_of_length_le hlv,
    codeTrim_verb pre v _ hv hpre2 hpost2]
  have := codeTrim_verb [] v [] hv (by simp) (by simp)
  simp only [List.nil_append, List.append_nil] at this
  exact this.symm

/-- C8 (amended) at the flower `rose` and the line tab, blank, `SEQ2`, CR, LF. -/
theorem applyCommand_trims_around_verb_witness :
    str_SEQ2 ∈ verbs ∧
    (∀ c ∈ ['\t', ' '], c = ' ' ∨ c = '\t') ∧
    (∀ c ∈ ['\r', '\n'], c = '\r' ∨ c = '\n') ∧
    (['\t', ' '] : List Char).length + str_SEQ2.length ≤ 127 ∧
    Flower_applyCommand rose (['\t', ' '] ++ str_SEQ2 ++ ['\r', '\n'])
      = Flower_applyCommand rose str_SEQ2 :=
  ⟨by decide, by decide, by decide, by decide,
    applyCommand_trims_around_verb rose str_SEQ2 ['\t', ' '] ['\r', '\n']
      (by decide) (by decide) (by decide) (by decide)⟩

/-- C8 as stated fails in two ways: a blank after the verb is not trimmed, so
`OPEN` followed by a blank is ignored; and 124 blanks before `OPEN` push the
verb past the 127 characters that are compared, so that line is ignored too. -/
theorem applyCommand_whitespace_counterexample :
    (Flower_applyCommand rose ([] ++ str_OPEN ++ [' ']) = rose ∧
      Flower_applyCommand rose ([] ++ str_OPEN ++ [' ']) ≠ Flower_applyCommand rose str_OPEN) ∧
    (paddedOpen = List.replicate 124 ' ' ++ str_OPEN ++ [] ∧
      Flower_applyCommand rose paddedOpen = rose ∧
      Flower_applyCommand rose paddedOpen ≠ Flower_applyCommand rose str_OPEN) := by
  have h1 : Flower_applyCommand rose ([] ++ str_OPEN ++ [' ']) = rose :=
    applyCommand_of_not_verb _ _ (by decide)
  have h2 : Flower_applyCommand rose paddedOpen = rose :=
    applyCommand_of_not_verb _ _ (by decide)
  refine ⟨⟨h1, ?_⟩, by simp [paddedOpen], h2, ?_⟩
  · rw [h1]; exact fun h => rose_OPEN_ne h.symm
  · rw [h2]; exact fun h => rose_OPEN_ne h.symm

/-! ## The status line in the buffer -/

theorem take_set_ge (l : List Char) (n m : Nat) (a : Char) (h : m ≤ n) :
    (l.set n a).take m = l.take m := by
  apply List.ext_getElem?
  intro i
  rw [List.getElem?_take, List.getElem?_take]
  split
  · rw [List.getElem?_set_ne (by omega)]
  · rfl

theorem take_succ_set (l : List Char) (n : Nat) (a : Char) (h : n < l.length) :
    (l.set n a).take (n + 1) = l.take n ++ [a] := by
  rw [List.take_succ, take_set_ge l n n a (le_refl _), List.getElem?_set_self h]
  rfl

theorem pokeList_length (s : List Char) (out : List Char) (pos : Nat) :
    (pokeList out pos s).length = out.length := by
  induction s generalizing out pos with
  | nil => rfl
  | cons c cs ih => rw [pokeList, ih, List.length_set]

theorem pokeList_take (s : List Char) (out : List Char) (pos : Nat)
    (h : pos + s.length ≤ out.length) :
    (pokeList out pos s).take (pos + s.length) = out.take pos ++ s := by
  induction s generalizing out pos with
  | nil => simp [pokeList]
  | cons c cs ih =>
    rw [List.length_cons] at h
    rw [pokeList]
    have e : pos + (c :: cs).length = (pos + 1) + cs.length := by
      rw [List.length_cons]; omega
    rw [e, ih (out.set pos c) (pos + 1) (by rw [List.length_set]; omega),
      take_succ_set out pos c (by omega)]
    simp

/-- A `snprintf` whose text fits: the text lands after the first `pos`
characters, which are kept, and the size of the memory does not change. -/
theorem snprintf_fits (out : List Char) (pos size : Nat) (s : List Char)
    (hsize : s.length < size) (hroom : pos + s.length < out.length) :
    (snprintf out pos size s).2 = s.length ∧
    (snprintf out pos size s).1.length = out.length ∧
    (snprintf out pos size s).1.take (pos + s.length) = out.take pos ++ s := by
  have h0 : ¬ size = 0 := by omega
  have ht : s.take (size - 1) = s := List.take_of_length_le (by omega)
  have hm : min s.length (size - 1) = s.length := min_eq_left (by omega)
  unfold snprintf
  rw [if_neg h0, ht, hm]
  refine ⟨rfl, ?_, ?_⟩
  · show ((pokeList out pos s).set (pos + s.length) NUL).length = out.length
    rw [List.length_set, pokeList_length]
  · show ((pokeList out pos s).set (pos + s.length) NUL).take (pos + s.length) = out.take pos ++ s
    rw [take_set_ge _ _ _ _ (le_refl _), pokeList_take s out pos (by omega)]

theorem angleText_length_succ (f : Flower) (i k : Nat) :
    (angleText f i (k + 1)).length = (angleItem f i).length + (angleText f (i + 1) k).length := by
  rw [angleText, List.length_append]

/-- The angle loop when everything fits: no early return, the text of the
iterations is appended after the first `used` characters. -/
theorem angleLoop_fits (f : Flower) (out_size : Nat) (k : Nat) (i : Nat) (out : List Char)
    (used : Nat) (hsize : out_size ≤ out.length)
    (hfit : used + (angleText f i k).length + 2 ≤ out_size) :
    ∃ out2 : List Char,
      angleLoop f out_size k i out used = (out2, some (used + (angleText f i k).length)) ∧
      out2.length = out.length ∧
      out2.take (used + (angleText f i k).length) = out.take used ++ angleText f i k := by
  induction k generalizing i out used with
  | zero => exact ⟨out, rfl, rfl, by simp [angleText]⟩
  | succ k ih =>
    rw [angleText_length_succ] at hfit
    obtain ⟨h1, h2, h3⟩ := snprintf_fits out used (out_size - used) (angleItem f i)
      (by omega) (by omega)
    have hno : ¬ (used + (snprintf out used (out_size - used) (angleItem f i)).2 ≥ out_size) := by
      rw [h1]; omega
    obtain ⟨out2, e1, e2, e3⟩ := ih (i + 1)
      (snprintf out used (out_size - used) (angleItem f i)).1
      (used + (angleItem f i).length) (by rw [h2]; exact hsize) (by omega)
    refine ⟨out2, ?_, ?_, ?_⟩
    · rw [angleLoop, if_neg hno, h1, e1, angleText_length_succ, Nat.add_assoc]
    · rw [e2, h2]
    · rw [angleText_length_succ, ← Nat.add_assoc, e3, h3, angleText, List.append_assoc]

/-- The text of the angle loop is the list of the printed integers joined by
commas, without a trailing comma. -/
theorem angleText_eq_joinComma (f : Flower) (k i : Nat)
    (hN : k ≠ 0 → ((i + k : Nat) : Int) = f.num_petals) :
    angleText f i k = joinComma ((List.range' i k).map (fun j => fmtInt (petalAng f j))) := by
  induction k generalizing i with
  | zero => rfl
  | succ k ih =>
    have hN2 := hN (Nat.succ_ne_zero k)
    rw [angleText, List.range'_succ, List.map_cons]
    cases k with
    | zero =>
      have hlast : (i : Int) = f.num_petals - 1 := by push_cast at hN2; omega
      simp [angleText, angleItem, hlast, joinComma]
    | succ k =>
      have hnot : ¬ ((i : Int) = f.num_petals - 1) := by push_cast at hN2; omega
      have ih2 := ih (i + 1) (fun _ => by push_cast at hN2 ⊢; omega)
      rw [ih2, List.range'_succ, List.map_cons]
      simp [angleItem, hnot, joinComma]

theorem statusLine_eq (f : Flower) :
    statusLine f = statusHeader f ++ angleText f 0 f.num_petals.toNat ++ ['\n'] := by
  have hname : (if f.name = [] then str_noname else f.name)
      = (if f.name ≠ [] then f.name else str_noname) := by
    by_cases h : f.name = [] <;> simp [h]
  have hang : angleText f 0 f.num_petals.toNat
      = joinComma ((List.range f.num_petals.toNat).map (fun j => fmtInt (petalAng f j))) := by
    rw [List.range_eq_range']
    apply angleText_eq_joinComma
    intro hk
    have hpos : 0 ≤ f.num_petals := by
      by_contra hneg
      exact hk (Int.toNat_eq_zero.mpr (by omega))
    rw [Nat.zero_add, Int.toNat_of_nonneg hpos]
  unfold statusLine statusHeader
  rw [hname, hang]

/-- `Flower_buildStatus` into a buffer that holds the whole line: the memory
starts with the status line, followed by a NUL, and keeps its size. -/
theorem Flower_buildStatus_fits (f : Flower) (out : List Char) (out_size : Nat)
    (hsize : out_size ≤ out.length) (hfit : (statusLine f).length + 1 ≤ out_size) :
    (Flower_buildStatus f out out_size).take (statusLine f).length = statusLine f ∧
    (Flower_buildStatus f out out_size)[(statusLine f).length]? = some NUL ∧
    (Flower_buildStatus f out out_size).length = out.length := by
  have hL : (statusLine f).length
      = (statusHeader f).length + (angleText f 0 f.num_petals.toNat).length + 1 := by
    rw [statusLine_eq]; simp; omega
  rw [hL] at hfit
  have h0 : ¬ out_size = 0 := by omega
  obtain ⟨a1, a2, a3⟩ := snprintf_fits (out.set 0 NUL) 0 out_size (statusHeader f)
    (by omega) (by rw [List.length_set]; omega)
  rw [List.length_set] at a2
  rw [Nat.zero_add, List.take_zero, List.nil_append] at a3
  have hno : ¬ ((snprintf (out.set 0 NUL) 0 out_size (statusHeader f)).2 ≥ out_size) := by
    rw [a1]; omega
  obtain ⟨out2, e1, e2, e3⟩ := angleLoop_fits f out_size f.num_petals.toNat 0
    (snprintf (out.set 0 NUL) 0 out_size (statusHeader f)).1 (statusHeader f).length
    (by rw [a2]; exact hsize) (by omega)
  rw [a3] at e3
  rw [a2] at e2
  have hres : Flower_buildStatus f out out_size
      = (out2.set ((statusHeader f).length + (angleText f 0 f.num_petals.toNat).length) '\n').set
          ((statusHeader f).length + (angleText f 0 f.num_petals.toNat).length + 1) NUL := by
    unfold Flower_buildStatus
    rw [if_neg h0]
    simp only
    rw [if_neg hno, a1, e1]
    simp only
    have hnl : (statusHeader f).length + (angleText f 0 f.num_petals.toNat).length + 1
        < out_size := by omega
    rw [if_pos hnl]
    by_cases h2 : (statusHeader f).length + (angleText f 0 f.num_petals.toNat).length + 2
        < out_size
    · rw [if_pos h2]
    · rw [if_neg h2]
      have e : out_size - 1
          = (statusHeader f).length + (angleText f 0 f.num_petals.toNat).length + 1 := by omega
      rw [e]
  rw [hres, hL]
  refine ⟨?_, ?_, ?_⟩
  · rw [take_set_ge _ _ _ _ (le_refl _), take_succ_set _ _ _ (by rw [e2]; omega), e3,
      statusLine_eq]
  · rw [List.getElem?_set_self (by rw [List.length_set, e2]; omega)]
  · rw [List.length_set, List.length_set, e2]

theorem myabsf_eq_abs (x : ℚ) : myabsf x = |x| := by
  unfold myabsf
  by_cases h : x < 0
  · rw [if_pos h, abs_of_neg h]
  · rw [if_neg h, abs_of_nonneg (le_of_not_lt h)]

theorem statusState_cases (f : Flower) : statusState f = str_MOVING ∨ statusState f = str_IDLE := by
  unfold statusState
  split
  · exact Or.inl rfl
  · exact Or.inr rfl

/-! ## Rounding to binary32 -/

theorem roundHalfEven_intCast (z : Int) : roundHalfEven (z : ℚ) = z := by
  unfold roundHalfEven
  rw [Int.floor_intCast]
  simp

theorem f32ulp_pos (x : ℚ) : 0 < f32ulp x := by
  unfold f32ulp
  positivity

/-- A real that is a whole multiple of the spacing at its own exponent is a
binary32 value (as long as it has at most 24 significant bits, which a whole
multiple of the spacing has). -/
theorem f32_of_multiple (x : ℚ) (z : Int) (h : x / f32ulp x = (z : ℚ)) : f32 x = x := by
  unfold f32
  rw [h, roundHalfEven_intCast, ← h]
  exact div_mul_cancel₀ x (ne_of_gt (f32ulp_pos x))

theorem f32_zero : f32 0 = 0 := by
  apply f32_of_multiple 0 0
  simp

/-- Halves of natural numbers below `2 ^ 23` are binary32 values. -/
theorem f32_half (n : Nat) (hn : 0 < n) (hlt : (n : ℚ) / 2 < 2 ^ 23) :
    f32 ((n : ℚ) / 2) = (n : ℚ) / 2 := by
  have hpos : (0 : ℚ) < (n : ℚ) / 2 := by positivity
  have habs : |(n : ℚ) / 2| = (n : ℚ) / 2 := abs_of_pos hpos
  have hlog : Int.log 2 ((n : ℚ) / 2) < 23 := by
    rw [← Int.lt_zpow_iff_log_lt (by norm_num) hpos]
    exact_mod_cast hlt
  have hk : ∃ k : Nat, (23 : Int) - max (Int.log 2 ((n : ℚ) / 2)) (-126) = (k : Int) + 1 := by
    refine ⟨(22 - max (Int.log 2 ((n : ℚ) / 2)) (-126)).toNat, ?_⟩
    have : max (Int.log 2 ((n : ℚ) / 2)) (-126) ≤ 22 := max_le (by omega) (by norm_num)
    omega
  obtain ⟨k, hk⟩ := hk
  apply f32_of_multiple _ ((n : Int) * 2 ^ k)
  unfold f32ulp
  rw [habs]
  have e : max (Int.log 2 ((n : ℚ) / 2)) (-126) - 23 = -((k : Int) + 1) := by omega
  rw [e, zpow_neg, div_inv_eq_mul]
  push_cast
  rw [zpow_add₀ (by norm_num), zpow_natCast]
  ring

/-- The spacing around a real whose binary exponent is `e`. -/
theorem f32ulp_of_exponent (x : ℚ) (e : Int) (h1 : (2 : ℚ) ^ e ≤ |x|)
    (h2 : |x| < (2 : ℚ) ^ (e + 1)) (he : -126 ≤ e) : f32ulp x = (2 : ℚ) ^ (e - 23) := by
  have hpos : (0 : ℚ) < |x| := lt_of_lt_of_le (by positivity) h1
  have hlo : e ≤ Int.log 2 |x| := by
    rw [← Int.zpow_le_iff_le_log (by norm_num) hpos]
    exact_mod_cast h1
  have hhi : Int.log 2 |x| < e + 1 := by
    rw [← Int.lt_zpow_iff_log_lt (by norm_num) hpos]
    exact_mod_cast h2
  have hlog : Int.log 2 |x| = e := by omega
  unfold f32ulp
  rw [hlog, max_eq_left he]

/-- A real half way between two integers rounds to the even one. -/
theorem roundHalfEven_tie (z : Int) :
    roundHalfEven ((z : ℚ) + 1 / 2) = if z % 2 = 0 then z else z + 1 := by
  have hfl : ⌊(z : ℚ) + 1 / 2⌋ = z := by
    rw [Int.floor_eq_iff]
    constructor <;> linarith
  unfold roundHalfEven
  rw [hfl]
  have h1 : ¬ ((z : ℚ) + 1 / 2 - (z : ℚ) < 1 / 2) := by linarith
  have h2 : ¬ ((1 : ℚ) / 2 < (z : ℚ) + 1 / 2 - (z : ℚ)) := by linarith
  rw [if_neg h1, if_neg h2]

/-- In binary32, `1 - (0.5 - 2^-25)` is `0.5`: the exact difference
`0.5 + 2^-25` lies half way between `0.5` and the next value `0.5 + 2^-24`. -/
theorem f32_near_half_diff : f32 (1 - (1 / 2 - 1 / 2 ^ 25)) = 1 / 2 := by
  have hu : f32ulp (1 - (1 / 2 - 1 / 2 ^ 25)) = (2 : ℚ) ^ ((-1 : Int) - 23) := by
    apply f32ulp_of_exponent
    · rw [abs_of_pos (by norm_num)]; norm_num
    · rw [abs_of_pos (by norm_num)]; norm_num
    · norm_num
  have hq : (1 - (1 / 2 - 1 / 2 ^ 25)) / (2 : ℚ) ^ ((-1 : Int) - 23)
      = ((8388608 : Int) : ℚ) + 1 / 2 := by
    norm_num [zpow_neg]
  unfold f32
  rw [hu, hq, roundHalfEven_tie]
  norm_num [zpow_neg]

/-- In binary32, `(0.5 - 2^-25) + 0.5` is `1`. -/
theorem f32_near_half_sum : f32 (1 / 2 - 1 / 2 ^ 25 + 1 / 2) = 1 := by
  have hu : f32ulp (1 / 2 - 1 / 2 ^ 25 + 1 / 2) = (2 : ℚ) ^ ((-1 : Int) - 23) := by
    apply f32ulp_of_exponent
    · rw [abs_of_pos (by norm_num)]; norm_num
    · rw [abs_of_pos (by norm_num)]; norm_num
    · norm_num
  have hq : (1 / 2 - 1 / 2 ^ 25 + 1 / 2) / (2 : ℚ) ^ ((-1 : Int) - 23)
      = ((16777215 : Int) : ℚ) + 1 / 2 := by
    norm_num [zpow_neg]
  unfold f32
  rw [hu, hq, roundHalfEven_tie]
  norm_num [zpow_neg]

/-- The angle `0.5 - 2^-25` is a binary32 value (the one just below `0.5`). -/
theorem f32_near_half_current : f32 (1 / 2 - 1 / 2 ^ 25) = 1 / 2 - 1 / 2 ^ 25 := by
  have hu : f32ulp (1 / 2 - 1 / 2 ^ 25) = (2 : ℚ) ^ ((-2 : Int) - 23) := by
    apply f32ulp_of_exponent
    · rw [abs_of_pos (by norm_num)]; norm_num
    · rw [abs_of_pos (by norm_num)]; norm_num
    · norm_num
  apply f32_of_multiple _ 16777215
  rw [hu]
  norm_num [zpow_neg]

/-- Rounding to an integer never crosses an integer. -/
theorem roundHalfEven_le (x : ℚ) (z : Int) (h : x ≤ (z : ℚ)) : roundHalfEven x ≤ z := by
  have hfl : ⌊x⌋ ≤ z := by
    have h1 : ((⌊x⌋ : Int) : ℚ) ≤ (z : ℚ) := le_trans (Int.floor_le x) h
    exact_mod_cast h1
  unfold roundHalfEven
  rcases lt_or_eq_of_le hfl with hlt | heq
  · split_ifs <;> omega
  · have hx : x = (⌊x⌋ : ℚ) := by
      apply le_antisymm
      · rw [heq]; exact h
      · exact Int.floor_le x
    have h0 : x - (⌊x⌋ : ℚ) < 1 / 2 := by rw [← hx]; norm_num
    rw [if_pos h0]; exact hfl

theorem le_roundHalfEven (x : ℚ) (z : Int) (h : (z : ℚ) ≤ x) : z ≤ roundHalfEven x := by
  have hfl : z ≤ ⌊x⌋ := Int.le_floor.mpr h
  unfold roundHalfEven
  split_ifs <;> omega

/-- A difference of at most `0.5` in absolute value still has absolute value
at most `0.5` after rounding to binary32. -/
theorem f32_abs_le_half (x : ℚ) (h : |x| ≤ 1 / 2) : |f32 x| ≤ 1 / 2 := by
  by_cases hx0 : x = 0
  · rw [hx0, f32_zero]; norm_num
  have hpos : (0 : ℚ) < |x| := abs_pos.mpr hx0
  have hlog : Int.log 2 |x| < 0 := by
    rw [← Int.lt_zpow_iff_log_lt (by norm_num) hpos]
    have : |x| < 1 := by linarith
    simpa using this
  obtain ⟨k, hk⟩ : ∃ k : Nat, (k : Int) = -1 - (max (Int.log 2 |x|) (-126) - 23) :=
    ⟨(-1 - (max (Int.log 2 |x|) (-126) - 23)).toNat, by
      rw [Int.toNat_of_nonneg]
      have : max (Int.log 2 |x|) (-126) ≤ -1 := max_le (by omega) (by norm_num)
      omega⟩
  have hu : f32ulp x * ((2 ^ k : Int) : ℚ) = 1 / 2 := by
    unfold f32ulp
    have e : (((2 : Int) ^ k : Int) : ℚ) = (2 : ℚ) ^ (k : Int) := by
      push_cast; rw [zpow_natCast]
    rw [e, ← zpow_add₀ (by norm_num : (2 : ℚ) ≠ 0), hk]
    have : max (Int.log 2 |x|) (-126) - 23 + (-1 - (max (Int.log 2 |x|) (-126) - 23)) = -1 := by
      ring
    rw [this]; norm_num
  have hup := f32ulp_pos x
  obtain ⟨hl, hr⟩ := abs_le.mp h
  have h1 : x / f32ulp x ≤ ((2 ^ k : Int) : ℚ) := by
    rw [div_le_iff₀ hup]; rw [mul_comm, hu]; exact hr
  have h2 : ((-(2 ^ k) : Int) : ℚ) ≤ x / f32ulp x := by
    rw [le_div_iff₀ hup]; push_cast; push_cast at hu
    rw [neg_mul, mul_comm, hu]; linarith
  have r1 := roundHalfEven_le _ _ h1
  have r2 := le_roundHalfEven _ _ h2
  have q1 : (roundHalfEven (x / f32ulp x) : ℚ) ≤ ((2 ^ k : Int) : ℚ) := by exact_mod_cast r1
  have q2 : ((-(2 ^ k) : Int) : ℚ) ≤ (roundHalfEven (x / f32ulp x) : ℚ) := by exact_mod_cast r2
  unfold f32
  rw [abs_le]
  constructor
  · have := mul_le_mul_of_nonneg_right q2 hup.le
    push_cast at this; push_cast at hu
    rw [neg_mul, mul_comm ((2 : ℚ) ^ k), hu] at this
    linarith
  · have := mul_le_mul_of_nonneg_right q1 hup.le
    rw [mul_comm ((2 ^ k : Int) : ℚ), hu] at this
    exact this

/-- A difference of at least `0.5 + 2^-24` in absolute value (the binary32
value that follows `0.5`) is still above `0.5` after rounding to binary32. -/
theorem f32_abs_gt_half (x : ℚ) (h : 1 / 2 + 1 / 2 ^ 24 ≤ |x|) : 1 / 2 < |f32 x| := by
  have hpos : (0 : ℚ) < |x| := lt_of_lt_of_le (by norm_num) h
  have hlog : -1 ≤ Int.log 2 |x| := by
    rw [← Int.zpow_le_iff_le_log (by norm_num) hpos]
    have : (1 : ℚ) / 2 ≤ |x| := le_trans (by norm_num) h
    simpa using this
  have hup := f32ulp_pos x
  have hmax : max (Int.log 2 |x|) (-126) = Int.log 2 |x| := max_eq_left (by omega)
  -- the integer bound on |x| / ulp
  have key : ∃ z : Int, (z : ℚ) ≤ |x| / f32ulp x ∧ 1 / 2 < (z : ℚ) * f32ulp x := by
    rcases eq_or_lt_of_le hlog with he | hlt
    · have hu : f32ulp x = 1 / 2 ^ 24 := by
        unfold f32ulp; rw [hmax, ← he]; norm_num [zpow_neg]
      refine ⟨8388609, ?_, ?_⟩
      · rw [le_div_iff₀ hup, hu]; norm_num at h ⊢; linarith
      · rw [hu]; norm_num
    · have hself : ((2 : Nat) : ℚ) ^ Int.log 2 |x| ≤ |x| :=
        Int.zpow_log_le_self (by norm_num) hpos
      have hu : (8388608 : ℚ) * f32ulp x = (2 : ℚ) ^ Int.log 2 |x| := by
        unfold f32ulp; rw [hmax, zpow_sub₀ (by norm_num : (2 : ℚ) ≠ 0)]
        norm_num
        field_simp
      refine ⟨8388608, ?_, ?_⟩
      · rw [le_div_iff₀ hup]; push_cast; rw [hu]; exact_mod_cast hself
      · push_cast; rw [hu]
        have : (1 : ℚ) ≤ (2 : ℚ) ^ Int.log 2 |x| := by
          apply one_le_zpow₀ (by norm_num) (by omega)
        linarith
  obtain ⟨z, hz1, hz2⟩ := key
  unfold f32
  rcases le_or_lt 0 x with hx | hx
  · rw [abs_of_nonneg hx] at hz1
    have r := le_roundHalfEven _ _ hz1
    have q : (z : ℚ) ≤ (roundHalfEven (x / f32ulp x) : ℚ) := by exact_mod_cast r
    have := mul_le_mul_of_nonneg_right q hup.le
    exact lt_of_lt_of_le (lt_of_lt_of_le hz2 this) (le_abs_self _)
  · rw [abs_of_neg hx, neg_div] at hz1
    have hz3 : x / f32ulp x ≤ ((-z : Int) : ℚ) := by push_cast; linarith
    have r := roundHalfEven_le _ _ hz3
    have q : (roundHalfEven (x / f32ulp x) : ℚ) ≤ ((-z : Int) : ℚ) := by exact_mod_cast r
    have := mul_le_mul_of_nonneg_right q hup.le
    push_cast at this
    have h3 : 1 / 2 < -((roundHalfEven (x / f32ulp x) : ℚ) * f32ulp x) := by linarith
    exact lt_of_lt_of_le h3 (neg_le_abs _)
theorem statusState_moving_iff (f : Flower) :
    statusState f = str_MOVING ↔
      ∃ i : Nat, (i : Int) < f.num_petals ∧
        |f32 ((petalAt f.petals i).target_angle - (petalAt f.petals i).current_angle)| > 1 / 2 := by
  have hne : str_IDLE ≠ str_MOVING := by decide
  have hany : (List.range f.num_petals.toNat).any (petalMoving f) = true ↔
      ∃ i : Nat, (i : Int) < f.num_petals ∧
        |f32 ((petalAt f.petals i).target_angle - (petalAt f.petals i).current_angle)| > 1 / 2 := by
    rw [List.any_eq_true]
    constructor
    · rintro ⟨i, hi, hm⟩
      refine ⟨i, Int.lt_toNat.mp (List.mem_range.mp hi), ?_⟩
      unfold petalMoving at hm
      rw [decide_eq_true_eq, myabsf_eq_abs] at hm
      exact hm
    · rintro ⟨i, hi, hm⟩
      refine ⟨i, List.mem_range.mpr (Int.lt_toNat.mpr hi), ?_⟩
      unfold petalMoving
      rw [decide_eq_true_eq, myabsf_eq_abs]
      exact hm
  unfold statusState
  by_cases h : (List.range f.num_petals.toNat).any (petalMoving f) = true
  · rw [if_pos h]
    exact ⟨fun _ => hany.mp h, fun _ => rfl⟩
  · rw [if_neg h]
    exact ⟨fun e => absurd e hne, fun e => absurd (hany.mpr e) h⟩

theorem petalAt_fin (ps : Petals) (i : Fin FLOWER_MAX_PETALS) : petalAt ps i.val = ps i := by
  unfold petalAt
  rw [dif_pos i.isLt]

theorem statusState_moving_iff_fin (f : Flower) (h8 : f.num_petals ≤ 8) :
    statusState f = str_MOVING ↔
      ∃ i : Fin FLOWER_MAX_PETALS, (i.val : Int) < f.num_petals ∧
        |f32 ((f.petals i).target_angle - (f.petals i).current_angle)| > 1 / 2 := by
  rw [statusState_moving_iff]
  constructor
  · rintro ⟨i, hi, hm⟩
    have hlt : i < FLOWER_MAX_PETALS := by
      have : (i : Int) < 8 := by omega
      exact_mod_cast this
    refine ⟨⟨i, hlt⟩, hi, ?_⟩
    rw [← petalAt_fin f.petals ⟨i, hlt⟩]
    exact hm
  · rintro ⟨i, hi, hm⟩
    refine ⟨i.val, hi, ?_⟩
    rw [petalAt_fin]
    exact hm

theorem truncToInt_eleven_halves : truncToInt (f32 (5 + 1 / 2)) = 5 := by
  have e : (5 + 1 / 2 : ℚ) = ((11 : Nat) : ℚ) / 2 := by norm_num
  rw [e, f32_half 11 (by decide) (by norm_num), ← e]
  unfold truncToInt
  have h : (0 : ℚ) ≤ 5 + 1 / 2 := by norm_num
  rw [if_pos h]
  exact Int.floor_eq_iff.mpr ⟨by norm_num, by norm_num⟩

theorem rose_petalAt (i : Nat) (hi : i < FLOWER_MAX_PETALS) :
    petalAt rose.petals i = ⟨5, 5, 0⟩ := by
  unfold petalAt
  rw [dif_pos hi]
  exact Flower_init_petals _ _ _ _

theorem rose_statusState : statusState rose = str_IDLE := by
  rcases statusState_cases rose with h | h
  · exfalso
    obtain ⟨i, hi, hm⟩ := (statusState_moving_iff rose).mp h
    rw [rose_num_petals] at hi
    have hlt : i < FLOWER_MAX_PETALS := by
      have : (i : Int) < 8 := by omega
      exact_mod_cast this
    rw [rose_petalAt i hlt] at hm
    simp only [sub_self, f32_zero] at hm
    norm_num at hm
  · exact h

theorem rose_statusLine : statusLine rose = roseLine := by
  have hang : ∀ i : Nat, i < FLOWER_MAX_PETALS → fmtInt (petalAng rose i) = ['5'] := by
    intro i hi
    unfold petalAng
    rw [rose_petalAt i hi, truncToInt_eleven_halves]
    decide
  have hname : rose.name = ['r', 'o', 's', 'e'] := by decide
  unfold statusLine
  rw [rose_statusState, rose_num_petals, hname]
  have hr : (3 : Int).toNat = 3 := by decide
  rw [hr]
  simp only [List.range, List.range.loop, List.map_cons, List.map_nil]
  rw [hang 0 (by decide), hang 1 (by decide), hang 2 (by decide)]
  decide

theorem statusState_idle_of_close (f : Flower)
    (h : ∀ i : Nat, (i : Int) < f.num_petals →
      |(petalAt f.petals i).target_angle - (petalAt f.petals i).current_angle| ≤ 1 / 2) :
    statusState f = str_IDLE := by
  rcases statusState_cases f with hm | hi
  · exfalso
    obtain ⟨i, hi, hgt⟩ := (statusState_moving_iff f).mp hm
    have := f32_abs_le_half _ (h i hi)
    linarith
  · exact hi

theorem nearHalf_statusState : statusState nearHalf = str_IDLE := by
  rcases statusState_cases nearHalf with hm | hi
  · exfalso
    obtain ⟨i, _, hgt⟩ := (statusState_moving_iff_fin nearHalf (by decide)).mp hm
    have e : (nearHalf.petals i).target_angle - (nearHalf.petals i).current_angle
        = 1 - (1 / 2 - 1 / 2 ^ 25) := rfl
    rw [e, f32_near_half_diff, abs_of_pos (by norm_num : (0 : ℚ) < 1 / 2)] at hgt
    exact lt_irrefl _ hgt
  · exact hi

theorem nearHalf_statusLine : statusLine nearHalf = nearHalfLine := by
  have hang : fmtInt (petalAng nearHalf 0) = ['1'] := by
    have e : (petalAt nearHalf.petals 0).current_angle + 1 / 2 = 1 / 2 - 1 / 2 ^ 25 + 1 / 2 := rfl
    unfold petalAng
    rw [e, f32_near_half_sum]
    have ht : truncToInt 1 = 1 := by
      unfold truncToInt
      rw [if_pos (by norm_num)]
      exact Int.floor_eq_iff.mpr ⟨by norm_num, by norm_num⟩
    rw [ht]
    decide
  have hname : nearHalf.name = [] := rfl
  have hnum : nearHalf.num_petals.toNat = 1 := by decide
  unfold statusLine
  rw [nearHalf_statusState, hnum, hname]
  simp only [List.range, List.range.loop, List.map_cons, List.map_nil]
  rw [hang]
  decide

/-- C10 (amended): into a destination buffer large enough for the whole line,
`Flower_buildStatus` writes exactly `STATUS name=` + N + ` state=` + S +
` petal_angles=` + A + newline (followed by the terminating NUL), where N is
the flower's name or `noname` when the name is empty, A is exactly
`num_petals` integers joined by commas with no trailing comma, and S is
`MOVING` if and only if some petal `i < num_petals` has `|d| > 0.5` for `d` the
binary32 result of `target_angle - current_angle`, and `IDLE` otherwise.  In
terms of the exact difference: S is `MOVING` whenever some petal has
`|target_angle - current_angle| >= 0.5 + 2^-24`, S is `IDLE` whenever every
petal has `|target_angle - current_angle| <= 0.5` (a difference of exactly 0.5
is `IDLE`), and when every difference is itself a binary32 value S is `MOVING`
if and only if some petal has `|target_angle - current_angle| > 0.5`. -/
theorem Flower_buildStatus_line (f : Flower) (out : List Char) (out_size : Nat)
    (hsize : out_size ≤ out.length) (hfit : (statusLine f).length + 1 ≤ out_size) :
    (Flower_buildStatus f out out_size).take (statusLine f).length
      = str_STATUS_name ++ (if f.name = [] then str_noname else f.name) ++ str_state
        ++ statusState f ++ str_petal_angles
        ++ joinComma ((List.range f.num_petals.toNat).map (fun i => fmtInt (petalAng f i)))
        ++ ['\n'] ∧
    (Flower_buildStatus f out out_size)[(statusLine f).length]? = some NUL ∧
    ((List.range f.num_petals.toNat).map (fun i => fmtInt (petalAng f i))).length
      = f.num_petals.toNat ∧
    (statusState f = str_MOVING ∨ statusState f = str_IDLE) ∧
    (statusState f = str_MOVING ↔
      ∃ i : Nat, (i : Int) < f.num_petals ∧
        |f32 ((petalAt f.petals i).target_angle - (petalAt f.petals i).current_angle)|
          > 1 / 2) ∧
    (f.num_petals ≤ 8 →
      (statusState f = str_MOVING ↔
        ∃ i : Fin FLOWER_MAX_PETALS, (i.val : Int) < f.num_petals ∧
          |f32 ((f.petals i).target_angle - (f.petals i).current_angle)| > 1 / 2)) ∧
    ((∃ i : Nat, (i : Int) < f.num_petals ∧
        1 / 2 + 1 / 2 ^ 24
          ≤ |(petalAt f.petals i).target_angle - (petalAt f.petals i).current_angle|) →
      statusState f = str_MOVING) ∧
    ((∀ i : Nat, (i : Int) < f.num_petals →
        |(petalAt f.petals i).target_angle - (petalAt f.petals i).current_angle| ≤ 1 / 2) →
      statusState f = str_IDLE) ∧
    ((∀ i : Nat, (i : Int) < f.num_petals →
        f32 ((petalAt f.petals i).target_angle - (petalAt f.petals i).current_angle)
          = (petalAt f.petals i).target_angle - (petalAt f.petals i).current_angle) →
      (statusState f = str_MOVING ↔
        ∃ i : Nat, (i : Int) < f.num_petals ∧
          |(petalAt f.petals i).target_angle - (petalAt f.petals i).current_angle|
            > 1 / 2)) := by
  obtain ⟨h1, h2, _⟩ := Flower_buildStatus_fits f out out_size hsize hfit
  refine ⟨h1, h2, by simp, statusState_cases f, statusState_moving_iff f,
    statusState_moving_iff_fin f, ?_, statusState_idle_of_close f, ?_⟩
  · rintro ⟨i, hi, hge⟩
    exact (statusState_moving_iff f).mpr ⟨i, hi, f32_abs_gt_half _ hge⟩
  · intro hex
    rw [statusState_moving_iff]
    constructor
    · rintro ⟨i, hi, hm⟩
      rw [hex i hi] at hm
      exact ⟨i, hi, hm⟩
    · rintro ⟨i, hi, hm⟩
      rw [← hex i hi] at hm
      exact ⟨i, hi, hm⟩

/-- C10, counterexample: the one-petal flower `nearHalf` holds the binary32
angles `current_angle = 0.5 - 2^-25` and `target_angle = 1`, so its petal has
`|target_angle - current_angle| = 0.5 + 2^-25 > 0.5`; the binary32 subtraction
rounds this difference to `0.5` and `Flower_buildStatus` writes `state=IDLE`:
the line is `STATUS name=noname state=IDLE petal_angles=1`. -/
theorem Flower_buildStatus_rounding_counterexample :
    (∃ i : Fin FLOWER_MAX_PETALS, (i.val : Int) < nearHalf.num_petals ∧
      f32 (nearHalf.petals i).current_angle = (nearHalf.petals i).current_angle ∧
      f32 (nearHalf.petals i).target_angle = (nearHalf.petals i).target_angle ∧
      |(nearHalf.petals i).target_angle - (nearHalf.petals i).current_angle| > 1 / 2) ∧
    statusState nearHalf = str_IDLE ∧
    (Flower_buildStatus nearHalf (List.replicate 64 'x') 64).take nearHalfLine.length
      = nearHalfLine := by
  refine ⟨⟨0, by decide, ?_, ?_, ?_⟩, nearHalf_statusState, ?_⟩
  · exact f32_near_half_current
  · have e : (nearHalf.petals 0).target_angle = ((2 : Nat) : ℚ) / 2 := by
      show (1 : ℚ) = ((2 : Nat) : ℚ) / 2
      norm_num
    rw [e]
    exact f32_half 2 (by decide) (by norm_num)
  · show |(1 : ℚ) - (1 / 2 - 1 / 2 ^ 25)| > 1 / 2
    rw [abs_of_pos (by norm_num)]
    norm_num
  · have hsize : 64 ≤ (List.replicate 64 'x').length := by
      rw [List.length_replicate]
    have hfit : (statusLine nearHalf).length + 1 ≤ 64 := by
      rw [nearHalf_statusLine]; decide
    have h := (Flower_buildStatus_fits nearHalf (List.replicate 64 'x') 64 hsize hfit).1
    rw [← nearHalf_statusLine]
    exact h

/-- C10 at the flower `rose` and a buffer of 256 characters: the line written
is `STATUS name=rose state=IDLE petal_angles=5,5,5` and a newline. -/
theorem Flower_buildStatus_line_witness :
    (256 ≤ (List.replicate 256 'x').length ∧ (statusLine rose).length + 1 ≤ 256) ∧
    (Flower_buildStatus rose (List.replicate 256 'x') 256).take (statusLine rose).length
      = roseLine := by
  have hsize : 256 ≤ (List.replicate 256 'x').length := by
    rw [List.length_replicate]
  have hfit : (statusLine rose).length + 1 ≤ 256 := by
    rw [rose_statusLine]; decide
  have h := (Flower_buildStatus_line rose (List.replicate 256 'x') 256 hsize hfit).1
  refine ⟨⟨hsize, hfit⟩, ?_⟩
  rw [h]
  exact rose_statusLine

/-! ## Reachable states and the run to the bloom angle -/

theorem Flower_update_between (f : Flower) (dt_ms : Int) (i : Fin FLOWER_MAX_PETALS) :
    min (f.petals i).current_angle (f.petals i).target_angle
        ≤ ((Flower_update f dt_ms).petals i).current_angle ∧
    ((Flower_update f dt_ms).petals i).current_angle
        ≤ max (f.petals i).current_angle (f.petals i).target_angle := by
  have hstill : min (f.petals i).current_angle (f.petals i).target_angle
        ≤ (f.petals i).current_angle ∧
      (f.petals i).current_angle ≤ max (f.petals i).current_angle (f.petals i).target_angle :=
    ⟨min_le_left _ _, le_max_left _ _⟩
  by_cases hdt : 0 < dt_ms
  · rw [Flower_update_petals f dt_ms hdt]
    by_cases hs : stepOf f dt_ms ≤ 0
    · rw [if_pos hs]; exact hstill
    · rw [if_neg hs]
      split
      · split
        · exact hstill
        · obtain ⟨h1, _, _, _⟩ :=
            movePetal_spec (stepOf f dt_ms) (lt_of_not_ge hs) (f.petals i)
          rcases h1 with ⟨a, b⟩ | ⟨a, b⟩
          · exact ⟨le_trans (min_le_left _ _) a, le_trans b (le_max_right _ _)⟩
          · exact ⟨le_trans (min_le_right _ _) a, le_trans b (le_max_left _ _)⟩
      · exact hstill
  · have h0 : dt_ms ≤ 0 := by omega
    have e : Flower_update f dt_ms = f := by simp [Flower_update, h0]
    rw [e]; exact hstill

/-- What a command line can do to a flower. -/
theorem applyCommand_cases (f : Flower) (line : List Char) :
    Flower_applyCommand f line = f ∨
    Flower_applyCommand f line = Flower_applyCommand f str_OPEN ∨
    Flower_applyCommand f line = Flower_applyCommand f str_CLOSE ∨
    Flower_applyCommand f line = Flower_startSeq1 f ∨
    Flower_applyCommand f line = Flower_startSeq2 f := by
  by_cases h1 : commandText line = str_OPEN
  · exact Or.inr (Or.inl (applyCommand_congr f _ _ (by rw [h1, commandText_OPEN])))
  · by_cases h2 : commandText line = str_CLOSE
    · exact Or.inr (Or.inr (Or.inl (applyCommand_congr f _ _ (by rw [h2, commandText_CLOSE]))))
    · by_cases h3 : commandText line = str_SEQ1
      · refine Or.inr (Or.inr (Or.inr (Or.inl ?_)))
        rw [← applyCommand_SEQ1]
        exact applyCommand_congr f _ _ (by rw [h3, commandText_SEQ1])
      · by_cases h4 : commandText line = str_SEQ2
        · refine Or.inr (Or.inr (Or.inr (Or.inr ?_)))
          rw [← applyCommand_SEQ2]
          exact applyCommand_congr f _ _ (by rw [h4, commandText_SEQ2])
        · left
          apply applyCommand_of_not_verb
          simp [verbs, h1, h2, h3, h4]

/-- A command changes neither the constants of a flower nor any current angle,
and a target it sets is the bloom or the close angle. -/
theorem applyCommand_frame (f : Flower) (line : List Char) :
    (Flower_applyCommand f line).num_petals = f.num_petals ∧
    (Flower_applyCommand f line).bloom_angle = f.bloom_angle ∧
    (Flower_applyCommand f line).close_angle = f.close_angle ∧
    (Flower_applyCommand f line).speed_deg_per_sec = f.speed_deg_per_sec ∧
    ∀ i : Fin FLOWER_MAX_PETALS,
      ((Flower_applyCommand f line).petals i).current_angle = (f.petals i).current_angle ∧
      (((Flower_applyCommand f line).petals i).target_angle = (f.petals i).target_angle ∨
        ((Flower_applyCommand f line).petals i).target_angle = f.bloom_angle ∨
        ((Flower_applyCommand f line).petals i).target_angle = f.close_angle) := by
  rcases applyCommand_cases f line with h | h | h | h | h
  · rw [h]; exact ⟨rfl, rfl, rfl, rfl, fun i => ⟨rfl, Or.inl rfl⟩⟩
  · rw [h, applyCommand_OPEN]
    refine ⟨rfl, rfl, rfl, rfl, fun i => ?_⟩
    simp only [forPetals_apply]
    split
    · exact ⟨rfl, Or.inr (Or.inl rfl)⟩
    · exact ⟨rfl, Or.inl rfl⟩
  · rw [h, applyCommand_CLOSE]
    refine ⟨rfl, rfl, rfl, rfl, fun i => ?_⟩
    simp only [forPetals_apply]
    split
    · exact ⟨rfl, Or.inr (Or.inr rfl)⟩
    · exact ⟨rfl, Or.inl rfl⟩
  · rw [h]
    refine ⟨rfl, rfl, rfl, rfl, fun i => ?_⟩
    simp only [Flower_startSeq1, forPetals_apply]
    split
    · exact ⟨rfl, Or.inr (Or.inl rfl)⟩
    · exact ⟨rfl, Or.inl rfl⟩
  · rw [h]
    refine ⟨rfl, rfl, rfl, rfl, fun i => ?_⟩
    rw [Flower_startSeq2_petals]
    split
    · exact ⟨rfl, Or.inr (Or.inl rfl)⟩
    · exact ⟨rfl, Or.inl rfl⟩

/-- Every reachable flower has 1 to 8 petals, the default constants, current
angles between the close and the bloom angle, and targets that are one of the
two. -/
theorem reachable_bounds (f : Flower) (h : Reachable f) :
    1 ≤ f.num_petals ∧ f.num_petals ≤ 8 ∧
    f.bloom_angle = 80 ∧ f.close_angle = 5 ∧ f.speed_deg_per_sec = 15 ∧
    ∀ i : Fin FLOWER_MAX_PETALS,
      5 ≤ (f.petals i).current_angle ∧ (f.petals i).current_angle ≤ 80 ∧
      ((f.petals i).target_angle = 5 ∨ (f.petals i).target_angle = 80) := by
  induction h with
  | init f0 name n =>
    have hn := Flower_init_num_petals f0 name n
    refine ⟨?_, ?_, rfl, rfl, rfl, fun i => ?_⟩
    · rw [hn]; exact le_max_left _ _
    · rw [hn]; exact max_le (by decide) (min_le_right _ _)
    · rw [Flower_init_petals]
      norm_num
  | command f line _ ih =>
    obtain ⟨a1, a2, a3, a4, a5, a6⟩ := ih
    obtain ⟨b1, b2, b3, b4, b5⟩ := applyCommand_frame f line
    refine ⟨by rw [b1]; exact a1, by rw [b1]; exact a2, by rw [b2]; exact a3,
      by rw [b3]; exact a4, by rw [b4]; exact a5, fun i => ?_⟩
    obtain ⟨c1, c2⟩ := b5 i
    obtain ⟨d1, d2, d3⟩ := a6 i
    refine ⟨by rw [c1]; exact d1, by rw [c1]; exact d2, ?_⟩
    rcases c2 with e | e | e
    · rw [e]; exact d3
    · rw [e, a3]; exact Or.inr rfl
    · rw [e, a4]; exact Or.inl rfl
  | tick f dt _ ih =>
    obtain ⟨a1, a2, a3, a4, a5, a6⟩ := ih
    obtain ⟨b1, b2, _, b4, b5, b6⟩ := Flower_update_frame f dt
    refine ⟨by rw [b2]; exact a1, by rw [b2]; exact a2, by rw [b4]; exact a3,
      by rw [b5]; exact a4, by rw [b6]; exact a5, fun i => ?_⟩
    obtain ⟨d1, d2, d3⟩ := a6 i
    obtain ⟨e1, e2⟩ := Flower_update_between f dt i
    rw [Flower_update_target]
    refine ⟨le_trans ?_ e1, le_trans e2 ?_, d3⟩
    · rcases d3 with t | t <;> rw [t] <;> apply le_min d1 <;> norm_num
    · rcases d3 with t | t <;> rw [t] <;> apply max_le d2 <;> norm_num

/-- One tick with no sequence active, positive speed, petal below its target:
the petal advances by the step and stops at the target. -/
theorem Flower_update_rising (f : Flower) (dt_ms : Int) (i : Fin FLOWER_MAX_PETALS)
    (hdt : 0 < dt_ms) (hi : (i.val : Int) < f.num_petals) (hseq : f.seq_active = 0)
    (hspeed : 0 < f.speed_deg_per_sec)
    (hle : (f.petals i).current_angle ≤ (f.petals i).target_angle) :
    ((Flower_update f dt_ms).petals i).current_angle
      = min (f.petals i).target_angle
          ((f.petals i).current_angle + f.speed_deg_per_sec * (dt_ms : ℚ) / 1000) := by
  have hdtq : (0 : ℚ) < (dt_ms : ℚ) := by exact_mod_cast hdt
  have hstep : stepOf f dt_ms = f.speed_deg_per_sec * (dt_ms : ℚ) / 1000 := by
    unfold stepOf; ring
  have hpos : 0 < stepOf f dt_ms := by
    rw [hstep]; positivity
  have hskip : ¬ (f.seq_active ≠ 0 ∧ elapsedAfter f dt_ms < (f.petals i).delay_ms) :=
    fun h => h.1 hseq
  rw [Flower_update_petals f dt_ms hdt, if_neg (not_le.mpr hpos), if_pos hi, if_neg hskip,
    movePetal_current, ← hstep]
  rcases lt_or_eq_of_le hle with hlt | heq
  · have hd : (f.petals i).target_angle - (f.petals i).current_angle > 0 := by linarith
    rw [if_pos hd]
    by_cases h2 : (f.petals i).target_angle - (f.petals i).current_angle ≤ stepOf f dt_ms
    · rw [if_pos h2, min_eq_left (by linarith)]
    · rw [if_neg h2, min_eq_right (by linarith)]
  · have hd : ¬ ((f.petals i).target_angle - (f.petals i).current_angle > 0) := by linarith
    have hd2 : ¬ ((f.petals i).target_angle - (f.petals i).current_angle < 0) := by linarith
    rw [if_neg hd, if_neg hd2, min_eq_left (by linarith)]
    exact heq

theorem runTicks_frame (f : Flower) (dts : List Int) :
    (runTicks f dts).num_petals = f.num_petals ∧
    (runTicks f dts).name = f.name ∧
    (runTicks f dts).bloom_angle = f.bloom_angle ∧
    (runTicks f dts).speed_deg_per_sec = f.speed_deg_per_sec ∧
    ∀ i : Fin FLOWER_MAX_PETALS,
      ((runTicks f dts).petals i).target_angle = (f.petals i).target_angle := by
  induction dts generalizing f with
  | nil => exact ⟨rfl, rfl, rfl, rfl, fun _ => rfl⟩
  | cons d dts ih =>
    obtain ⟨a1, a2, a3, a4, a5⟩ := ih (Flower_update f d)
    obtain ⟨_, b2, b3, b4, _, b6⟩ := Flower_update_frame f d
    rw [runTicks_cons]
    exact ⟨by rw [a1, b2], by rw [a2, b3], by rw [a3, b4], by rw [a4, b6],
      fun i => by rw [a5, Flower_update_target]⟩

/-- A run of ticks with no sequence active, positive speed, petal below its
target: the petal ends at the target or at its start plus speed times the
total time, whichever is lower. -/
theorem runTicks_rising (dts : List Int) (hpos : ∀ d ∈ dts, 0 < d) (f : Flower)
    (i : Fin FLOWER_MAX_PETALS) (hi : (i.val : Int) < f.num_petals) (hseq : f.seq_active = 0)
    (hspeed : 0 < f.speed_deg_per_sec)
    (hle : (f.petals i).current_angle ≤ (f.petals i).target_angle) :
    ((runTicks f dts).petals i).current_angle
      = min (f.petals i).target_angle
          ((f.petals i).current_angle + f.speed_deg_per_sec * ((dts.sum : Int) : ℚ) / 1000) := by
  induction dts generalizing f with
  | nil =>
    rw [runTicks_nil, List.sum_nil]
    simp [hle]
  | cons d dts ih =>
    have hd : 0 < d := hpos d (List.mem_cons_self _ _)
    have hrest : ∀ e ∈ dts, 0 < e := fun e he => hpos e (List.mem_cons_of_mem _ he)
    have hsum : (0 : ℚ) ≤ ((dts.sum : Int) : ℚ) := by
      exact_mod_cast list_sum_nonneg_of_pos dts hrest
    obtain ⟨b1, b2, _, _, _, b6⟩ := Flower_update_frame f d
    have hone := Flower_update_rising f d i hd hi hseq hspeed hle
    have hrate : 0 ≤ f.speed_deg_per_sec * ((dts.sum : Int) : ℚ) / 1000 := by positivity
    rw [runTicks_cons, ih hrest (Flower_update f d) (by rw [b2]; exact hi) (by rw [b1]; exact hseq)
      (by rw [b6]; exact hspeed)
      (by rw [Flower_update_target, hone]; exact min_le_left _ _),
      Flower_update_target, b6, hone, List.sum_cons, Int.cast_add]
    rcases le_total (f.petals i).target_angle
        ((f.petals i).current_angle + f.speed_deg_per_sec * (d : ℚ) / 1000) with h | h
    · rw [min_eq_left h, min_eq_left (by linarith), min_eq_left]
      have e : f.speed_deg_per_sec * ((d : ℚ) + ((dts.sum : Int) : ℚ)) / 1000
          = f.speed_deg_per_sec * (d : ℚ) / 1000
            + f.speed_deg_per_sec * ((dts.sum : Int) : ℚ) / 1000 := by ring
      rw [e]; linarith
    · rw [min_eq_right h]
      congr 1
      ring

/-- C2: for every flower state reachable from `Flower_init` by commands and
ticks, applying `OPEN` and then ticks with positive `dt_ms` whose total is at
least `|bloom_angle - close_angle| / speed = 5000` ms leaves every petal's
`current_angle` within 0.5 degrees of `bloom_angle`, and the state computed by
`Flower_buildStatus` is `IDLE`. -/
theorem open_then_ticks_reach_bloom (f : Flower) (hf : Reachable f) (dts : List Int)
    (hpos : ∀ d ∈ dts, 0 < d) (htotal : 5000 ≤ dts.sum) :
    |f.bloom_angle - f.close_angle| / f.speed_deg_per_sec * 1000 = 5000 ∧
    (∀ i : Fin FLOWER_MAX_PETALS,
      (i.val : Int) < (runTicks (Flower_applyCommand f str_OPEN) dts).num_petals →
      |((runTicks (Flower_applyCommand f str_OPEN) dts).petals i).current_angle
          - (runTicks (Flower_applyCommand f str_OPEN) dts).bloom_angle| ≤ 1 / 2) ∧
    statusState (runTicks (Flower_applyCommand f str_OPEN) dts) = str_IDLE ∧
    (∀ (out : List Char) (out_size : Nat), out_size ≤ out.length →
      (statusLine (runTicks (Flower_applyCommand f str_OPEN) dts)).length + 1 ≤ out_size →
      (Flower_buildStatus (runTicks (Flower_applyCommand f str_OPEN) dts) out out_size).take
          (statusLine (runTicks (Flower_applyCommand f str_OPEN) dts)).length
        = str_STATUS_name ++ (if f.name = [] then str_noname else f.name) ++ str_state
          ++ str_IDLE ++ str_petal_angles
          ++ joinComma ((List.range f.num_petals.toNat).map (fun _ => ['8', '0']))
          ++ ['\n']) := by
  obtain ⟨a1, a2, a3, a4, a5, a6⟩ := reachable_bounds f hf
  obtain ⟨r1, r2, r3, r4, r5⟩ := runTicks_frame (Flower_applyCommand f str_OPEN) dts
  have hN : (Flower_applyCommand f str_OPEN).num_petals = f.num_petals := by
    rw [applyCommand_OPEN]
  have hB : (Flower_applyCommand f str_OPEN).bloom_angle = f.bloom_angle := by
    rw [applyCommand_OPEN]
  have hS : (Flower_applyCommand f str_OPEN).speed_deg_per_sec = f.speed_deg_per_sec := by
    rw [applyCommand_OPEN]
  have hQ : (Flower_applyCommand f str_OPEN).seq_active = 0 := by
    rw [applyCommand_OPEN]
  have hP : ∀ i : Fin FLOWER_MAX_PETALS, (i.val : Int) < f.num_petals →
      (Flower_applyCommand f str_OPEN).petals i
        = ⟨(f.petals i).current_angle, 80, 0⟩ := by
    intro i hi
    rw [applyCommand_OPEN]
    simp only [forPetals_apply, hi, if_true, a3]
  have hT : (5000 : ℚ) ≤ ((dts.sum : Int) : ℚ) := by exact_mod_cast htotal
  have hcur : ∀ i : Fin FLOWER_MAX_PETALS, (i.val : Int) < f.num_petals →
      ((runTicks (Flower_applyCommand f str_OPEN) dts).petals i).current_angle = 80 := by
    intro i hi
    obtain ⟨d1, d2, _⟩ := a6 i
    rw [runTicks_rising dts hpos (Flower_applyCommand f str_OPEN) i (by rw [hN]; exact hi) hQ
      (by rw [hS, a5]; norm_num) (by rw [hP i hi]; exact d2), hP i hi, hS, a5]
    apply min_eq_left
    show (80 : ℚ) ≤ (f.petals i).current_angle + 15 * ((dts.sum : Int) : ℚ) / 1000
    linarith
  have htgt : ∀ i : Fin FLOWER_MAX_PETALS, (i.val : Int) < f.num_petals →
      ((runTicks (Flower_applyCommand f str_OPEN) dts).petals i).target_angle = 80 := by
    intro i hi
    rw [r5, hP i hi]
  have hidle : statusState (runTicks (Flower_applyCommand f str_OPEN) dts) = str_IDLE := by
    rcases statusState_cases (runTicks (Flower_applyCommand f str_OPEN) dts) with h | h
    · exfalso
      obtain ⟨i, hi, hm⟩ := (statusState_moving_iff_fin _ (by rw [r1, hN]; exact a2)).mp h
      rw [r1, hN] at hi
      rw [hcur i hi, htgt i hi, sub_self, f32_zero] at hm
      norm_num at hm
    · exact h
  refine ⟨?_, ?_, hidle, ?_⟩
  · rw [a3, a4, a5]; norm_num
  · intro i hi
    rw [r1, hN] at hi
    rw [hcur i hi, r3, hB, a3]
    norm_num
  · intro out out_size hsize hfit
    rw [(Flower_buildStatus_fits _ out out_size hsize hfit).1]
    unfold statusLine
    rw [hidle, r1, hN, r2]
    have hname : (Flower_applyCommand f str_OPEN).name = f.name := by rw [applyCommand_OPEN]
    rw [hname]
    congr 3
    apply List.map_congr_left
    intro j hj
    have hjN : (j : Int) < f.num_petals := Int.lt_toNat.mp (List.mem_range.mp hj)
    have hj8 : j < FLOWER_MAX_PETALS := by
      have : (j : Int) < 8 := by omega
      exact_mod_cast this
    have hc := hcur ⟨j, hj8⟩ hjN
    have hpa := petalAt_fin (runTicks (Flower_applyCommand f str_OPEN) dts).petals ⟨j, hj8⟩
    unfold petalAng
    rw [hpa, hc]
    have ht : truncToInt (f32 ((80 : ℚ) + 1 / 2)) = 80 := by
      have e : ((80 : ℚ) + 1 / 2) = ((161 : Nat) : ℚ) / 2 := by norm_num
      rw [e, f32_half 161 (by decide) (by norm_num), ← e]
      unfold truncToInt
      rw [if_pos (by norm_num)]
      exact Int.floor_eq_iff.mpr ⟨by norm_num, by norm_num⟩
    rw [ht]
    decide

/-- C2 at the flower `rose`: `OPEN` and then fifty ticks of 100 ms. -/
theorem open_then_ticks_reach_bloom_witness :
    Reachable rose ∧
    (∀ d ∈ List.replicate 50 (100 : Int), 0 < d) ∧
    5000 ≤ (List.replicate 50 (100 : Int)).sum ∧
    statusState (runTicks (Flower_applyCommand rose str_OPEN) (List.replicate 50 100))
      = str_IDLE :=
  have hr : Reachable rose := Reachable.init rawFlower (some ['r', 'o', 's', 'e']) 3
  ⟨hr, by decide, by decide,
    (open_then_ticks_reach_bloom rose hr (List.replicate 50 100) (by decide) (by decide)).2.2.1⟩

/-! ## `OPEN` followed by ticks of 100 ms -/

theorem replicate_sum (k : Nat) (d : Int) : (List.replicate k d).sum = (k : Int) * d := by
  induction k with
  | zero => simp
  | succ k ih =>
    rw [List.replicate_succ, List.sum_cons, ih]
    push_cast
    ring

theorem replicate_pos (k : Nat) (d : Int) (hd : 0 < d) : ∀ e ∈ List.replicate k d, 0 < e := by
  intro e he
  rw [(List.mem_replicate.mp he).2]
  exact hd

/-- The angle of every petal `i < num_petals` after `Flower_init`, `OPEN` and
`k` ticks of 100 ms. -/
theorem openedFlower_angle (f0 : Flower) (name : Option (List Char)) (num_petals : Int)
    (k : Nat) (i : Fin FLOWER_MAX_PETALS)
    (hi : (i.val : Int) < (openedFlower f0 name num_petals k).num_petals) :
    ((openedFlower f0 name num_petals k).petals i).current_angle
      = min 80 (5 + 3 / 2 * (k : ℚ)) := by
  unfold openedFlower at hi ⊢
  have hN : (Flower_applyCommand (Flower_init f0 name num_petals) str_OPEN).num_petals
      = (Flower_init f0 name num_petals).num_petals := by rw [applyCommand_OPEN]
  rw [(runTicks_frame _ _).1, hN] at hi
  have hP : (Flower_applyCommand (Flower_init f0 name num_petals) str_OPEN).petals i
      = ⟨5, 80, 0⟩ := by
    rw [applyCommand_OPEN]
    simp only [forPetals_apply, hi, if_true, Flower_init_petals]
    rfl
  have hS : (Flower_applyCommand (Flower_init f0 name num_petals) str_OPEN).speed_deg_per_sec
      = 15 := by rw [applyCommand_OPEN]; rfl
  rw [runTicks_rising (List.replicate k 100) (replicate_pos k 100 (by decide)) _ i
      (by rw [hN]; exact hi) (by rw [applyCommand_OPEN]) (by rw [hS]; norm_num)
      (by rw [hP]; norm_num),
    hP, hS, replicate_sum]
  show min (80 : ℚ) (5 + 15 * (((k : Int) * 100 : Int) : ℚ) / 1000) = min 80 (5 + 3 / 2 * (k : ℚ))
  congr 1
  push_cast
  ring

theorem roundNearest_close (x : ℚ) : |((roundNearest x : Int) : ℚ) - x| ≤ 1 / 2 := by
  unfold roundNearest
  have h1 := Int.floor_le (x + 1 / 2)
  have h2 := Int.lt_floor_add_one (x + 1 / 2)
  rw [abs_le]
  constructor <;> linarith

theorem truncToInt_eq_roundNearest (x : ℚ) (hx : 0 ≤ x + 1 / 2) :
    truncToInt (x + 1 / 2) = roundNearest x := by
  unfold truncToInt roundNearest
  rw [if_pos hx]

theorem openedFlower_num_petals (f0 : Flower) (name : Option (List Char)) (num_petals : Int)
    (k : Nat) :
    (openedFlower f0 name num_petals k).num_petals = max 1 (min num_petals FLOWER_MAX_PETALS) := by
  unfold openedFlower
  rw [(runTicks_frame _ _).1, applyCommand_OPEN]
  exact Flower_init_num_petals f0 name num_petals

theorem openedFlower_name (f0 : Flower) (name : Option (List Char)) (num_petals : Int)
    (k : Nat) :
    (openedFlower f0 name num_petals k).name = (Flower_init f0 name num_petals).name := by
  unfold openedFlower
  rw [(runTicks_frame _ _).2.1, applyCommand_OPEN]

theorem openedFlower_target (f0 : Flower) (name : Option (List Char)) (num_petals : Int)
    (k : Nat) (i : Fin FLOWER_MAX_PETALS)
    (hi : (i.val : Int) < (openedFlower f0 name num_petals k).num_petals) :
    ((openedFlower f0 name num_petals k).petals i).target_angle = 80 := by
  unfold openedFlower at hi ⊢
  have hN : (Flower_applyCommand (Flower_init f0 name num_petals) str_OPEN).num_petals
      = (Flower_init f0 name num_petals).num_petals := by rw [applyCommand_OPEN]
  rw [(runTicks_frame _ _).1, hN] at hi
  rw [(runTicks_frame _ _).2.2.2.2 i, applyCommand_OPEN]
  simp only [forPetals_apply, hi, if_true]
  rfl

/-- The angles `min 80 (5 + 1.5 k)` plus one half are binary32 values. -/
theorem f32_open_angle (k : Nat) :
    f32 (min 80 (5 + 3 / 2 * (k : ℚ)) + 1 / 2) = min 80 (5 + 3 / 2 * (k : ℚ)) + 1 / 2 := by
  have hk : (0 : ℚ) ≤ (k : ℚ) := Nat.cast_nonneg k
  rcases le_total (80 : ℚ) (5 + 3 / 2 * (k : ℚ)) with h | h
  · rw [min_eq_left h]
    have e : ((80 : ℚ) + 1 / 2) = ((161 : Nat) : ℚ) / 2 := by norm_num
    rw [e, f32_half 161 (by decide) (by norm_num)]
  · rw [min_eq_right h]
    have e : (5 + 3 / 2 * (k : ℚ) + 1 / 2) = ((11 + 3 * k : Nat) : ℚ) / 2 := by
      push_cast; ring
    rw [e, f32_half (11 + 3 * k) (by omega) (by rw [← e]; norm_num; linarith)]

theorem openedFlower_petalAng (f0 : Flower) (name : Option (List Char)) (num_petals : Int)
    (k : Nat) (j : Nat) (hj : (j : Int) < (openedFlower f0 name num_petals k).num_petals) :
    petalAng (openedFlower f0 name num_petals k) j
      = roundNearest (min 80 (5 + 3 / 2 * (k : ℚ))) := by
  have h8 : (openedFlower f0 name num_petals k).num_petals ≤ 8 := by
    rw [openedFlower_num_petals]
    exact max_le (by decide) (min_le_right _ _)
  have hj8 : j < FLOWER_MAX_PETALS := by
    have : (j : Int) < 8 := by omega
    exact_mod_cast this
  have hk : (0 : ℚ) ≤ (k : ℚ) := Nat.cast_nonneg k
  unfold petalAng
  rw [petalAt_fin (openedFlower f0 name num_petals k).petals ⟨j, hj8⟩,
    openedFlower_angle f0 name num_petals k ⟨j, hj8⟩ hj, f32_open_angle k]
  apply truncToInt_eq_roundNearest
  have : (0 : ℚ) ≤ min 80 (5 + 3 / 2 * (k : ℚ)) := le_min (by norm_num) (by linarith)
  linarith

/-- C11: a flower created by `Flower_init` that receives `OPEN` and then `k`
ticks of 100 ms has every petal at `min 80 (5 + 1.5 k)`; `Flower_buildStatus`
prints for each petal that value rounded to the nearest integer; with 3 petals
and `k = 5` the angle is 12.5 and the line reads `state=MOVING` and
`petal_angles=13,13,13`. -/
theorem open_ticks_angles (f0 : Flower) (name : Option (List Char)) (num_petals : Int)
    (k : Nat) :
    (∀ i : Fin FLOWER_MAX_PETALS,
      (i.val : Int) < (openedFlower f0 name num_petals k).num_petals →
      ((openedFlower f0 name num_petals k).petals i).current_angle
        = min 80 (5 + 3 / 2 * (k : ℚ))) ∧
    |((roundNearest (min 80 (5 + 3 / 2 * (k : ℚ))) : Int) : ℚ) - min 80 (5 + 3 / 2 * (k : ℚ))|
      ≤ 1 / 2 ∧
    (∀ (out : List Char) (out_size : Nat), out_size ≤ out.length →
      (statusLine (openedFlower f0 name num_petals k)).length + 1 ≤ out_size →
      (Flower_buildStatus (openedFlower f0 name num_petals k) out out_size).take
          (statusLine (openedFlower f0 name num_petals k)).length
        = str_STATUS_name
          ++ (if (openedFlower f0 name num_petals k).name = [] then str_noname
              else (openedFlower f0 name num_petals k).name)
          ++ str_state ++ statusState (openedFlower f0 name num_petals k) ++ str_petal_angles
          ++ joinComma ((List.range (openedFlower f0 name num_petals k).num_petals.toNat).map
              (fun _ => fmtInt (roundNearest (min 80 (5 + 3 / 2 * (k : ℚ))))))
          ++ ['\n']) ∧
    (num_petals = 3 → k = 5 →
      (∀ i : Fin FLOWER_MAX_PETALS, (i.val : Int) < 3 →
        ((openedFlower f0 name num_petals k).petals i).current_angle = 25 / 2) ∧
      statusLine (openedFlower f0 name num_petals k)
        = str_STATUS_name
          ++ (if (openedFlower f0 name num_petals k).name = [] then str_noname
              else (openedFlower f0 name num_petals k).name)
          ++ tailMoving13) := by
  have hline : statusLine (openedFlower f0 name num_petals k)
      = str_STATUS_name
          ++ (if (openedFlower f0 name num_petals k).name = [] then str_noname
              else (openedFlower f0 name num_petals k).name)
          ++ str_state ++ statusState (openedFlower f0 name num_petals k) ++ str_petal_angles
          ++ joinComma ((List.range (openedFlower f0 name num_petals k).num_petals.toNat).map
              (fun _ => fmtInt (roundNearest (min 80 (5 + 3 / 2 * (k : ℚ))))))
          ++ ['\n'] := by
    unfold statusLine
    congr 3
    apply List.map_congr_left
    intro j hj
    rw [openedFlower_petalAng f0 name num_petals k j (Int.lt_toNat.mp (List.mem_range.mp hj))]
  refine ⟨fun i hi => openedFlower_angle f0 name num_petals k i hi, roundNearest_close _, ?_, ?_⟩
  · intro out out_size hsize hfit
    rw [(Flower_buildStatus_fits _ out out_size hsize hfit).1]
    exact hline
  · intro hn hk
    subst hn hk
    have hN : (openedFlower f0 name 3 5).num_petals = 3 := by
      rw [openedFlower_num_petals]; decide
    have hval : min (80 : ℚ) (5 + 3 / 2 * ((5 : Nat) : ℚ)) = 25 / 2 := by
      rw [min_eq_right] <;> norm_num
    have hround : roundNearest (25 / 2 : ℚ) = 13 := by
      unfold roundNearest
      exact Int.floor_eq_iff.mpr ⟨by norm_num, by norm_num⟩
    have h0 : (((0 : Fin FLOWER_MAX_PETALS).val : Int) < (openedFlower f0 name 3 5).num_petals) := by
      rw [hN]; decide
    have hmov : statusState (openedFlower f0 name 3 5) = str_MOVING := by
      rw [statusState_moving_iff_fin _ (by rw [hN]; decide)]
      refine ⟨0, h0, ?_⟩
      rw [openedFlower_target f0 name 3 5 0 h0, openedFlower_angle f0 name 3 5 0 h0, hval]
      have e : ((80 : ℚ) - 25 / 2) = ((135 : Nat) : ℚ) / 2 := by norm_num
      rw [e, f32_half 135 (by decide) (by norm_num), abs_of_pos (by norm_num)]
      norm_num
    constructor
    · intro i hi
      rw [openedFlower_angle f0 name 3 5 i (by rw [hN]; exact hi), hval]
    · rw [hline, hmov, hN, hval, hround]
      simp only [List.append_assoc]
      congr 2

/-- C11 at a three-petal flower named `rose` after `OPEN` and five ticks. -/
theorem open_ticks_angles_witness :
    ((3 : Int) = 3 ∧ (5 : Nat) = 5) ∧
    (((0 : Fin FLOWER_MAX_PETALS).val : Int) < 3) ∧
    ((openedFlower rawFlower (some ['r', 'o', 's', 'e']) 3 5).petals 0).current_angle = 25 / 2 ∧
    statusLine (openedFlower rawFlower (some ['r', 'o', 's', 'e']) 3 5)
      = str_STATUS_name ++ ['r', 'o', 's', 'e'] ++ tailMoving13 := by
  have h := (open_ticks_angles rawFlower (some ['r', 'o', 's', 'e']) 3 5).2.2.2 rfl rfl
  have hname : (openedFlower rawFlower (some ['r', 'o', 's', 'e']) 3 5).name
      = ['r', 'o', 's', 'e'] := by
    rw [openedFlower_name]; decide
  refine ⟨⟨rfl, rfl⟩, by decide, h.1 0 (by decide), ?_⟩
  rw [h.2, hname]
  rfl

/-! ## Truncation of the status line -/

theorem pokeList_getElem_ge (s : List Char) (out : List Char) (pos j : Nat)
    (h : pos + s.length ≤ j) : (pokeList out pos s)[j]? = out[j]? := by
  induction s generalizing out pos with
  | nil => rfl
  | cons c cs ih =>
    rw [List.length_cons] at h
    rw [pokeList, ih (out.set pos c) (pos + 1) (by omega), List.getElem?_set_ne (by omega)]

/-- A `snprintf` into `size ≥ 1` bytes that lie inside the memory: the first
`size - 1` characters of the text land after the first `pos` characters, a NUL
follows them, and nothing is stored at or beyond `pos + size`. -/
theorem snprintf_trunc (out : List Char) (pos size : Nat) (s : List Char)
    (hsize : 1 ≤ size) (hroom : pos + size ≤ out.length) :
    (snprintf out pos size s).2 = s.length ∧
    (snprintf out pos size s).1.length = out.length ∧
    (snprintf out pos size s).1.take (pos + min s.length (size - 1))
      = out.take pos ++ s.take (size - 1) ∧
    (snprintf out pos size s).1[pos + min s.length (size - 1)]? = some NUL ∧
    (∀ j : Nat, pos + size ≤ j → (snprintf out pos size s).1[j]? = out[j]?) := by
  have h0 : ¬ size = 0 := by omega
  have hlen : (s.take (size - 1)).length = min s.length (size - 1) := by
    rw [List.length_take, min_comm]
  have hmin : min s.length (size - 1) ≤ size - 1 := min_le_right _ _
  unfold snprintf
  rw [if_neg h0]
  refine ⟨rfl, ?_, ?_, ?_, ?_⟩
  · show ((pokeList out pos (s.take (size - 1))).set _ NUL).length = out.length
    rw [List.length_set, pokeList_length]
  · show ((pokeList out pos (s.take (size - 1))).set _ NUL).take _ = _
    rw [take_set_ge _ _ _ _ (le_refl _), ← hlen,
      pokeList_take (s.take (size - 1)) out pos (by rw [hlen]; omega)]
  · show ((pokeList out pos (s.take (size - 1))).set _ NUL)[_]? = some NUL
    rw [List.getElem?_set_self (by rw [pokeList_length]; omega)]
  · intro j hj
    show ((pokeList out pos (s.take (size - 1))).set _ NUL)[j]? = out[j]?
    rw [List.getElem?_set_ne (by omega), pokeList_getElem_ge _ _ _ _ (by rw [hlen]; omega)]

theorem take_append_of_le_length_left (a b : List Char) (m : Nat) (h : m ≤ a.length) :
    (a ++ b).take m = a.take m := by
  rw [List.take_append_eq_append_take]
  have : m - a.length = 0 := by omega
  rw [this, List.take_zero, List.append_nil]

theorem take_append_ge_length_left (a b : List Char) (m : Nat) (h : a.length ≤ m) :
    (a ++ b).take m = a ++ b.take (m - a.length) := by
  rw [List.take_append_eq_append_take, List.take_of_length_le h]

/-- The angle loop in general: either everything fits and the text of the
iterations is appended, or the loop returns early with the text cut at
`out_size - 1` characters and a NUL there; in both cases nothing is stored at
or beyond `out_size`. -/
theorem angleLoop_trunc (f : Flower) (out_size : Nat) (k : Nat) (i : Nat) (out : List Char)
    (used : Nat) (hused : used < out_size) (hsize : out_size ≤ out.length) :
    (angleLoop f out_size k i out used).1.length = out.length ∧
    (∀ j : Nat, out_size ≤ j → (angleLoop f out_size k i out used).1[j]? = out[j]?) ∧
    ((used + (angleText f i k).length < out_size ∧
        (angleLoop f out_size k i out used).2 = some (used + (angleText f i k).length) ∧
        (angleLoop f out_size k i out used).1.take (used + (angleText f i k).length)
          = out.take used ++ angleText f i k) ∨
      (out_size ≤ used + (angleText f i k).length ∧
        (angleLoop f out_size k i out used).2 = none ∧
        (angleLoop f out_size k i out used).1.take (out_size - 1)
          = (out.take used ++ angleText f i k).take (out_size - 1) ∧
        (angleLoop f out_size k i out used).1[out_size - 1]? = some NUL)) := by
  induction k generalizing i out used with
  | zero =>
    refine ⟨rfl, fun _ _ => rfl, Or.inl ⟨?_, rfl, ?_⟩⟩
    · simp [angleText]; exact hused
    · simp [angleText, angleLoop]
  | succ k ih =>
    obtain ⟨s1, s2, s3, s4, s5⟩ := snprintf_trunc out used (out_size - used) (angleItem f i)
      (by omega) (by omega)
    have htake : (out.take used).length = used := by
      rw [List.length_take]; omega
    rw [angleLoop]
    by_cases hov : used + (snprintf out used (out_size - used) (angleItem f i)).2 ≥ out_size
    · rw [if_pos hov]
      rw [s1] at hov
      have hm : min (angleItem f i).length (out_size - used - 1) = out_size - used - 1 :=
        min_eq_right (by omega)
      rw [hm] at s3 s4
      have e1 : used + (out_size - used - 1) = out_size - 1 := by omega
      rw [e1] at s3 s4
      refine ⟨?_, ?_, Or.inr ⟨?_, rfl, ?_, ?_⟩⟩
      · show ((snprintf out used (out_size - used) (angleItem f i)).1.set _ NUL).length = _
        rw [List.length_set, s2]
      · intro j hj
        show ((snprintf out used (out_size - used) (angleItem f i)).1.set _ NUL)[j]? = _
        rw [List.getElem?_set_ne (by omega), s5 j (by omega)]
      · rw [angleText_length_succ]; omega
      · show ((snprintf out used (out_size - used) (angleItem f i)).1.set _ NUL).take _ = _
        rw [take_set_ge _ _ _ _ (le_refl _), s3, angleText,
          take_append_ge_length_left _ _ _ (by rw [htake]; omega), htake,
          take_append_of_le_length_left _ _ _ (by omega)]
        have e2 : out_size - 1 - used = out_size - used - 1 := by omega
        rw [e2]
      · show ((snprintf out used (out_size - used) (angleItem f i)).1.set _ NUL)[_]? = _
        rw [List.getElem?_set_self (by rw [s2]; omega)]
    · rw [if_neg hov]
      rw [s1] at hov
      have hm : min (angleItem f i).length (out_size - used - 1) = (angleItem f i).length :=
        min_eq_left (by omega)
      rw [hm] at s3
      have ht : (angleItem f i).take (out_size - used - 1) = angleItem f i :=
        List.take_of_length_le (by omega)
      rw [ht] at s3
      obtain ⟨r1, r2, r3⟩ := ih (i + 1) (snprintf out used (out_size - used) (angleItem f i)).1
        (used + (angleItem f i).length) (by omega) (by rw [s2]; exact hsize)
      rw [s1]
      refine ⟨by rw [r1, s2], ?_, ?_⟩
      · intro j hj
        rw [r2 j hj, s5 j (by omega)]
      · rw [angleText_length_succ, angleText, ← Nat.add_assoc, ← List.append_assoc, ← s3]
        exact r3

/-- C12: for every flower state and every buffer size `out_size ≥ 1` (the
buffer having at least `out_size` bytes), `Flower_buildStatus` stores nothing
at or beyond position `out_size`, keeps the size of the memory, and leaves the
first `min L (out_size - 1)` characters of the full status line of length `L`
followed by a NUL: a short buffer truncates the line. -/
theorem Flower_buildStatus_truncates (f : Flower) (out : List Char) (out_size : Nat)
    (h1 : 1 ≤ out_size) (hsize : out_size ≤ out.length) :
    (Flower_buildStatus f out out_size).length = out.length ∧
    (∀ j : Nat, out_size ≤ j → (Flower_buildStatus f out out_size)[j]? = out[j]?) ∧
    (Flower_buildStatus f out out_size).take (min (statusLine f).length (out_size - 1))
      = (statusLine f).take (min (statusLine f).length (out_size - 1)) ∧
    (Flower_buildStatus f out out_size)[min (statusLine f).length (out_size - 1)]? = some NUL := by
  have hL : (statusLine f).length
      = (statusHeader f).length + (angleText f 0 f.num_petals.toNat).length + 1 := by
    rw [statusLine_eq]; simp; omega
  have h0 : ¬ out_size = 0 := by omega
  obtain ⟨a1, a2, a3, a4, a5⟩ := snprintf_trunc (out.set 0 NUL) 0 out_size (statusHeader f)
    h1 (by rw [List.length_set]; omega)
  rw [List.length_set] at a2
  rw [Nat.zero_add, List.take_zero, List.nil_append] at a3
  rw [Nat.zero_add] at a4
  have a5' : ∀ j : Nat, out_size ≤ j →
      (snprintf (out.set 0 NUL) 0 out_size (statusHeader f)).1[j]? = out[j]? := by
    intro j hj
    rw [a5 j (by omega), List.getElem?_set_ne (by omega)]
  unfold Flower_buildStatus
  rw [if_neg h0]
  simp only
  by_cases hov : (snprintf (out.set 0 NUL) 0 out_size (statusHeader f)).2 ≥ out_size
  · rw [if_pos hov]
    rw [a1] at hov
    have hm : min (statusLine f).length (out_size - 1) = out_size - 1 :=
      min_eq_right (by omega)
    have hm2 : min (statusHeader f).length (out_size - 1) = out_size - 1 :=
      min_eq_right (by omega)
    rw [hm2] at a3
    rw [hm]
    refine ⟨by rw [List.length_set, a2], ?_, ?_, ?_⟩
    · intro j hj
      rw [List.getElem?_set_ne (by omega), a5' j hj]
    · rw [take_set_ge _ _ _ _ (le_refl _), a3, statusLine_eq, List.append_assoc,
        take_append_of_le_length_left _ _ _ (by omega)]
    · rw [List.getElem?_set_self (by rw [a2]; omega)]
  · rw [if_neg hov]
    rw [a1] at hov ⊢
    have hm2 : min (statusHeader f).length (out_size - 1) = (statusHeader f).length :=
      min_eq_left (by omega)
    have ht : (statusHeader f).take (out_size - 1) = statusHeader f :=
      List.take_of_length_le (by omega)
    rw [hm2, ht] at a3
    obtain ⟨r1, r2, r3⟩ := angleLoop_trunc f out_size f.num_petals.toNat 0
      (snprintf (out.set 0 NUL) 0 out_size (statusHeader f)).1 (statusHeader f).length
      (by omega) (by rw [a2]; exact hsize)
    rw [a2] at r1
    rw [a3] at r3
    generalize hres : angleLoop f out_size f.num_petals.toNat 0
      (snprintf (out.set 0 NUL) 0 out_size (statusHeader f)).1 (statusHeader f).length = res
      at r1 r2 r3
    obtain ⟨out2, ou⟩ := res
    have r2' : ∀ j : Nat, out_size ≤ j → out2[j]? = out[j]? := by
      intro j hj
      rw [r2 j hj, a5' j hj]
    rcases r3 with ⟨c1, c2, c3⟩ | ⟨c1, c2, c3, c4⟩
    · simp only at c2 c3 r1
      subst c2
      simp only
      by_cases hnl : (statusHeader f).length + (angleText f 0 f.num_petals.toNat).length + 1
          < out_size
      · rw [if_pos hnl]
        have hm : min (statusLine f).length (out_size - 1) = (statusLine f).length :=
          min_eq_left (by omega)
        have hfin : (if (statusHeader f).length + (angleText f 0 f.num_petals.toNat).length + 2
              < out_size then
              (out2.set ((statusHeader f).length + (angleText f 0 f.num_petals.toNat).length)
                '\n').set
                ((statusHeader f).length + (angleText f 0 f.num_petals.toNat).length + 1) NUL
            else
              (out2.set ((statusHeader f).length + (angleText f 0 f.num_petals.toNat).length)
                '\n').set (out_size - 1) NUL)
            = (out2.set ((statusHeader f).length + (angleText f 0 f.num_petals.toNat).length)
                '\n').set
                ((statusHeader f).length + (angleText f 0 f.num_petals.toNat).length + 1) NUL := by
          by_cases h2 : (statusHeader f).length + (angleText f 0 f.num_petals.toNat).length + 2
              < out_size
          · rw [if_pos h2]
          · rw [if_neg h2]
            have e : out_size - 1
                = (statusHeader f).length + (angleText f 0 f.num_petals.toNat).length + 1 := by
              omega
            rw [e]
        rw [hfin, hm, List.take_of_length_le (le_refl _), hL]
        refine ⟨by rw [List.length_set, List.length_set, r1], ?_, ?_, ?_⟩
        · intro j hj
          rw [List.getElem?_set_ne (by omega), List.getElem?_set_ne (by omega), r2' j hj]
        · rw [take_set_ge _ _ _ _ (le_refl _), take_succ_set _ _ _ (by rw [r1]; omega), c3,
            statusLine_eq]
        · rw [List.getElem?_set_self (by rw [List.length_set, r1]; omega)]
      · rw [if_neg hnl]
        have e : out_size - 1
            = (statusHeader f).length + (angleText f 0 f.num_petals.toNat).length := by omega
        have hm : min (statusLine f).length (out_size - 1)
            = (statusHeader f).length + (angleText f 0 f.num_petals.toNat).length := by
          rw [e, hL]; exact min_eq_right (by omega)
        rw [hm, e]
        refine ⟨by rw [List.length_set, r1], ?_, ?_, ?_⟩
        · intro j hj
          rw [List.getElem?_set_ne (by omega), r2' j hj]
        · rw [take_set_ge _ _ _ _ (le_refl _), c3, statusLine_eq,
            take_append_of_le_length_left _ _ _ (by rw [List.length_append])]
          rw [List.take_of_length_le (by rw [List.length_append])]
        · rw [List.getElem?_set_self (by rw [r1]; omega)]
    · simp only at c2 c3 c4 r1
      subst c2
      simp only
      have hm : min (statusLine f).length (out_size - 1) = out_size - 1 :=
        min_eq_right (by omega)
      rw [hm]
      refine ⟨r1, r2', ?_, c4⟩
      rw [c3, statusLine_eq,
        take_append_of_le_length_left (statusHeader f ++ angleText f 0 f.num_petals.toNat)
          ['\n'] _ (by rw [List.length_append]; omega)]

/-- C12 at the flower `rose` with `out_size = 20` inside a memory of 24
characters: the first 19 characters of the line, a NUL, and the bytes from
position 20 on untouched. -/
theorem Flower_buildStatus_truncates_witness :
    (1 ≤ 20 ∧ 20 ≤ (List.replicate 24 'x').length) ∧
    (Flower_buildStatus rose (List.replicate 24 'x') 20).take 19 = roseLine.take 19 ∧
    (Flower_buildStatus rose (List.replicate 24 'x') 20)[19]? = some NUL ∧
    (Flower_buildStatus rose (List.replicate 24 'x') 20)[20]? = (List.replicate 24 'x')[20]? := by
  have hlen : 20 ≤ (List.replicate 24 'x').length := by
    rw [List.length_replicate]; decide
  have hm : min (statusLine rose).length (20 - 1) = 19 := by
    rw [rose_statusLine]; decide
  have h := Flower_buildStatus_truncates rose (List.replicate 24 'x') 20 (by decide) hlen
  rw [hm, rose_statusLine] at h
  exact ⟨⟨by decide, hlen⟩, h.2.2.1, h.2.2.2, h.2.1 20 (le_refl _)⟩

/-! ## The registry: `register_flower` -/

theorem refreshByName_none (connfd : Int) (name : List Char) (g : Garden) :
    refreshByName connfd name g = none ↔ ∀ e ∈ g, ¬ (e.in_use ≠ 0 ∧ e.name = name) := by
  induction g with
  | nil => simp [refreshByName]
  | cons e rest ih =>
    rw [refreshByName]
    by_cases h : e.in_use ≠ 0 ∧ e.name = name
    · rw [if_pos h]
      constructor
      · intro hc; exact absurd hc (Option.some_ne_none _)
      · intro hall; exact absurd h (hall e (List.mem_cons_self _ _))
    · rw [if_neg h, Option.map_eq_none', ih]
      simp only [List.mem_cons, forall_eq_or_imp]
      exact ⟨fun hr => ⟨h, hr⟩, fun hr => hr.2⟩

/-- When some slot in use holds the name, the first loop rewrites the first
such slot and nothing else. -/
theorem refreshByName_some (connfd : Int) (name : List Char) (g : Garden)
    (h : ∃ e ∈ g, e.in_use ≠ 0 ∧ e.name = name) :
    ∃ (pre : Garden) (e : FlowerEntry) (post : Garden),
      g = pre ++ e :: post ∧
      (∀ x ∈ pre, ¬ (x.in_use ≠ 0 ∧ x.name = name)) ∧
      e.in_use ≠ 0 ∧ e.name = name ∧
      refreshByName connfd name g
        = some (pre ++ { e with connfd := connfd, last_status := [] } :: post) := by
  induction g with
  | nil => obtain ⟨e, he, _⟩ := h; exact absurd he (List.not_mem_nil e)
  | cons a rest ih =>
    by_cases ha : a.in_use ≠ 0 ∧ a.name = name
    · refine ⟨[], a, rest, rfl, fun x hx => absurd hx (List.not_mem_nil x), ha.1, ha.2, ?_⟩
      rw [refreshByName, if_pos ha]
      rfl
    · have hrest : ∃ e ∈ rest, e.in_use ≠ 0 ∧ e.name = name := by
        obtain ⟨e, he, hp⟩ := h
        rcases List.mem_cons.mp he with h1 | h1
        · rw [h1] at hp; exact absurd hp ha
        · exact ⟨e, h1, hp⟩
      obtain ⟨pre, e, post, e1, e2, e3, e4, e5⟩ := ih hrest
      refine ⟨a :: pre, e, post, by rw [e1]; rfl, ?_, e3, e4, ?_⟩
      · intro x hx
        rcases List.mem_cons.mp hx with h1 | h1
        · rw [h1]; exact ha
        · exact e2 x h1
      · rw [refreshByName, if_neg ha, e5]
        rfl

theorem claimFreeSlot_none (connfd : Int) (name : List Char) (g : Garden) :
    claimFreeSlot connfd name g = none ↔ ∀ e ∈ g, e.in_use ≠ 0 := by
  induction g with
  | nil => simp [claimFreeSlot]
  | cons e rest ih =>
    rw [claimFreeSlot]
    by_cases h : e.in_use = 0
    · rw [if_pos h]
      constructor
      · intro hc; exact absurd hc (Option.some_ne_none _)
      · intro hall; exact absurd h (hall e (List.mem_cons_self _ _))
    · rw [if_neg h, Option.map_eq_none', ih]
      simp only [List.mem_cons, forall_eq_or_imp]
      exact ⟨fun hr => ⟨h, hr⟩, fun hr => hr.2⟩

/-- When some slot is free, the second loop claims the first free slot and
changes nothing else. -/
theorem claimFreeSlot_some (connfd : Int) (name : List Char) (g : Garden)
    (h : ∃ e ∈ g, e.in_use = 0) :
    ∃ (pre : Garden) (e : FlowerEntry) (post : Garden),
      g = pre ++ e :: post ∧
      (∀ x ∈ pre, x.in_use ≠ 0) ∧
      e.in_use = 0 ∧
      claimFreeSlot connfd name g
        = some (pre ++ { in_use := 1, connfd := connfd, name := strncpy name 31,
                         last_status := [] } :: post) := by
  induction g with
  | nil => obtain ⟨e, he, _⟩ := h; exact absurd he (List.not_mem_nil e)
  | cons a rest ih =>
    by_cases ha : a.in_use = 0
    · refine ⟨[], a, rest, rfl, fun x hx => absurd hx (List.not_mem_nil x), ha, ?_⟩
      rw [claimFreeSlot, if_pos ha]
      rfl
    · have hrest : ∃ e ∈ rest, e.in_use = 0 := by
        obtain ⟨e, he, hp⟩ := h
        rcases List.mem_cons.mp he with h1 | h1
        · rw [h1] at hp; exact absurd hp ha
        · exact ⟨e, h1, hp⟩
      obtain ⟨pre, e, post, e1, e2, e3, e5⟩ := ih hrest
      refine ⟨a :: pre, e, post, by rw [e1]; rfl, ?_, e3, ?_⟩
      · intro x hx
        rcases List.mem_cons.mp hx with h1 | h1
        · rw [h1]; exact ha
        · exact e2 x h1
      · rw [claimFreeSlot, if_neg ha, e5]
        rfl

theorem refreshByName_at (connfd : Int) (name : List Char) (pre : Garden) (e : FlowerEntry)
    (post : Garden) (hpre : ∀ x ∈ pre, ¬ (x.in_use ≠ 0 ∧ x.name = name))
    (he : e.in_use ≠ 0 ∧ e.name = name) :
    refreshByName connfd name (pre ++ e :: post)
      = some (pre ++ { e with connfd := connfd, last_status := [] } :: post) := by
  induction pre with
  | nil =>
    rw [List.nil_append, refreshByName, if_pos he]
    rfl
  | cons a pre ih =>
    have ha : ¬ (a.in_use ≠ 0 ∧ a.name = name) := hpre a (List.mem_cons_self _ _)
    rw [List.cons_append, refreshByName, if_neg ha,
      ih (fun x hx => hpre x (List.mem_cons_of_mem _ hx))]
    rfl

/-- C13: when the name is already held by an entry in use, `register_flower`
replaces the descriptor of the (first) entry holding it and empties its
`last_status`, keeps its name, adds no entry and leaves every other slot
unchanged; registering the same name and descriptor again changes nothing
more. -/
theorem register_flower_existing_name (g : Garden) (connfd : Int) (name : List Char)
    (hheld : ∃ e ∈ g, e.in_use ≠ 0 ∧ e.name = name) :
    (register_flower g connfd name).2 = RegisterOutcome.updated ∧
    (register_flower g connfd name).1.length = g.length ∧
    (register_flower g connfd name).1.map (fun e => e.in_use) = g.map (fun e => e.in_use) ∧
    (register_flower g connfd name).1.map (fun e => e.name) = g.map (fun e => e.name) ∧
    register_flower (register_flower g connfd name).1 connfd name
      = register_flower g connfd name ∧
    (∃ (pre : Garden) (e : FlowerEntry) (post : Garden),
      g = pre ++ e :: post ∧
      (∀ x ∈ pre, ¬ (x.in_use ≠ 0 ∧ x.name = name)) ∧
      e.in_use ≠ 0 ∧ e.name = name ∧
      (register_flower g connfd name).1
        = pre ++ { in_use := e.in_use, connfd := connfd, name := e.name, last_status := [] }
            :: post) := by
  obtain ⟨pre, e, post, e1, e2, e3, e4, e5⟩ := refreshByName_some connfd name g hheld
  have hreg : register_flower g connfd name
      = (pre ++ { e with connfd := connfd, last_status := [] } :: post,
          RegisterOutcome.updated) := by
    unfold register_flower
    rw [e5]
  have hagain : register_flower (pre ++ { e with connfd := connfd, last_status := [] } :: post)
      connfd name
      = (pre ++ { e with connfd := connfd, last_status := [] } :: post,
          RegisterOutcome.updated) := by
    have hr := refreshByName_at connfd name pre
      { e with connfd := connfd, last_status := [] } post e2 ⟨e3, e4⟩
    unfold register_flower
    rw [hr]
  rw [hreg]
  refine ⟨rfl, ?_, ?_, ?_, hagain, pre, e, post, e1, e2, e3, e4, rfl⟩
  · rw [e1]; simp
  · rw [e1]; simp
  · rw [e1]; simp

/-- C13 at a registry holding `rose` on descriptor 4: a handshake for `rose`
on descriptor 9 rewrites that slot only. -/
theorem register_flower_existing_name_witness :
    (∃ e ∈ twoFlowers, e.in_use ≠ 0 ∧ e.name = ['r', 'o', 's', 'e']) ∧
    (register_flower twoFlowers 9 ['r', 'o', 's', 'e']).2 = RegisterOutcome.updated ∧
    (register_flower twoFlowers 9 ['r', 'o', 's', 'e']).1
      = { in_use := 1, connfd := 9, name := ['r', 'o', 's', 'e'], last_status := [] }
        :: { in_use := 1, connfd := 5, name := ['i', 'r', 'i', 's'], last_status := [] }
        :: List.replicate 62 freeSlot :=
  have h : ∃ e ∈ twoFlowers, e.in_use ≠ 0 ∧ e.name = ['r', 'o', 's', 'e'] :=
    ⟨_, List.mem_cons_self _ _, by decide, rfl⟩
  ⟨h, (register_flower_existing_name twoFlowers 9 ['r', 'o', 's', 'e'] h).1, by decide⟩

/-- C14: for a name not held by any entry in use: when all `MAX_FLOWERS = 64`
slots are in use, `register_flower` takes the capacity-exceeded outcome and
returns the registry unchanged; when some slot is free, the first free slot
receives the descriptor, the name (its first 31 characters, hence the name
itself when it has at most 31) and an empty `last_status`, and every other
slot is unchanged. -/
theorem register_flower_capacity (g : Garden) (connfd : Int) (name : List Char)
    (hnew : ∀ e ∈ g, e.in_use ≠ 0 → e.name ≠ name) :
    MAX_FLOWERS = 64 ∧
    (g.length = MAX_FLOWERS → (∀ e ∈ g, e.in_use ≠ 0) →
      register_flower g connfd name = (g, RegisterOutcome.full)) ∧
    ((∃ e ∈ g, e.in_use = 0) →
      (register_flower g connfd name).2 = RegisterOutcome.registered ∧
      ∃ (pre : Garden) (e : FlowerEntry) (post : Garden),
        g = pre ++ e :: post ∧
        (∀ x ∈ pre, x.in_use ≠ 0) ∧
        e.in_use = 0 ∧
        (register_flower g connfd name).1
          = pre ++ { in_use := 1, connfd := connfd, name := name.take 31, last_status := [] }
              :: post ∧
        (name.length ≤ 31 → name.take 31 = name)) := by
  have hno : refreshByName connfd name g = none := by
    rw [refreshByName_none]
    intro e he hp
    exact hnew e he hp.1 hp.2
  refine ⟨rfl, ?_, ?_⟩
  · intro _ hfull
    have hnone : claimFreeSlot connfd name g = none := (claimFreeSlot_none connfd name g).mpr hfull
    unfold register_flower
    rw [hno, hnone]
  · intro hfree
    obtain ⟨pre, e, post, e1, e2, e3, e5⟩ := claimFreeSlot_some connfd name g hfree
    have hreg : register_flower g connfd name
        = (pre ++ { in_use := 1, connfd := connfd, name := strncpy name 31, last_status := [] }
            :: post, RegisterOutcome.registered) := by
      unfold register_flower
      rw [hno, e5]
    rw [hreg]
    exact ⟨rfl, pre, e, post, e1, e2, e3, rfl, fun hl => List.take_of_length_le hl⟩

/-- C14 at a full registry (a flower `b` is turned away, nothing changes) and
at a registry with free slots (a flower `lily` gets the third slot). -/
theorem register_flower_capacity_witness :
    ((∀ e ∈ fullGarden, e.in_use ≠ 0 → e.name ≠ ['b']) ∧
      fullGarden.length = MAX_FLOWERS ∧ (∀ e ∈ fullGarden, e.in_use ≠ 0) ∧
      register_flower fullGarden 9 ['b'] = (fullGarden, RegisterOutcome.full)) ∧
    ((∀ e ∈ twoFlowers, e.in_use ≠ 0 → e.name ≠ ['l', 'i', 'l', 'y']) ∧
      (∃ e ∈ twoFlowers, e.in_use = 0) ∧
      (register_flower twoFlowers 9 ['l', 'i', 'l', 'y']).2 = RegisterOutcome.registered ∧
      (register_flower twoFlowers 9 ['l', 'i', 'l', 'y']).1
        = { in_use := 1, connfd := 4, name := ['r', 'o', 's', 'e'],
            last_status := ['S', 'T', 'A', 'T', 'U', 'S'] }
          :: { in_use := 1, connfd := 5, name := ['i', 'r', 'i', 's'], last_status := [] }
          :: { in_use := 1, connfd := 9, name := ['l', 'i', 'l', 'y'], last_status := [] }
          :: List.replicate 61 freeSlot) := by
  have a1 : ∀ e ∈ fullGarden, e.in_use ≠ 0 → e.name ≠ ['b'] := by decide
  have a2 : fullGarden.length = MAX_FLOWERS := by decide
  have a3 : ∀ e ∈ fullGarden, e.in_use ≠ 0 := by decide
  have b1 : ∀ e ∈ twoFlowers, e.in_use ≠ 0 → e.name ≠ ['l', 'i', 'l', 'y'] := by decide
  have b2 : ∃ e ∈ twoFlowers, e.in_use = 0 := by decide
  exact ⟨⟨a1, a2, a3, (register_flower_capacity fullGarden 9 ['b'] a1).2.1 a2 a3⟩,
    ⟨b1, b2, ((register_flower_capacity twoFlowers 9 ['l', 'i', 'l', 'y'] b1).2.2 b2).1,
      by decide⟩⟩

/-! ## The registry: `unregister_flower` -/

theorem unregister_flower_absent (g : Garden) (h : Int)
    (hno : ∀ e ∈ g, ¬ (e.in_use ≠ 0 ∧ e.connfd = h)) : unregister_flower g h = g := by
  induction g with
  | nil => rfl
  | cons a rest ih =>
    rw [unregister_flower, if_neg (hno a (List.mem_cons_self _ _)),
      ih (fun e he => hno e (List.mem_cons_of_mem _ he))]

theorem unregister_flower_at (h : Int) (pre : Garden) (e : FlowerEntry) (post : Garden)
    (hpre : ∀ x ∈ pre, ¬ (x.in_use ≠ 0 ∧ x.connfd = h)) (he : e.in_use ≠ 0 ∧ e.connfd = h) :
    unregister_flower (pre ++ e :: post) h = pre ++ { e with in_use := 0 } :: post := by
  induction pre with
  | nil => rw [List.nil_append, unregister_flower, if_pos he]; rfl
  | cons a pre ih =>
    rw [List.cons_append, unregister_flower, if_neg (hpre a (List.mem_cons_self _ _)),
      ih (fun x hx => hpre x (List.mem_cons_of_mem _ hx))]
    rfl

/-- The first entry in use with a given descriptor, when there is one. -/
theorem first_with_handle (g : Garden) (h : Int)
    (hex : ∃ e ∈ g, e.in_use ≠ 0 ∧ e.connfd = h) :
    ∃ (pre : Garden) (e : FlowerEntry) (post : Garden),
      g = pre ++ e :: post ∧
      (∀ x ∈ pre, ¬ (x.in_use ≠ 0 ∧ x.connfd = h)) ∧
      (e.in_use ≠ 0 ∧ e.connfd = h) := by
  induction g with
  | nil => obtain ⟨e, he, _⟩ := hex; exact absurd he (List.not_mem_nil e)
  | cons a rest ih =>
    by_cases ha : a.in_use ≠ 0 ∧ a.connfd = h
    · exact ⟨[], a, rest, rfl, fun x hx => absurd hx (List.not_mem_nil x), ha⟩
    · have hrest : ∃ e ∈ rest, e.in_use ≠ 0 ∧ e.connfd = h := by
        obtain ⟨e, he, hp⟩ := hex
        rcases List.mem_cons.mp he with h1 | h1
        · rw [h1] at hp; exact absurd hp ha
        · exact ⟨e, h1, hp⟩
      obtain ⟨pre, e, post, e1, e2, e3⟩ := ih hrest
      refine ⟨a :: pre, e, post, by rw [e1]; rfl, ?_, e3⟩
      intro x hx
      rcases List.mem_cons.mp hx with h1 | h1
      · rw [h1]; exact ha
      · exact e2 x h1

theorem unregister_flower_other (g : Garden) (h : Int) (j : Nat) (e : FlowerEntry)
    (hj : g[j]? = some e) (hne : e.connfd ≠ h) : (unregister_flower g h)[j]? = some e := by
  induction g generalizing j with
  | nil => exact hj
  | cons a rest ih =>
    rw [unregister_flower]
    cases j with
    | zero =>
      have ha : a = e := by simpa using hj
      have hn : ¬ (a.in_use ≠ 0 ∧ a.connfd = h) := fun hp => hne (ha ▸ hp.2)
      rw [if_neg hn]
      simpa using hj
    | succ j =>
      have hj2 : rest[j]? = some e := by simpa using hj
      by_cases hp : a.in_use ≠ 0 ∧ a.connfd = h
      · rw [if_pos hp]; simpa using hj2
      · rw [if_neg hp]; simpa using ih j hj2

/-! ## The registry: one entry per open connection -/

/-- `HandleIsKey` is kept by a change that clears flags and keeps
descriptors, and so is a bound on the descriptors of the entries in use. -/
theorem HandleIsKey_of_map (g g2 : Garden)
    (h : List.Forall₂
      (fun a b : FlowerEntry => (b.in_use ≠ 0 → a.in_use ≠ 0) ∧ b.connfd = a.connfd) g g2) :
    (HandleIsKey g → HandleIsKey g2) ∧
    ∀ P : Int → Prop, (∀ a ∈ g, a.in_use ≠ 0 → P a.connfd) →
      ∀ b ∈ g2, b.in_use ≠ 0 → P b.connfd := by
  have hmem : ∀ b ∈ g2, ∃ a ∈ g, (b.in_use ≠ 0 → a.in_use ≠ 0) ∧ b.connfd = a.connfd := by
    induction h with
    | nil => intro b hb; exact absurd hb (List.not_mem_nil b)
    | cons hab _ ih =>
      intro b hb
      rcases List.mem_cons.mp hb with h1 | h1
      · exact ⟨_, List.mem_cons_self _ _, by rw [h1]; exact hab⟩
      · obtain ⟨a, ha, hp⟩ := ih b h1
        exact ⟨a, List.mem_cons_of_mem _ ha, hp⟩
  constructor
  · intro hk
    unfold HandleIsKey at hk ⊢
    induction h with
    | nil => exact List.Pairwise.nil
    | cons hab hrest ih =>
      rename_i a b l l2
      rw [List.pairwise_cons] at hk ⊢
      have hmem2 : ∀ y ∈ l2, ∃ x ∈ l, (y.in_use ≠ 0 → x.in_use ≠ 0) ∧ y.connfd = x.connfd := by
        clear ih hk hab hmem
        induction hrest with
        | nil => intro y hy; exact absurd hy (List.not_mem_nil y)
        | cons hcd _ ih2 =>
          intro y hy
          rcases List.mem_cons.mp hy with h1 | h1
          · exact ⟨_, List.mem_cons_self _ _, by rw [h1]; exact hcd⟩
          · obtain ⟨x, hx, hp⟩ := ih2 y h1
            exact ⟨x, List.mem_cons_of_mem _ hx, hp⟩
      refine ⟨?_, ih (fun b hb => ?_) hk.2⟩
      · intro y hy hb hyu
        obtain ⟨x, hx, hxy⟩ := hmem2 y hy
        rw [hab.2, hxy.2]
        exact hk.1 x hx (hab.1 hb) (hxy.1 hyu)
      · exact hmem2 b hb
  · intro P hP b hb hbu
    obtain ⟨a, ha, hp⟩ := hmem b hb
    rw [hp.2]
    exact hP a ha (hp.1 hbu)

theorem forall₂_same_handle (g : Garden) :
    List.Forall₂
      (fun a b : FlowerEntry => (b.in_use ≠ 0 → a.in_use ≠ 0) ∧ b.connfd = a.connfd) g g := by
  induction g with
  | nil => exact List.Forall₂.nil
  | cons a rest ih => exact List.Forall₂.cons ⟨id, rfl⟩ ih

theorem store_status_map (g : Garden) (connfd : Int) (buf : List Char) :
    List.Forall₂
      (fun a b : FlowerEntry => (b.in_use ≠ 0 → a.in_use ≠ 0) ∧ b.connfd = a.connfd)
      g (store_status g connfd buf) := by
  induction g with
  | nil => exact List.Forall₂.nil
  | cons a rest ih =>
    rw [store_status]
    by_cases hp : a.in_use ≠ 0 ∧ a.connfd = connfd
    · rw [if_pos hp]
      exact List.Forall₂.cons ⟨id, rfl⟩ (forall₂_same_handle rest)
    · rw [if_neg hp]
      exact List.Forall₂.cons ⟨id, rfl⟩ ih

theorem handle_status_map (g : Garden) (connfd : Int) (buf : List Char) :
    List.Forall₂
      (fun a b : FlowerEntry => (b.in_use ≠ 0 → a.in_use ≠ 0) ∧ b.connfd = a.connfd)
      g (handle_status g connfd buf) := by
  unfold handle_status
  simp only
  split
  · exact store_status_map g connfd _
  · exact forall₂_same_handle g

theorem unregister_flower_map (g : Garden) (connfd : Int) :
    List.Forall₂
      (fun a b : FlowerEntry => (b.in_use ≠ 0 → a.in_use ≠ 0) ∧ b.connfd = a.connfd)
      g (unregister_flower g connfd) := by
  induction g with
  | nil => exact List.Forall₂.nil
  | cons a rest ih =>
    rw [unregister_flower]
    by_cases hp : a.in_use ≠ 0 ∧ a.connfd = connfd
    · rw [if_pos hp]
      exact List.Forall₂.cons ⟨fun h => absurd rfl h, rfl⟩ (forall₂_same_handle rest)
    · rw [if_neg hp]
      exact List.Forall₂.cons ⟨id, rfl⟩ ih

/-- With one entry in use per descriptor, `unregister_flower` leaves no entry
in use with the descriptor. -/
theorem unregister_flower_clean (g : Garden) (h : Int) (hk : HandleIsKey g) :
    ∀ e ∈ unregister_flower g h, ¬ (e.in_use ≠ 0 ∧ e.connfd = h) := by
  by_cases hex : ∃ e ∈ g, e.in_use ≠ 0 ∧ e.connfd = h
  · obtain ⟨pre, e, post, e1, e2, e3⟩ := first_with_handle g h hex
    rw [e1, unregister_flower_at h pre e post e2 e3]
    unfold HandleIsKey at hk
    rw [e1, List.pairwise_append, List.pairwise_cons] at hk
    intro x hx
    rcases List.mem_append.mp hx with h1 | h1
    · exact e2 x h1
    · rcases List.mem_cons.mp h1 with h2 | h2
      · rw [h2]; intro hp; exact hp.1 rfl
      · intro hp
        exact hk.2.1.1 x h2 e3.1 hp.1 (by rw [e3.2, hp.2])
  · rw [unregister_flower_absent g h (fun e he hp => hex ⟨e, he, hp⟩)]
    exact fun e he hp => hex ⟨e, he, hp⟩

/-- What `register_flower` does to the array: nothing, or one slot is replaced
by an entry in use with the new descriptor. -/
theorem register_flower_shape (g : Garden) (connfd : Int) (name : List Char) :
    (register_flower g connfd name).1 = g ∨
    ∃ (pre : Garden) (e e2 : FlowerEntry) (post : Garden),
      g = pre ++ e :: post ∧ (register_flower g connfd name).1 = pre ++ e2 :: post ∧
      e2.connfd = connfd := by
  unfold register_flower
  cases h1 : refreshByName connfd name g with
  | some g1 =>
    right
    have hex : ∃ e ∈ g, e.in_use ≠ 0 ∧ e.name = name := by
      by_contra hno
      have : refreshByName connfd name g = none :=
        (refreshByName_none connfd name g).mpr (fun e he hp => hno ⟨e, he, hp⟩)
      rw [this] at h1
      exact absurd h1 (Option.noConfusion)
    obtain ⟨pre, e, post, e1, _, _, _, e5⟩ := refreshByName_some connfd name g hex
    rw [e5] at h1
    exact ⟨pre, e, _, post, e1, (Option.some.inj h1).symm, rfl⟩
  | none =>
    cases h2 : claimFreeSlot connfd name g with
    | some g2 =>
      right
      have hfree : ∃ e ∈ g, e.in_use = 0 := by
        by_contra hno
        have : claimFreeSlot connfd name g = none :=
          (claimFreeSlot_none connfd name g).mpr (fun e he h0 => hno ⟨e, he, h0⟩)
        rw [this] at h2
        exact absurd h2 (Option.noConfusion)
      obtain ⟨pre, e, post, e1, _, _, e5⟩ := claimFreeSlot_some connfd name g hfree
      rw [e5] at h2
      exact ⟨pre, e, _, post, e1, (Option.some.inj h2).symm, rfl⟩
    | none => left; rfl

/-- A handshake on a descriptor that no entry in use holds keeps one entry in
use per descriptor; the entries in use hold the new descriptor or one they
held before. -/
theorem handle_hello_handles (g : Garden) (connfd : Int) (buf : List Char)
    (hk : HandleIsKey g) (hnew : ∀ e ∈ g, e.in_use ≠ 0 → e.connfd ≠ connfd) :
    HandleIsKey (handle_hello g connfd buf) ∧
    ∀ P : Int → Prop, P connfd → (∀ a ∈ g, a.in_use ≠ 0 → P a.connfd) →
      ∀ b ∈ handle_hello g connfd buf, b.in_use ≠ 0 → P b.connfd := by
  have hsame : HandleIsKey g ∧
      ∀ P : Int → Prop, P connfd → (∀ a ∈ g, a.in_use ≠ 0 → P a.connfd) →
        ∀ b ∈ g, b.in_use ≠ 0 → P b.connfd := ⟨hk, fun _ _ hP => hP⟩
  unfold handle_hello
  simp only
  split
  · split
    · rename_i name_ptr _
      rcases register_flower_shape g connfd (extract_name (name_ptr.drop 5)) with h | h
      · rw [h]; exact hsame
      · obtain ⟨pre, e, e2, post, e1, e3, e4⟩ := h
        rw [e3]
        rw [e1] at hnew
        unfold HandleIsKey at hk ⊢
        rw [e1, List.pairwise_append, List.pairwise_cons] at hk
        obtain ⟨k1, ⟨_, k3⟩, k4⟩ := hk
        constructor
        · rw [List.pairwise_append, List.pairwise_cons]
          refine ⟨k1, ⟨?_, k3⟩, ?_⟩
          · intro y hy _ hyu
            rw [e4]
            exact fun hc =>
              hnew y (List.mem_append_right _ (List.mem_cons_of_mem _ hy)) hyu hc.symm
          · intro x hx y hy hxu hyu
            rcases List.mem_cons.mp hy with h1 | h1
            · rw [h1, e4]
              exact hnew x (List.mem_append_left _ hx) hxu
            · exact k4 x hx y (List.mem_cons_of_mem _ h1) hxu hyu
        · intro P hc hP b hb hbu
          rcases List.mem_append.mp hb with h1 | h1
          · exact hP b (by rw [e1]; exact List.mem_append_left _ h1) hbu
          · rcases List.mem_cons.mp h1 with h2 | h2
            · rw [h2, e4]; exact hc
            · exact hP b (by rw [e1]; exact List.mem_append_right _ (List.mem_cons_of_mem _ h2))
                hbu
    · exact hsame
  · exact hsame

theorem HandleIsKey_empty : HandleIsKey emptyGarden := by
  unfold HandleIsKey emptyGarden
  rw [List.pairwise_replicate]
  right
  intro h
  exact absurd rfl h

/-- In every state the server reaches, each entry in use holds the descriptor
of a connection whose thread is in its read loop, and no two entries in use
hold the same descriptor. -/
theorem reachable_handles (s : Server) (hs : ServerReachable s) :
    (∀ e ∈ s.garden, e.in_use ≠ 0 → e.connfd ∈ s.reading) ∧
    HandleIsKey s.garden ∧
    (∀ fd ∈ s.awaiting, fd ∉ s.reading) ∧
    s.awaiting.Nodup := by
  induction hs with
  | start =>
    refine ⟨?_, HandleIsKey_empty, fun fd hfd => absurd hfd (List.not_mem_nil fd),
      List.nodup_nil⟩
    intro e he hu
    have : e = freeSlot := List.eq_of_mem_replicate he
    rw [this] at hu
    exact absurd rfl hu
  | accept s connfd _ ha hr _ ih =>
    obtain ⟨i1, i2, i3, i4⟩ := ih
    refine ⟨i1, i2, ?_, List.nodup_cons.mpr ⟨ha, i4⟩⟩
    intro fd hfd
    rcases List.mem_cons.mp hfd with h1 | h1
    · rw [h1]; exact hr
    · exact i3 fd h1
  | firstReadFails s connfd _ _ ih =>
    obtain ⟨i1, i2, i3, i4⟩ := ih
    exact ⟨i1, i2, fun fd hfd => i3 fd (List.mem_of_mem_erase hfd), i4.erase connfd⟩
  | hello s connfd buf _ ha ih =>
    obtain ⟨i1, i2, i3, i4⟩ := ih
    have hnew : ∀ e ∈ s.garden, e.in_use ≠ 0 → e.connfd ≠ connfd := by
      intro e he hu hc
      exact i3 connfd ha (hc ▸ i1 e he hu)
    obtain ⟨j1, j2⟩ := handle_hello_handles s.garden connfd buf i2 hnew
    refine ⟨?_, j1, ?_, i4.erase connfd⟩
    · exact j2 (fun fd => fd ∈ connfd :: s.reading) (List.mem_cons_self _ _)
        (fun a ha2 hu => List.mem_cons_of_mem _ (i1 a ha2 hu))
    · intro fd hfd hmem
      have hfd2 : fd ∈ s.awaiting := List.mem_of_mem_erase hfd
      rcases List.mem_cons.mp hmem with h1 | h1
      · rw [h1] at hfd
        exact (List.Nodup.not_mem_erase i4) hfd
      · exact i3 fd hfd2 h1
  | status s connfd buf _ _ ih =>
    obtain ⟨i1, i2, i3, i4⟩ := ih
    obtain ⟨m1, m2⟩ := HandleIsKey_of_map _ _ (handle_status_map s.garden connfd buf)
    exact ⟨m2 (fun fd => fd ∈ s.reading) i1, m1 i2, i3, i4⟩
  | unregister s connfd _ _ ih =>
    obtain ⟨i1, i2, i3, i4⟩ := ih
    obtain ⟨m1, m2⟩ := HandleIsKey_of_map _ _ (unregister_flower_map s.garden connfd)
    refine ⟨?_, m1 i2, fun fd hfd hmem => i3 fd hfd (List.mem_of_mem_erase hmem), i4⟩
    intro e he hu
    have hne : e.connfd ≠ connfd := fun hc => unregister_flower_clean s.garden connfd i2 e he ⟨hu, hc⟩
    exact (List.mem_erase_of_ne hne).mpr (m2 (fun fd => fd ∈ s.reading) i1 e he hu)
  | close s connfd _ _ ih => exact ih

/-- C15: in every state the server reaches and for every connection handle
`h`, after `unregister_flower(h)` no entry in use has handle `h`, every entry
whose handle differs from `h` is unchanged, and when no entry in use had
handle `h` the registry is entirely unchanged; hence a second (duplicate or
late) `unregister_flower(h)` is a no-op.  The entry is removed exactly once:
at most one entry in use has handle `h`, and when there is one the call clears
the `in_use` flag of that entry and changes nothing else. -/
theorem unregister_flower_removes_once (s : Server) (hs : ServerReachable s) (h : Int) :
    (∀ e ∈ unregister_flower s.garden h, ¬ (e.in_use ≠ 0 ∧ e.connfd = h)) ∧
    (∀ (j : Nat) (e : FlowerEntry), s.garden[j]? = some e → e.connfd ≠ h →
      (unregister_flower s.garden h)[j]? = some e) ∧
    ((∀ e ∈ s.garden, ¬ (e.in_use ≠ 0 ∧ e.connfd = h)) →
      unregister_flower s.garden h = s.garden) ∧
    unregister_flower (unregister_flower s.garden h) h = unregister_flower s.garden h ∧
    (s.garden.filter (fun e => decide (e.in_use ≠ 0 ∧ e.connfd = h))).length ≤ 1 ∧
    ((∃ e ∈ s.garden, e.in_use ≠ 0 ∧ e.connfd = h) →
      ∃ (pre : Garden) (e : FlowerEntry) (post : Garden),
        s.garden = pre ++ e :: post ∧
        (e.in_use ≠ 0 ∧ e.connfd = h) ∧
        (∀ x ∈ pre ++ post, ¬ (x.in_use ≠ 0 ∧ x.connfd = h)) ∧
        unregister_flower s.garden h
          = pre ++ { in_use := 0, connfd := e.connfd, name := e.name,
                     last_status := e.last_status } :: post) := by
  obtain ⟨_, hk, _, _⟩ := reachable_handles s hs
  have hclean := unregister_flower_clean s.garden h hk
  have hshape : (∃ e ∈ s.garden, e.in_use ≠ 0 ∧ e.connfd = h) →
      ∃ (pre : Garden) (e : FlowerEntry) (post : Garden),
        s.garden = pre ++ e :: post ∧
        (e.in_use ≠ 0 ∧ e.connfd = h) ∧
        (∀ x ∈ pre ++ post, ¬ (x.in_use ≠ 0 ∧ x.connfd = h)) ∧
        unregister_flower s.garden h
          = pre ++ { in_use := 0, connfd := e.connfd, name := e.name,
                     last_status := e.last_status } :: post := by
    intro hex
    obtain ⟨pre, e, post, e1, e2, e3⟩ := first_with_handle s.garden h hex
    have hres : unregister_flower s.garden h
        = pre ++ { in_use := 0, connfd := e.connfd, name := e.name,
                   last_status := e.last_status } :: post := by
      rw [e1, unregister_flower_at h pre e post e2 e3]
    refine ⟨pre, e, post, e1, e3, ?_, hres⟩
    intro x hx
    rcases List.mem_append.mp hx with h1 | h1
    · exact e2 x h1
    · exact hclean x (by rw [hres]; exact List.mem_append_right _ (List.mem_cons_of_mem _ h1))
  refine ⟨hclean, unregister_flower_other s.garden h, unregister_flower_absent s.garden h,
    unregister_flower_absent _ h hclean, ?_, hshape⟩
  by_cases hex : ∃ e ∈ s.garden, e.in_use ≠ 0 ∧ e.connfd = h
  · obtain ⟨pre, e, post, e1, e3, e4, _⟩ := hshape hex
    have hnone : ∀ l : Garden, (∀ x ∈ l, ¬ (x.in_use ≠ 0 ∧ x.connfd = h)) →
        l.filter (fun e => decide (e.in_use ≠ 0 ∧ e.connfd = h)) = [] := by
      intro l hl
      rw [List.filter_eq_nil_iff]
      intro x hx
      simpa using hl x hx
    rw [e1, List.filter_append, List.filter_cons_of_pos (by simpa using e3),
      hnone pre (fun x hx => e4 x (List.mem_append_left _ hx)),
      hnone post (fun x hx => e4 x (List.mem_append_right _ hx))]
    simp
  · have : s.garden.filter (fun e => decide (e.in_use ≠ 0 ∧ e.connfd = h)) = [] := by
      rw [List.filter_eq_nil_iff]
      intro x hx
      simpa using fun hu hc => hex ⟨x, hx, hu, hc⟩
    rw [this]
    exact Nat.zero_le _

/-- C15 at the server on which `rose` connected on descriptor 4 and `iris` on
descriptor 5: `unregister_flower(4)` releases the slot of `rose`, leaves the
slot of `iris` as it was, and a second call changes nothing. -/
theorem unregister_flower_removes_once_witness :
    ServerReachable roseIrisServer ∧
    (∀ e ∈ unregister_flower roseIrisServer.garden 4, ¬ (e.in_use ≠ 0 ∧ e.connfd = 4)) ∧
    unregister_flower (unregister_flower roseIrisServer.garden 4) 4
      = unregister_flower roseIrisServer.garden 4 ∧
    unregister_flower roseIrisServer.garden 4
      = { in_use := 0, connfd := 4, name := ['r', 'o', 's', 'e'], last_status := [] }
        :: { in_use := 1, connfd := 5, name := ['i', 'r', 'i', 's'], last_status := [] }
        :: List.replicate 62 freeSlot :=
  have hr : ServerReachable roseIrisServer :=
    ServerReachable.hello ⟨handle_hello emptyGarden 4 helloRose, [5], [4], []⟩ 5 helloIris
      (ServerReachable.accept ⟨handle_hello emptyGarden 4 helloRose, [], [4], []⟩ 5
        (ServerReachable.hello ⟨emptyGarden, [4], [], []⟩ 4 helloRose
          (ServerReachable.accept ⟨emptyGarden, [], [], []⟩ 4 ServerReachable.start
            (by decide) (by decide) (by decide))
          (by decide))
        (by decide) (by decide) (by decide))
      (by decide)
  have h := unregister_flower_removes_once roseIrisServer hr 4
  ⟨hr, h.1, h.2.2.2.1, by decide⟩

/-! ## The registry: the name is a key -/

theorem extract_name_length (p : List Char) : (extract_name p).length ≤ 31 := by
  unfold extract_name
  rw [List.length_take]
  exact min_le_left _ _

/-- `NameIsKey` only looks at the `in_use` flags and the names, and it is kept
when flags are cleared. -/
theorem NameIsKey_of_map (g g2 : Garden)
    (h : List.Forall₂ (fun a b => (b.in_use ≠ 0 → a.in_use ≠ 0) ∧ b.name = a.name) g g2)
    (hk : NameIsKey g) : NameIsKey g2 := by
  unfold NameIsKey at hk ⊢
  induction h with
  | nil => exact List.Pairwise.nil
  | cons hab _ ih =>
    rename_i a b l l2 hrest
    rw [List.pairwise_cons] at hk ⊢
    refine ⟨?_, ih hk.2⟩
    intro y hy hb hyu
    obtain ⟨x, hx, hxy⟩ : ∃ x ∈ l, (y.in_use ≠ 0 → x.in_use ≠ 0) ∧ y.name = x.name := by
      clear ih hk hab
      induction hrest with
      | nil => exact absurd hy (List.not_mem_nil y)
      | cons hcd _ ih2 =>
        rcases List.mem_cons.mp hy with h1 | h1
        · exact ⟨_, List.mem_cons_self _ _, by rw [h1]; exact hcd⟩
        · obtain ⟨x, hx, hp⟩ := ih2 h1
          exact ⟨x, List.mem_cons_of_mem _ hx, hp⟩
    rw [hab.2, hxy.2]
    exact hk.1 x hx (hab.1 hb) (hxy.1 hyu)

theorem forall₂_same (g : Garden) :
    List.Forall₂ (fun a b : FlowerEntry => (b.in_use ≠ 0 → a.in_use ≠ 0) ∧ b.name = a.name) g g := by
  induction g with
  | nil => exact List.Forall₂.nil
  | cons a rest ih => exact List.Forall₂.cons ⟨id, rfl⟩ ih

theorem NameIsKey_store_status (g : Garden) (connfd : Int) (buf : List Char)
    (hk : NameIsKey g) : NameIsKey (store_status g connfd buf) := by
  apply NameIsKey_of_map g _ _ hk
  induction g with
  | nil => exact List.Forall₂.nil
  | cons a rest ih =>
    rw [store_status]
    rw [NameIsKey, List.pairwise_cons] at hk
    by_cases hp : a.in_use ≠ 0 ∧ a.connfd = connfd
    · rw [if_pos hp]
      exact List.Forall₂.cons ⟨id, rfl⟩ (forall₂_same rest)
    · rw [if_neg hp]
      exact List.Forall₂.cons ⟨id, rfl⟩ (ih hk.2)

theorem NameIsKey_unregister (g : Garden) (connfd : Int) (hk : NameIsKey g) :
    NameIsKey (unregister_flower g connfd) := by
  apply NameIsKey_of_map g _ _ hk
  induction g with
  | nil => exact List.Forall₂.nil
  | cons a rest ih =>
    rw [unregister_flower]
    rw [NameIsKey, List.pairwise_cons] at hk
    by_cases hp : a.in_use ≠ 0 ∧ a.connfd = connfd
    · rw [if_pos hp]
      exact List.Forall₂.cons ⟨fun h => absurd rfl h, rfl⟩ (forall₂_same rest)
    · rw [if_neg hp]
      exact List.Forall₂.cons ⟨id, rfl⟩ (ih hk.2)

theorem NameIsKey_refresh (connfd : Int) (name : List Char) (g g2 : Garden)
    (h : refreshByName connfd name g = some g2) (hk : NameIsKey g) : NameIsKey g2 := by
  apply NameIsKey_of_map g _ _ hk
  induction g generalizing g2 with
  | nil => rw [refreshByName] at h; exact absurd h (Option.noConfusion)
  | cons a rest ih =>
    rw [refreshByName] at h
    rw [NameIsKey, List.pairwise_cons] at hk
    by_cases hp : a.in_use ≠ 0 ∧ a.name = name
    · rw [if_pos hp] at h
      rw [← Option.some.inj h]
      exact List.Forall₂.cons ⟨id, rfl⟩ (forall₂_same rest)
    · rw [if_neg hp] at h
      obtain ⟨g3, h3, h4⟩ := Option.map_eq_some'.mp h
      rw [← h4]
      exact List.Forall₂.cons ⟨id, rfl⟩ (ih g3 h3 hk.2)

theorem NameIsKey_claim (connfd : Int) (name : List Char) (g g2 : Garden)
    (hlen : name.length ≤ 31)
    (hnew : ∀ e ∈ g, ¬ (e.in_use ≠ 0 ∧ e.name = name))
    (h : claimFreeSlot connfd name g = some g2) (hk : NameIsKey g) : NameIsKey g2 := by
  have hfree : ∃ e ∈ g, e.in_use = 0 := by
    by_contra hno
    have : claimFreeSlot connfd name g = none :=
      (claimFreeSlot_none connfd name g).mpr (fun e he h0 => hno ⟨e, he, h0⟩)
    rw [this] at h
    exact absurd h (Option.noConfusion)
  obtain ⟨pre, e, post, e1, _, _, e5⟩ := claimFreeSlot_some connfd name g hfree
  rw [e5] at h
  rw [← Option.some.inj h]
  have hst : strncpy name 31 = name := List.take_of_length_le hlen
  rw [hst]
  unfold NameIsKey at hk ⊢
  rw [e1] at hk hnew
  rw [List.pairwise_append] at hk ⊢
  obtain ⟨k1, k2, k3⟩ := hk
  rw [List.pairwise_cons] at k2 ⊢
  refine ⟨k1, ⟨?_, k2.2⟩, ?_⟩
  · intro y hy _ hyu hname
    exact hnew y (List.mem_append_right _ (List.mem_cons_of_mem _ hy)) ⟨hyu, hname.symm⟩
  · intro x hx y hy hxu hyu
    rcases List.mem_cons.mp hy with h1 | h1
    · rw [h1]
      intro hname
      exact hnew x (List.mem_append_left _ hx) ⟨hxu, hname⟩
    · exact k3 x hx y (List.mem_cons_of_mem _ h1) hxu hyu

theorem NameIsKey_register (g : Garden) (connfd : Int) (name : List Char)
    (hlen : name.length ≤ 31) (hk : NameIsKey g) :
    NameIsKey (register_flower g connfd name).1 := by
  unfold register_flower
  cases h1 : refreshByName connfd name g with
  | some g1 => exact NameIsKey_refresh connfd name g g1 h1 hk
  | none =>
    cases h2 : claimFreeSlot connfd name g with
    | some g2 =>
      exact NameIsKey_claim connfd name g g2 hlen ((refreshByName_none connfd name g).mp h1) h2 hk
    | none => exact hk

theorem NameIsKey_empty : NameIsKey emptyGarden := by
  unfold NameIsKey emptyGarden
  rw [List.pairwise_replicate]
  right
  intro h
  exact absurd rfl h

/-- C16: in every registry state reachable from the empty registry by
handshakes (the `HELLO` handler extracts a name of at most 31 characters and
calls `register_flower`), status updates and `unregister_flower` calls, no two
entries in use have the same name. -/
theorem reachable_name_is_key (g : Garden) (h : GardenReachable g) :
    NameIsKey g ∧
    (∀ (i j : Nat) (a b : FlowerEntry), i < j → g[i]? = some a → g[j]? = some b →
      a.in_use ≠ 0 → b.in_use ≠ 0 → a.name ≠ b.name) ∧
    ((g.filter (fun e => decide (e.in_use ≠ 0))).map (fun e => e.name)).Nodup := by
  have hk : NameIsKey g := by
    induction h with
    | empty => exact NameIsKey_empty
    | hello g connfd buf _ ih =>
      unfold handle_hello
      simp only
      split
      · split
        · exact NameIsKey_register g connfd _ (extract_name_length _) ih
        · exact ih
      · exact ih
    | status g connfd buf _ ih =>
      unfold handle_status
      simp only
      split
      · exact NameIsKey_store_status g connfd _ ih
      · exact ih
    | unregister g connfd _ ih => exact NameIsKey_unregister g connfd ih
  refine ⟨hk, ?_, ?_⟩
  · intro i j a b hij hi hj ha hb
    unfold NameIsKey at hk
    rw [List.pairwise_iff_getElem] at hk
    obtain ⟨hi1, hi2⟩ := List.getElem?_eq_some_iff.mp hi
    obtain ⟨hj1, hj2⟩ := List.getElem?_eq_some_iff.mp hj
    have := hk i j hi1 hj1 hij
    rw [hi2, hj2] at this
    exact this ha hb
  · unfold List.Nodup
    rw [List.pairwise_map, List.pairwise_filter]
    unfold NameIsKey at hk
    refine hk.imp ?_
    intro a b hab ha hb
    exact hab (by simpa using ha) (by simpa using hb)

/-- C16 at the registry reached by two handshakes for `rose`, on descriptors
4 and 5. -/
theorem reachable_name_is_key_witness :
    GardenReachable (handle_hello (handle_hello emptyGarden 4 helloRose) 5 helloRose) ∧
    NameIsKey (handle_hello (handle_hello emptyGarden 4 helloRose) 5 helloRose) ∧
    handle_hello (handle_hello emptyGarden 4 helloRose) 5 helloRose
      = { in_use := 1, connfd := 5, name := ['r', 'o', 's', 'e'], last_status := [] }
        :: List.replicate 63 freeSlot :=
  have hr : GardenReachable (handle_hello (handle_hello emptyGarden 4 helloRose) 5 helloRose) :=
    GardenReachable.hello _ 5 helloRose (GardenReachable.hello _ 4 helloRose GardenReachable.empty)
  ⟨hr, (reachable_name_is_key _ hr).1, by decide⟩

/-! ## `BLOOM` -/

theorem bloomSnapshot_eq (g : Garden) :
    bloomSnapshot g = (g.filter (fun e => decide (e.in_use ≠ 0))).map (fun e => e.connfd) := by
  induction g with
  | nil => rfl
  | cons e rest ih =>
    rw [bloomSnapshot]
    by_cases h : e.in_use ≠ 0
    · rw [if_pos h, List.filter_cons_of_pos (by simpa using h), List.map_cons, ih]
    · rw [if_neg h, List.filter_cons_of_neg (by simpa using h), ih]

theorem bloomLoop_length (rand : Nat → Nat) (calls : Nat) (fds : List Int) :
    (bloomLoop rand calls fds).length = 2 * fds.length := by
  induction fds generalizing calls with
  | nil => rfl
  | cons fd fds ih =>
    rw [bloomLoop]
    simp only [List.length_cons, ih]
    omega

/-- The calls made for the `i`-th descriptor of the snapshot. -/
theorem bloomLoop_at (rand : Nat → Nat) (calls : Nat) (fds : List Int) (i : Nat) (fd : Int)
    (hi : fds[i]? = some fd) :
    (bloomLoop rand calls fds)[2 * i]?
      = some (Event.sendLine fd
          (if rand (calls + 2 * i) % 2 = 0 then str_SEQ1_nl else str_SEQ2_nl)) ∧
    (bloomLoop rand calls fds)[2 * i + 1]?
      = some (Event.usleep
          ((400 + ((rand (calls + 2 * i + 1) % 500 : Nat) : Int)) * 1000)) := by
  induction fds generalizing calls i with
  | nil => simp at hi
  | cons a fds ih =>
    rw [bloomLoop]
    cases i with
    | zero =>
      have ha : a = fd := by simpa using hi
      rw [ha]
      exact ⟨by simp, by simp⟩
    | succ i =>
      have hi2 : fds[i]? = some fd := by simpa using hi
      obtain ⟨h1, h2⟩ := ih (calls + 2) i hi2
      have e1 : 2 * (i + 1) = (2 * i) + 1 + 1 := by ring
      have e2 : calls + (2 * i + 1 + 1) = calls + 2 + 2 * i := by ring
      constructor
      · rw [e1, e2]
        simpa using h1
      · rw [e1, e2]
        simpa using h2

/-- C17: for every registry state with `n` entries in use and every sequence
of `rand()` values, `run_garden_bloom_sequence` makes `2 n` calls: for the
`i`-th entry in use, in slot order, one `sendLine` to its descriptor with the
line `SEQ1` or `SEQ2` (newline-terminated), then one `usleep` of `d`
milliseconds with `400 ≤ d < 900`; with no entry in use it makes no call. -/
theorem bloom_sends_one_each (g : Garden) (rand : Nat → Nat) :
    bloomSnapshot g = (g.filter (fun e => decide (e.in_use ≠ 0))).map (fun e => e.connfd) ∧
    (run_garden_bloom_sequence g rand).length
      = 2 * (g.filter (fun e => decide (e.in_use ≠ 0))).length ∧
    (∀ (i : Nat) (fd : Int), (bloomSnapshot g)[i]? = some fd →
      ∃ (line : List Char) (d : Int),
        (run_garden_bloom_sequence g rand)[2 * i]? = some (Event.sendLine fd line) ∧
        (line = str_SEQ1_nl ∨ line = str_SEQ2_nl) ∧
        (run_garden_bloom_sequence g rand)[2 * i + 1]? = some (Event.usleep (d * 1000)) ∧
        400 ≤ d ∧ d < 900) ∧
    ((∀ e ∈ g, e.in_use = 0) → run_garden_bloom_sequence g rand = []) := by
  have hrun : run_garden_bloom_sequence g rand = bloomLoop rand 0 (bloomSnapshot g) := by
    unfold run_garden_bloom_sequence
    simp only
    split
    · rename_i h0
      rw [List.length_eq_zero.mp h0]
      rfl
    · rfl
  refine ⟨bloomSnapshot_eq g, ?_, ?_, ?_⟩
  · rw [hrun, bloomLoop_length, bloomSnapshot_eq, List.length_map]
  · intro i fd hi
    obtain ⟨h1, h2⟩ := bloomLoop_at rand 0 (bloomSnapshot g) i fd hi
    rw [hrun]
    refine ⟨_, _, h1, ?_, h2, ?_, ?_⟩
    · split
      · exact Or.inl rfl
      · exact Or.inr rfl
    · omega
    · have := Nat.mod_lt (rand (0 + 2 * i + 1)) (by decide : 500 > 0)
      omega
  · intro hall
    have hs : bloomSnapshot g = [] := by
      rw [bloomSnapshot_eq, List.map_eq_nil_iff, List.filter_eq_nil_iff]
      intro e he
      simp [hall e he]
    rw [hrun, hs]
    rfl

/-- C17 at the registry `twoFlowers` (descriptors 4 and 5) with the `rand()`
values 7, 123, 10, 499. -/
theorem bloom_sends_one_each_witness :
    (bloomSnapshot twoFlowers)[1]? = some 5 ∧
    (run_garden_bloom_sequence twoFlowers sampleRand).length
      = 2 * (twoFlowers.filter (fun e => decide (e.in_use ≠ 0))).length ∧
    run_garden_bloom_sequence twoFlowers sampleRand
      = [Event.sendLine 4 str_SEQ2_nl, Event.usleep 523000,
         Event.sendLine 5 str_SEQ1_nl, Event.usleep 899000] :=
  ⟨by decide, (bloom_sends_one_each twoFlowers sampleRand).2.1, by decide⟩

/-! ## The agent: `TERMINATE` -/

theorem handle_command_line_TERMINATE (a : Agent) :
    handle_command_line a str_TERMINATE
      = { a with flower := Flower_applyCommand a.flower str_CLOSE, terminating := true } := by
  have h1 : str_TERMINATE.dropWhile (fun c => c == ' ' || c == '\t') = str_TERMINATE := by decide
  have h2 : ¬ (str_TERMINATE = []) := by decide
  unfold handle_command_line
  simp only [h1, h2, if_false, if_true]

theorem takeWhile_line (line tail : List Char) (hline : ∀ c ∈ line, isEol c = false)
    (htail : tail = [] ∨ ∃ c rest, tail = c :: rest ∧ isEol c = true) :
    (line ++ tail).takeWhile (fun c => !isEol c) = line ∧
    (line ++ tail).dropWhile (fun c => !isEol c) = tail := by
  induction line with
  | nil =>
    rcases htail with h | ⟨c, rest, h, hc⟩
    · rw [h]; exact ⟨rfl, rfl⟩
    · rw [h]; simp [List.takeWhile, List.dropWhile, hc]
  | cons x xs ih =>
    have hx : isEol x = false := hline x (List.mem_cons_self _ _)
    obtain ⟨i1, i2⟩ := ih (fun c hc => hline c (List.mem_cons_of_mem _ hc))
    constructor
    · rw [List.cons_append, List.takeWhile_cons_of_pos (by simp [hx]), i1]
    · rw [List.cons_append, List.dropWhile_cons_of_pos (by simp [hx]), i2]

/-- A buffer whose first line is `TERMINATE`: the inner loop of the receiver
handles that line and leaves the loop; what follows in the buffer is not
looked at. -/
theorem receiveLoop_TERMINATE (a : Agent) (tail : List Char) (hrun : a.running = true)
    (htail : tail = [] ∨ ∃ c rest, tail = c :: rest ∧ isEol c = true) :
    receiveLoop a (str_TERMINATE ++ tail) = handle_command_line a str_TERMINATE := by
  have hline : ∀ c ∈ str_TERMINATE, isEol c = false := by decide
  obtain ⟨t1, _⟩ := takeWhile_line str_TERMINATE tail hline htail
  have hne : str_TERMINATE ++ tail ≠ [] := by
    intro h
    have := congrArg List.length h
    rw [List.length_append] at this
    have h9 : str_TERMINATE.length = 9 := rfl
    rw [h9] at this
    simp at this
  have hcopy : trim_newline (strncpy str_TERMINATE 127) = str_TERMINATE := by decide
  have hn : str_TERMINATE ≠ [] := by decide
  have hterm : (handle_command_line a str_TERMINATE).terminating = true := by
    rw [handle_command_line_TERMINATE]
  rw [receiveLoop, if_pos ⟨hrun, hne⟩]
  simp only [t1, hcopy]
  rw [if_pos hn, if_pos ⟨hn, hterm⟩]

/-! ## The agent: the tick loop after `TERMINATE` -/

theorem stepOf_default (f : Flower) (hspeed : f.speed_deg_per_sec = 15) :
    stepOf f 100 = 3 / 2 := by
  unfold stepOf
  rw [hspeed]
  norm_num

/-- One tick of a closing flower: the margin above the close angle shrinks by
one step. -/
theorem Closing_update (n : Nat) (f : Flower) (h : Closing n f) :
    Closing (n - 1) (Flower_update f 100) := by
  obtain ⟨h1, h2, h3, h4, h5⟩ := h
  obtain ⟨b1, b2, _, _, b5, b6⟩ := Flower_update_frame f 100
  refine ⟨by rw [b1]; exact h1, by rw [b6]; exact h2, by rw [b5]; exact h3,
    by rw [b2]; exact h4, ?_⟩
  intro i hi
  rw [b2] at hi
  obtain ⟨t, lo, hi2, z, hz⟩ := h5 i hi
  have hstep := stepOf_default f h2
  have hskip : ¬ (f.seq_active ≠ 0 ∧ elapsedAfter f 100 < (f.petals i).delay_ms) :=
    fun hh => hh.1 h1
  rw [Flower_update_target, Flower_update_petals f 100 (by decide), hstep,
    if_neg (by norm_num), if_pos hi, if_neg hskip, movePetal_current, t]
  refine ⟨rfl, ?_⟩
  have hnpos : ¬ ((5 : ℚ) - (f.petals i).current_angle > 0) := by linarith
  rw [if_neg hnpos]
  by_cases hd : (5 : ℚ) - (f.petals i).current_angle < 0
  · rw [if_pos hd]
    by_cases hnear : -((5 : ℚ) - (f.petals i).current_angle) ≤ 3 / 2
    · rw [if_pos hnear]
      refine ⟨le_refl _, ?_, 1000, by norm_num⟩
      have : (0 : ℚ) ≤ ((n - 1 : Nat) : ℚ) := Nat.cast_nonneg _
      linarith
    · rw [if_neg hnear]
      refine ⟨by linarith, ?_, z - 300, by rw [hz]; push_cast; ring⟩
      cases n with
      | zero =>
        exfalso
        simp at hi2
        linarith
      | succ m =>
        simp only [Nat.add_sub_cancel]
        push_cast at hi2
        linarith
  · rw [if_neg hd]
    have hcur : (f.petals i).current_angle = 5 := by linarith
    rw [hcur]
    refine ⟨le_refl _, ?_, 1000, by norm_num⟩
    have : (0 : ℚ) ≤ ((n - 1 : Nat) : ℚ) := Nat.cast_nonneg _
    linarith

theorem clientMoving_false_iff (f : Flower) (h8 : f.num_petals ≤ 8) :
    clientMoving f = false ↔
      ∀ i : Fin FLOWER_MAX_PETALS, (i.val : Int) < f.num_petals →
        ¬ (f32 ((f.petals i).target_angle - (f.petals i).current_angle) > 1 / 2 ∨
           f32 ((f.petals i).target_angle - (f.petals i).current_angle) < -(1 / 2)) := by
  have hnum : (if f.num_petals > ((FLOWER_MAX_PETALS : Nat) : Int)
      then ((FLOWER_MAX_PETALS : Nat) : Int) else f.num_petals) = f.num_petals := by
    rw [if_neg]
    simp only [Nat.cast_ofNat]
    omega
  unfold clientMoving
  simp only [hnum]
  rw [Bool.eq_false_iff, Ne, List.any_eq_true]
  constructor
  · intro hno i hi hm
    apply hno
    refine ⟨i.val, List.mem_range.mpr (Int.lt_toNat.mpr hi), ?_⟩
    rw [petalAt_fin]
    exact decide_eq_true hm
  · rintro hall ⟨j, hj, hm⟩
    have hjN : (j : Int) < f.num_petals := Int.lt_toNat.mp (List.mem_range.mp hj)
    have hj8 : j < FLOWER_MAX_PETALS := by
      have : (j : Int) < 8 := by omega
      exact_mod_cast this
    rw [petalAt_fin f.petals ⟨j, hj8⟩] at hm
    exact hall ⟨j, hj8⟩ hjN (of_decide_eq_true hm)

theorem Closing_zero_not_moving (f : Flower) (h : Closing 0 f) : clientMoving f = false := by
  obtain ⟨_, _, _, h4, h5⟩ := h
  rw [clientMoving_false_iff f h4]
  intro i hi
  obtain ⟨t, lo, up, _⟩ := h5 i hi
  have hcur : (f.petals i).current_angle = 5 := by
    simp at up
    linarith
  rw [t, hcur, sub_self, f32_zero]
  norm_num

theorem Closing_not_moving_within (n : Nat) (f : Flower) (h : Closing n f)
    (hm : clientMoving f = false) :
    ∀ i : Fin FLOWER_MAX_PETALS, (i.val : Int) < f.num_petals →
      |(f.petals i).current_angle - f.close_angle| ≤ 1 / 2 := by
  obtain ⟨_, _, h3, h4, h5⟩ := h
  rw [clientMoving_false_iff f h4] at hm
  intro i hi
  obtain ⟨t, lo, _, z, hz⟩ := h5 i hi
  have := hm i hi
  rw [t] at this
  rw [h3, abs_le]
  constructor
  · linarith
  · by_contra hcon
    apply this
    have hz1 : (1000 : ℚ) + 100 < (z : ℚ) := by
      rw [hz] at hcon
      linarith
    have hz2 : (1101 : Int) ≤ z := by
      have : ((1100 : Int) : ℚ) < (z : ℚ) := by push_cast; linarith
      have := Int.cast_lt.mp this
      omega
    have hz3 : (1101 : ℚ) ≤ (z : ℚ) := by exact_mod_cast hz2
    have hbig : 1 / 2 + 1 / 2 ^ 24 ≤ |(5 : ℚ) - (f.petals i).current_angle| := by
      rw [abs_of_nonpos (by linarith), hz]
      norm_num
      linarith
    have hgt := f32_abs_gt_half _ hbig
    rcases lt_abs.mp hgt with h1 | h1
    · exact Or.inl h1
    · exact Or.inr (by linarith)

theorem motion_thread_stopped (n : Nat) (a : Agent) (h : a.running = false) :
    motion_thread n a = a := by
  cases n with
  | zero => rfl
  | succ n =>
    rw [motion_thread, if_neg]
    rw [h]
    decide

theorem motion_thread_succ (n : Nat) (a : Agent) (h : a.running = true) :
    motion_thread (n + 1) a = motion_thread n (motion_iteration a) := by
  rw [motion_thread, if_pos h]

theorem motion_iteration_flower (a : Agent) :
    (motion_iteration a).flower = Flower_update a.flower 100 ∧
    (motion_iteration a).terminating = a.terminating := by
  unfold motion_iteration
  simp only
  split <;> exact ⟨rfl, rfl⟩

theorem motion_iteration_running (a : Agent) (hrun : a.running = true)
    (hterm : a.terminating = true) :
    (motion_iteration a).running = clientMoving (Flower_update a.flower 100) := by
  unfold motion_iteration
  simp only
  cases hm : clientMoving (Flower_update a.flower 100) with
  | false => rw [if_pos ⟨hterm, rfl⟩]
  | true =>
    rw [if_neg (by simp)]
    exact hrun

/-- The iteration that finds no petal moving is the last one. -/
theorem StopsAfter_one (n : Nat) (a : Agent) (hrun : a.running = true)
    (hterm : a.terminating = true) (hc : Closing n (Flower_update a.flower 100))
    (hm : clientMoving (Flower_update a.flower 100) = false) : StopsAfter a 1 := by
  obtain ⟨f1, f2⟩ := motion_iteration_flower a
  have hstop : (motion_iteration a).running = false := by
    rw [motion_iteration_running a hrun hterm, hm]
  have h1 : motion_thread 1 a = motion_iteration a := by
    rw [motion_thread_succ 0 a hrun]; rfl
  unfold StopsAfter
  rw [h1, f1, f2]
  refine ⟨?_, hstop, hterm, ?_, rfl, hm, Closing_not_moving_within n _ hc hm⟩
  · intro j hj
    have : j = 0 := by omega
    rw [this]
    exact hrun
  · intro m hm1
    obtain ⟨m2, rfl⟩ : ∃ m2, m = m2 + 1 := ⟨m - 1, by omega⟩
    rw [motion_thread_succ m2 a hrun, motion_thread_stopped m2 _ hstop]

/-- An iteration that still finds a petal moving adds one to the count. -/
theorem StopsAfter_succ (a : Agent) (k : Nat) (hrun : a.running = true)
    (h : StopsAfter (motion_iteration a) k) : StopsAfter a (k + 1) := by
  obtain ⟨s1, s2, s3, s4, s5, s6, s7⟩ := h
  obtain ⟨f1, _⟩ := motion_iteration_flower a
  unfold StopsAfter
  rw [motion_thread_succ k a hrun]
  refine ⟨?_, s2, s3, ?_, ?_, s6, s7⟩
  · intro j hj
    cases j with
    | zero => exact hrun
    | succ j =>
      rw [motion_thread_succ j a hrun]
      exact s1 j (by omega)
  · intro m hm1
    obtain ⟨m2, rfl⟩ : ∃ m2, m = m2 + 1 := ⟨m - 1, by omega⟩
    rw [motion_thread_succ m2 a hrun]
    exact s4 m2 (by omega)
  · rw [s5, f1, List.replicate_succ, runTicks_cons]

/-- The tick loop of a terminating agent whose petals are at most `3 n / 2`
degrees above the close angle stops within `max n 1` iterations. -/
theorem motion_thread_stops (n : Nat) (a : Agent) (hrun : a.running = true)
    (hterm : a.terminating = true) (hc : Closing n a.flower) :
    ∃ k : Nat, 1 ≤ k ∧ k ≤ max n 1 ∧ StopsAfter a k := by
  induction n generalizing a with
  | zero =>
    have hc1 := Closing_update 0 a.flower hc
    exact ⟨1, le_refl _, by simp, StopsAfter_one 0 a hrun hterm hc1
      (Closing_zero_not_moving _ hc1)⟩
  | succ n ih =>
    have hc1 := Closing_update (n + 1) a.flower hc
    simp only [Nat.add_sub_cancel] at hc1
    cases hm : clientMoving (Flower_update a.flower 100) with
    | false => exact ⟨1, le_refl _, by simp, StopsAfter_one n a hrun hterm hc1 hm⟩
    | true =>
      obtain ⟨f1, f2⟩ := motion_iteration_flower a
      have hn : n ≠ 0 := by
        intro h0
        rw [h0] at hc1
        rw [Closing_zero_not_moving _ hc1] at hm
        exact absurd hm (by decide)
      obtain ⟨k, k1, k2, k3⟩ := ih (motion_iteration a)
        (by rw [motion_iteration_running a hrun hterm, hm])
        (by rw [f2]; exact hterm) (by rw [f1]; exact hc1)
      refine ⟨k + 1, by omega, ?_, StopsAfter_succ a k hrun k3⟩
      have : max n 1 = n := max_eq_left (by omega)
      rw [this] at k2
      have : max (n + 1) 1 = n + 1 := max_eq_left (by omega)
      rw [this]
      omega

theorem Reachable_runTicks (f : Flower) (dts : List Int) (h : Reachable f) :
    Reachable (runTicks f dts) := by
  induction dts generalizing f with
  | nil => exact h
  | cons d dts ih => rw [runTicks_cons]; exact ih _ (Reachable.tick f d h)

/-- In a reachable state every angle is a whole number of 200ths of a degree:
the angles start at 5, the targets are 5 and 80, and a tick of `dt_ms`
milliseconds moves a petal by `15 * dt_ms / 1000` degrees or onto its target. -/
theorem reachable_grid (f : Flower) (h : Reachable f) :
    ∀ i : Fin FLOWER_MAX_PETALS, ∃ z : Int, (f.petals i).current_angle = (z : ℚ) / 200 := by
  induction h with
  | init f0 name n =>
    intro i
    rw [Flower_init_petals]
    exact ⟨1000, by norm_num⟩
  | command f line _ ih =>
    intro i
    obtain ⟨_, _, _, _, b5⟩ := applyCommand_frame f line
    rw [(b5 i).1]
    exact ih i
  | tick f dt hf ih =>
    intro i
    obtain ⟨_, _, _, _, a5, a6⟩ := reachable_bounds f hf
    obtain ⟨z, hz⟩ := ih i
    by_cases hdt : 0 < dt
    · rw [Flower_update_petals f dt hdt]
      have hstep : stepOf f dt = ((3 * dt : Int) : ℚ) / 200 := by
        unfold stepOf
        rw [a5]
        push_cast
        ring
      have htgt : ∃ w : Int, (f.petals i).target_angle = (w : ℚ) / 200 := by
        rcases (a6 i).2.2 with t | t
        · exact ⟨1000, by rw [t]; norm_num⟩
        · exact ⟨16000, by rw [t]; norm_num⟩
      obtain ⟨w, hw⟩ := htgt
      split
      · exact ⟨z, hz⟩
      · split
        · split
          · exact ⟨z, hz⟩
          · rw [movePetal_current]
            split
            · split
              · exact ⟨w, hw⟩
              · exact ⟨z + 3 * dt, by rw [hz, hstep]; push_cast; ring⟩
            · split
              · split
                · exact ⟨w, hw⟩
                · exact ⟨z - 3 * dt, by rw [hz, hstep]; push_cast; ring⟩
              · exact ⟨z, hz⟩
        · exact ⟨z, hz⟩
    · have h0 : dt ≤ 0 := by omega
      have e : Flower_update f dt = f := by simp [Flower_update, h0]
      rw [e]
      exact ⟨z, hz⟩

/-- `CLOSE` on a reachable flower starts the way down from at most 75 degrees
above the close angle, fifty steps of 1.5 degrees. -/
theorem Closing_after_CLOSE (f : Flower) (h : Reachable f) :
    Closing 50 (Flower_applyCommand f str_CLOSE) := by
  obtain ⟨_, a2, _, a4, a5, a6⟩ := reachable_bounds f h
  have hgrid := reachable_grid f h
  rw [applyCommand_CLOSE]
  refine ⟨rfl, a5, a4, a2, ?_⟩
  intro i hi
  have hi2 : (i.val : Int) < f.num_petals := hi
  obtain ⟨lo, up, _⟩ := a6 i
  simp only [forPetals_apply, hi2, if_true]
  refine ⟨a4, lo, ?_, hgrid i⟩
  norm_num
  linarith

/-! ## The agent: which lines the receiver handles -/

theorem handle_command_line_flags (a : Agent) (x : List Char) :
    (handle_command_line a x).running = a.running ∧
    (handle_command_line a x).terminating
      = (a.terminating ||
          decide (x.dropWhile (fun c => c == ' ' || c == '\t') = str_TERMINATE)) := by
  unfold handle_command_line
  simp only
  by_cases h0 : x.dropWhile (fun c => c == ' ' || c == '\t') = []
  · rw [if_pos h0, h0]
    have : ¬ (([] : List Char) = str_TERMINATE) := by decide
    simp [this]
  · rw [if_neg h0]
    by_cases h1 : x.dropWhile (fun c => c == ' ' || c == '\t') = str_TERMINATE
    · rw [if_pos h1]; simp [h1]
    · rw [if_neg h1]; simp [h1]

theorem handle_command_line_reachable (a : Agent) (x : List Char) (h : Reachable a.flower) :
    Reachable (handle_command_line a x).flower := by
  unfold handle_command_line
  simp only
  split
  · exact h
  · split
    · exact Reachable.command a.flower str_CLOSE h
    · exact Reachable.command a.flower _ h

/-- A line that is taken for `TERMINATE` is handled as `TERMINATE` itself. -/
theorem handle_command_line_of_terminate (a : Agent) (l : List Char)
    (h : refIsTerminate l = true) :
    handle_command_line a (strncpy l 127) = handle_command_line a str_TERMINATE := by
  have h1 : (strncpy l 127).dropWhile (fun c => c == ' ' || c == '\t') = str_TERMINATE := by
    unfold refIsTerminate at h
    exact of_decide_eq_true h
  have h2 : ¬ (str_TERMINATE = []) := by decide
  rw [handle_command_line_TERMINATE]
  unfold handle_command_line
  simp only [h1, h2, if_false, if_true]

theorem handle_line_terminating (a : Agent) (l : List Char) (hterm : a.terminating = false) :
    (handle_command_line a (strncpy l 127)).terminating = refIsTerminate l := by
  rw [(handle_command_line_flags a _).2, hterm, Bool.false_or]
  rfl

theorem trim_newline_of_line (l : List Char) (h : ∀ c ∈ l, isEol c = false) :
    trim_newline l = l := by
  rcases List.eq_nil_or_concat l with h0 | ⟨init, c, h1⟩
  · rw [h0]; rfl
  · rw [h1]
    have hc : isEol c = false := h c (by rw [h1]; simp)
    unfold trim_newline
    rw [List.concat_eq_append]
    apply rdropWhile_of_last
    unfold isEol at hc
    rw [Bool.or_comm]
    exact hc

theorem takeWhile_not_eol (s : List Char) :
    ∀ c ∈ s.takeWhile (fun c => !isEol c), isEol c = false := by
  intro c hc
  have := List.mem_takeWhile_imp hc
  simpa using this

theorem dropWhile_not_eol_head (s : List Char) (c : Char) (rest : List Char)
    (h : s.dropWhile (fun c => !isEol c) = c :: rest) : isEol c = true := by
  induction s with
  | nil => exact absurd h (by simp)
  | cons x xs ih =>
    by_cases hx : isEol x = true
    · rw [List.dropWhile_cons_of_neg (by simp [hx])] at h
      rw [← (List.cons.inj h).1]
      exact hx
    · rw [List.dropWhile_cons_of_pos (by simpa using hx)] at h
      exact ih h

/-- The lines of a text, by its first line. -/
theorem refSplitLines_step (s : List Char) :
    (s.dropWhile (fun c => !isEol c) = [] →
      refSplitLines s = if s = [] then [] else [s]) ∧
    (∀ c rest, s.dropWhile (fun c => !isEol c) = c :: rest →
      refSplitLines s =
        if s.takeWhile (fun c => !isEol c) = [] then refSplitLines rest
        else s.takeWhile (fun c => !isEol c) :: refSplitLines rest) := by
  have hs := List.takeWhile_append_dropWhile (fun c => !isEol c) s
  have hline : ∀ x ∈ s.takeWhile (fun c => !isEol c), ¬ (isEol x = true) := by
    intro x hx
    rw [takeWhile_not_eol s x hx]
    decide
  constructor
  · intro h0
    rw [h0, List.append_nil] at hs
    rw [hs] at hline
    unfold refSplitLines
    rw [List.splitOnP_eq_single isEol s hline]
    by_cases hnil : s = []
    · rw [if_pos hnil, hnil]; rfl
    · rw [if_neg hnil]
      cases s with
      | nil => exact absurd rfl hnil
      | cons x xs => rfl
  · intro c rest h1
    have hc := dropWhile_not_eol_head s c rest h1
    rw [h1] at hs
    unfold refSplitLines
    nth_rewrite 1 [← hs]
    rw [List.splitOnP_first isEol _ hline c hc rest]
    by_cases hnil : s.takeWhile (fun c => !isEol c) = []
    · rw [if_pos hnil, hnil]; rfl
    · rw [if_neg hnil]
      cases hl : s.takeWhile (fun c => !isEol c) with
      | nil => exact absurd hl hnil
      | cons x xs => rfl

/-- Line ends at the start of a text do not add a line. -/
theorem refSplitLines_dropWhile (s : List Char) :
    refSplitLines (s.dropWhile isEol) = refSplitLines s := by
  induction s with
  | nil => rfl
  | cons x xs ih =>
    by_cases hx : isEol x = true
    · rw [List.dropWhile_cons_of_pos hx, ih]
      unfold refSplitLines
      rw [List.splitOnP_cons, if_pos hx]
      rfl
    · rw [List.dropWhile_cons_of_neg hx]

/-- The inner loop of the receiver handles the lines of the text in order, up
to and including the first one taken for `TERMINATE`, and no line after it. -/
theorem receiveLoop_eq (a : Agent) (s : List Char) (hrun : a.running = true)
    (hterm : a.terminating = false) :
    receiveLoop a s = refHandleLines a (refUpToTerminate (refSplitLines s)) := by
  obtain ⟨n, hn⟩ : ∃ n, s.length = n := ⟨_, rfl⟩
  induction n using Nat.strong_induction_on generalizing a s with
  | _ n ih =>
    by_cases hnil : s = []
    · rw [hnil, receiveLoop, if_neg (by simp)]
      rfl
    · obtain ⟨st0, st1⟩ := refSplitLines_step s
      have hlinefree := takeWhile_not_eol s
      have htake : ∀ l : List Char, strncpy l 127 ≠ [] ↔ l ≠ [] := by
        intro l
        cases l with
        | nil => simp [strncpy]
        | cons x xs => simp [strncpy]
      have hcopy : trim_newline (strncpy (s.takeWhile (fun c => !isEol c)) 127)
          = strncpy (s.takeWhile (fun c => !isEol c)) 127 :=
        trim_newline_of_line _ (fun c hc => hlinefree c (List.mem_of_mem_take hc))
      rw [receiveLoop, if_pos ⟨hrun, hnil⟩]
      simp only [hcopy]
      by_cases hline : s.takeWhile (fun c => !isEol c) = []
      · -- an empty line: the text starts with a line end
        have hcn : ¬ (strncpy (s.takeWhile (fun c => !isEol c)) 127 ≠ []) := by
          rw [hline]; simp [strncpy]
        rw [if_neg hcn, if_neg (fun h => hcn h.1)]
        split
        · rename_i hE
          have := List.takeWhile_append_dropWhile (fun c => !isEol c) s
          rw [hline, hE] at this
          exact absurd this.symm hnil
        · rename_i c rest hE
          rw [st1 c rest hE, if_pos hline, ← refSplitLines_dropWhile rest]
          have hlen : (rest.dropWhile isEol).length < n := by
            have h1 : (rest.dropWhile isEol).length ≤ rest.length :=
              (List.dropWhile_sublist isEol).length_le
            have h2 : (s.dropWhile (fun c => !isEol c)).length ≤ s.length :=
              (List.dropWhile_sublist _).length_le
            rw [hE, List.length_cons] at h2
            omega
          exact ih _ hlen a _ hrun hterm rfl
      · have hcn : strncpy (s.takeWhile (fun c => !isEol c)) 127 ≠ [] := (htake _).mpr hline
        rw [if_pos hcn]
        have hfl := handle_command_line_flags a (strncpy (s.takeWhile (fun c => !isEol c)) 127)
        have hT := handle_line_terminating a (s.takeWhile (fun c => !isEol c)) hterm
        by_cases ht : refIsTerminate (s.takeWhile (fun c => !isEol c)) = true
        · rw [if_pos ⟨hcn, by rw [hT]; exact ht⟩]
          cases hE : s.dropWhile (fun c => !isEol c) with
          | nil =>
            rw [st0 hE, if_neg hnil]
            have e : s.takeWhile (fun c => !isEol c) = s := by
              have := List.takeWhile_append_dropWhile (fun c => !isEol c) s
              rw [hE, List.append_nil] at this
              exact this
            rw [e] at ht ⊢
            unfold refUpToTerminate
            rw [if_pos ht]
            rfl
          | cons c rest =>
            rw [st1 c rest hE, if_neg hline]
            unfold refUpToTerminate
            rw [if_pos ht]
            rfl
        · have hnt : ¬ (strncpy (s.takeWhile (fun c => !isEol c)) 127 ≠ [] ∧
              (handle_command_line a (strncpy (s.takeWhile (fun c => !isEol c)) 127)).terminating
                = true) := by
            rw [hT]; exact fun h => ht h.2
          rw [if_neg hnt]
          split
          · rename_i hE
            rw [st0 hE, if_neg hnil]
            have e : s.takeWhile (fun c => !isEol c) = s := by
              have := List.takeWhile_append_dropWhile (fun c => !isEol c) s
              rw [hE, List.append_nil] at this
              exact this
            rw [e] at ht ⊢
            unfold refUpToTerminate
            rw [if_neg ht]
            rfl
          · rename_i c rest hE
            rw [st1 c rest hE, if_neg hline, ← refSplitLines_dropWhile rest]
            have hlen : (rest.dropWhile isEol).length < n := by
              have h1 : (rest.dropWhile isEol).length ≤ rest.length :=
                (List.dropWhile_sublist isEol).length_le
              have h2 : (s.dropWhile (fun c => !isEol c)).length ≤ s.length :=
                (List.dropWhile_sublist _).length_le
              rw [hE, List.length_cons] at h2
              omega
            have hrec := ih _ hlen
              (handle_command_line a (strncpy (s.takeWhile (fun c => !isEol c)) 127)) _
              (by rw [hfl.1]; exact hrun)
              (by rw [hT]; simpa using ht) rfl
            rw [hrec]
            conv_rhs => unfold refUpToTerminate
            rw [if_neg ht]
            rfl

theorem refHandleLines_append (a : Agent) (xs ys : List (List Char)) :
    refHandleLines a (xs ++ ys) = refHandleLines (refHandleLines a xs) ys := by
  unfold refHandleLines
  rw [List.foldl_append]

theorem refHandleLines_cons (a : Agent) (l : List Char) (ls : List (List Char)) :
    refHandleLines a (l :: ls) = refHandleLines (handle_command_line a (strncpy l 127)) ls := rfl

/-- Lines that are not taken for `TERMINATE` leave the agent `Running`. -/
theorem refHandleLines_running (a : Agent) (ls : List (List Char))
    (hno : ∀ x ∈ ls, refIsTerminate x = false) :
    (refHandleLines a ls).running = a.running ∧
    ((refHandleLines a ls).terminating = a.terminating) ∧
    (Reachable a.flower → Reachable (refHandleLines a ls).flower) := by
  induction ls generalizing a with
  | nil => exact ⟨rfl, rfl, id⟩
  | cons l ls ih =>
    rw [refHandleLines_cons]
    obtain ⟨i1, i2, i3⟩ := ih (handle_command_line a (strncpy l 127))
      (fun x hx => hno x (List.mem_cons_of_mem _ hx))
    obtain ⟨f1, f2⟩ := handle_command_line_flags a (strncpy l 127)
    have hl : refIsTerminate l = false := hno l (List.mem_cons_self _ _)
    have hd : decide ((strncpy l 127).dropWhile (fun c => c == ' ' || c == '\t') = str_TERMINATE)
        = false := hl
    rw [hd, Bool.or_false] at f2
    exact ⟨by rw [i1, f1], by rw [i2, f2],
      fun h => i3 (handle_command_line_reachable a _ h)⟩

theorem refUpToTerminate_of_none (ls : List (List Char))
    (hno : ∀ x ∈ ls, refIsTerminate x = false) : refUpToTerminate ls = ls := by
  induction ls with
  | nil => rfl
  | cons l ls ih =>
    rw [refUpToTerminate, if_neg (by rw [hno l (List.mem_cons_self _ _)]; decide),
      ih (fun x hx => hno x (List.mem_cons_of_mem _ hx))]

theorem refUpToTerminate_append (xs ys : List (List Char))
    (hno : ∀ x ∈ xs, refIsTerminate x = false) :
    refUpToTerminate (xs ++ ys) = xs ++ refUpToTerminate ys := by
  induction xs with
  | nil => rfl
  | cons l ls ih =>
    rw [List.cons_append, refUpToTerminate,
      if_neg (by rw [hno l (List.mem_cons_self _ _)]; decide),
      ih (fun x hx => hno x (List.mem_cons_of_mem _ hx))]
    rfl

theorem refUpToTerminate_of_any (xs ys : List (List Char))
    (h : xs.any refIsTerminate = true) :
    refUpToTerminate (xs ++ ys) = refUpToTerminate xs := by
  induction xs with
  | nil => exact absurd h (by simp)
  | cons l ls ih =>
    rw [List.cons_append, refUpToTerminate, refUpToTerminate]
    by_cases hl : refIsTerminate l = true
    · rw [if_pos hl, if_pos hl]
    · rw [if_neg hl, if_neg hl, ih]
      rw [List.any_cons] at h
      simpa [hl] using h

/-- Once a line taken for `TERMINATE` is among the lines handled, the
terminating flag is set. -/
theorem refHandleLines_terminating (a : Agent) (ls : List (List Char))
    (hterm : a.terminating = false) :
    (refHandleLines a (refUpToTerminate ls)).terminating = ls.any refIsTerminate := by
  induction ls generalizing a with
  | nil => rw [refUpToTerminate]; exact hterm
  | cons l ls ih =>
    rw [refUpToTerminate, List.any_cons]
    have hT := handle_line_terminating a l hterm
    by_cases hl : refIsTerminate l = true
    · rw [if_pos hl, hl, Bool.true_or]
      show (handle_command_line a (strncpy l 127)).terminating = true
      rw [hT]; exact hl
    · rw [if_neg hl, refHandleLines_cons]
      have hl2 : refIsTerminate l = false := by simpa using hl
      rw [hl2, Bool.false_or]
      exact ih _ (by rw [hT]; exact hl2)

/-- The receiver over successive reads handles the lines in order of arrival,
up to and including the first one taken for `TERMINATE`; when there is one it
returns at once, whatever the reads hold after it. -/
theorem receiver_thread_eq (a : Agent) (bufs : List (List Char))
    (later : List (Option (List Char))) (hrun : a.running = true)
    (hterm : a.terminating = false) :
    receiver_thread a (bufs.map some ++ later)
      = if (refReadLines bufs).any refIsTerminate = true then
          refHandleLines a (refUpToTerminate (refReadLines bufs))
        else receiver_thread (refHandleLines a (refReadLines bufs)) later := by
  induction bufs generalizing a with
  | nil =>
    rw [refReadLines, if_neg (by simp)]
    rfl
  | cons b bs ih =>
    rw [List.map_cons, List.cons_append, receiver_thread, refReadLines]
    simp only [receiveLoop_eq a (cstr b) hrun hterm]
    rw [refHandleLines_terminating a _ hterm]
    by_cases hb : (refSplitLines (cstr b)).any refIsTerminate = true
    · rw [if_pos hb, if_pos (by rw [List.any_append, hb, Bool.true_or]),
        refUpToTerminate_of_any _ _ hb]
    · rw [if_neg hb]
      have hno : ∀ x ∈ refSplitLines (cstr b), refIsTerminate x = false := by
        intro x hx
        by_contra hx2
        exact hb (List.any_eq_true.mpr ⟨x, hx, by simpa using hx2⟩)
      obtain ⟨r1, r2, _⟩ := refHandleLines_running a _ hno
      rw [refUpToTerminate_of_none _ hno,
        ih (refHandleLines a (refSplitLines (cstr b))) (by rw [r1]; exact hrun)
          (by rw [r2]; exact hterm),
        refUpToTerminate_append _ _ hno, refHandleLines_append, refHandleLines_append]
      have hb2 : (refSplitLines (cstr b)).any refIsTerminate = false := by simpa using hb
      rw [List.any_append, hb2, Bool.false_or]

theorem cstr_TERMINATE_append (tail : List Char) :
    cstr (str_TERMINATE ++ tail) = str_TERMINATE ++ cstr tail := by
  unfold cstr
  rw [List.takeWhile_append_of_pos]
  decide

theorem cstr_tail (tail : List Char)
    (htail : tail = [] ∨ ∃ c rest, tail = c :: rest ∧ isEol c = true) :
    cstr tail = [] ∨ ∃ c rest, cstr tail = c :: rest ∧ isEol c = true := by
  rcases htail with h | ⟨c, rest, h, hc⟩
  · left; rw [h]; rfl
  · right
    have hn : (c != NUL) = true := by
      unfold isEol at hc
      rcases Bool.or_eq_true_iff.mp hc with h1 | h1
      · rw [beq_iff_eq.mp h1]; decide
      · rw [beq_iff_eq.mp h1]; decide
    refine ⟨c, rest.takeWhile (fun c => c != NUL), ?_, hc⟩
    rw [h]
    unfold cstr
    simp only [List.takeWhile, hn]

theorem receiver_thread_TERMINATE (a : Agent) (tail : List Char)
    (later : List (Option (List Char))) (hrun : a.running = true)
    (htail : tail = [] ∨ ∃ c rest, tail = c :: rest ∧ isEol c = true) :
    receiver_thread a (some (str_TERMINATE ++ tail) :: later)
      = handle_command_line a str_TERMINATE := by
  have hterm : (handle_command_line a str_TERMINATE).terminating = true := by
    rw [handle_command_line_TERMINATE]
  rw [receiver_thread]
  simp only [cstr_TERMINATE_append, receiveLoop_TERMINATE a (cstr tail) hrun (cstr_tail tail htail)]
  rw [if_pos hterm]

/-- The tick loop after `TERMINATE` was handled by a `Running` agent. -/
theorem stops_after_TERMINATE (a : Agent) (ha : AgentRunning a) :
    ∃ k : Nat, 1 ≤ k ∧ k ≤ 50 ∧ StopsAfter (handle_command_line a str_TERMINATE) k := by
  obtain ⟨hreach, hrun, _⟩ := ha
  have hc : Closing 50 (handle_command_line a str_TERMINATE).flower := by
    rw [handle_command_line_TERMINATE]
    exact Closing_after_CLOSE a.flower hreach
  obtain ⟨k, k1, k2, k3⟩ := motion_thread_stops 50 (handle_command_line a str_TERMINATE)
    (by rw [handle_command_line_TERMINATE]; exact hrun)
    (by rw [handle_command_line_TERMINATE]) hc
  exact ⟨k, k1, by simpa using k2, k3⟩

/-- C18: for an agent in its `Running` state whose flower is reachable from
`Flower_init` by commands and ticks.  (1) Handling `TERMINATE` applies `CLOSE`
and sets the terminating flag.  (2) The receiver handles the lines of a read
in order, up to and including the first line taken for `TERMINATE`, and no
line after it; over successive reads it handles the lines in order of arrival
up to and including the first `TERMINATE` and then returns, whatever follows
in the same read or in later reads.  (3) So when the lines received are `pre`,
then a `TERMINATE` line, then anything, the agent ends as the one that handled
`pre` and then `TERMINATE`: the agent after `pre` is still `Running` with a
reachable flower, `CLOSE` is the last command applied to the flower, and the
tick loop (`Flower_update` with 100 ms per iteration) finds no petal moving
and clears `running` in some iteration `k` with `1 ≤ k ≤ 50`, every petal in
use being within 0.5 degrees of the close angle.  (4) In particular for a read
that starts with `TERMINATE`, and (5) for the tick loop right after
`TERMINATE`. -/
theorem terminate_closes_and_stops (a : Agent) (ha : AgentRunning a) :
    handle_command_line a str_TERMINATE
      = { flower := Flower_applyCommand a.flower str_CLOSE, running := a.running,
          terminating := true } ∧
    ((∀ text : List Char,
        receiveLoop a text = refHandleLines a (refUpToTerminate (refSplitLines text))) ∧
      (∀ (bufs : List (List Char)) (later : List (Option (List Char))),
        receiver_thread a (bufs.map some ++ later)
          = if (refReadLines bufs).any refIsTerminate = true then
              refHandleLines a (refUpToTerminate (refReadLines bufs))
            else receiver_thread (refHandleLines a (refReadLines bufs)) later)) ∧
    (∀ (bufs : List (List Char)) (later : List (Option (List Char)))
        (pre : List (List Char)) (l : List Char) (post : List (List Char)),
      refReadLines bufs = pre ++ l :: post →
      (∀ x ∈ pre, refIsTerminate x = false) → refIsTerminate l = true →
      AgentRunning (refHandleLines a pre) ∧
      receiver_thread a (bufs.map some ++ later)
        = { flower := Flower_applyCommand (refHandleLines a pre).flower str_CLOSE,
            running := true, terminating := true } ∧
      ∃ k : Nat, 1 ≤ k ∧ k ≤ 50 ∧ StopsAfter (receiver_thread a (bufs.map some ++ later)) k) ∧
    (∀ (tail : List Char) (later : List (Option (List Char))),
      (tail = [] ∨ ∃ c rest, tail = c :: rest ∧ isEol c = true) →
      receiveLoop a (str_TERMINATE ++ tail) = handle_command_line a str_TERMINATE ∧
      receiver_thread a (some (str_TERMINATE ++ tail) :: later)
        = handle_command_line a str_TERMINATE) ∧
    (∃ k : Nat, 1 ≤ k ∧ k ≤ 50 ∧ StopsAfter (handle_command_line a str_TERMINATE) k) := by
  have ha2 := ha
  obtain ⟨hreach, hrun, hterm⟩ := ha
  refine ⟨handle_command_line_TERMINATE a,
    ⟨fun text => receiveLoop_eq a text hrun hterm,
      fun bufs later => receiver_thread_eq a bufs later hrun hterm⟩, ?_, ?_,
    stops_after_TERMINATE a ha2⟩
  · intro bufs later pre l post hL hpre hl
    obtain ⟨r1, r2, r3⟩ := refHandleLines_running a pre hpre
    have hrunning : AgentRunning (refHandleLines a pre) :=
      ⟨r3 hreach, by rw [r1]; exact hrun, by rw [r2]; exact hterm⟩
    have hany : (refReadLines bufs).any refIsTerminate = true := by
      rw [hL]
      exact List.any_eq_true.mpr ⟨l, by simp, hl⟩
    have hup : refUpToTerminate (pre ++ l :: post) = pre ++ [l] := by
      rw [refUpToTerminate_append _ _ hpre, refUpToTerminate, if_pos hl]
    have hres : receiver_thread a (bufs.map some ++ later)
        = handle_command_line (refHandleLines a pre) str_TERMINATE := by
      rw [receiver_thread_eq a bufs later hrun hterm, if_pos hany, hL, hup,
        refHandleLines_append, ← handle_command_line_of_terminate _ l hl]
      rfl
    refine ⟨hrunning, ?_, ?_⟩
    · rw [hres, handle_command_line_TERMINATE]
      have : (refHandleLines a pre).running = true := hrunning.2.1
      rw [← this]
    · rw [hres]
      exact stops_after_TERMINATE _ hrunning
  · intro tail later htail
    exact ⟨receiveLoop_TERMINATE a tail hrun htail,
      receiver_thread_TERMINATE a tail later hrun htail⟩

/-- C18 at an agent whose flower `rose` is fully open, for a read that holds
the three lines `OPEN`, `TERMINATE`, `SEQ1` and a later read that holds
`OPEN`: the receiver handles `OPEN` and `TERMINATE`, and neither `SEQ1` nor the
later `OPEN` reaches the flower. -/
theorem terminate_closes_and_stops_witness :
    AgentRunning openRoseAgent ∧
    (refReadLines [openTerminateSeq1] = [str_OPEN] ++ str_TERMINATE :: [str_SEQ1] ∧
      (∀ x ∈ [str_OPEN], refIsTerminate x = false) ∧ refIsTerminate str_TERMINATE = true) ∧
    receiver_thread openRoseAgent ([openTerminateSeq1].map some ++ [some str_OPEN])
      = { flower := Flower_applyCommand (refHandleLines openRoseAgent [str_OPEN]).flower
            str_CLOSE,
          running := true, terminating := true } ∧
    (∃ k : Nat, 1 ≤ k ∧ k ≤ 50 ∧
      StopsAfter
        (receiver_thread openRoseAgent ([openTerminateSeq1].map some ++ [some str_OPEN])) k) :=
  have hr : AgentRunning openRoseAgent :=
    ⟨Reachable_runTicks _ _
        (Reachable.command _ str_OPEN (Reachable.init rawFlower (some ['r', 'o', 's', 'e']) 3)),
      rfl, rfl⟩
  have hL : refReadLines [openTerminateSeq1] = [str_OPEN] ++ str_TERMINATE :: [str_SEQ1] := by
    decide
  have hpre : ∀ x ∈ [str_OPEN], refIsTerminate x = false := by decide
  have hl : refIsTerminate str_TERMINATE = true := by decide
  have h := (terminate_closes_and_stops openRoseAgent hr).2.2.1 [openTerminateSeq1]
    [some str_OPEN] [str_OPEN] str_TERMINATE [str_SEQ1] hL hpre hl
  ⟨hr, ⟨hL, hpre, hl⟩, h.2.1, h.2.2⟩

end FlowerGarden
